import Mathlib

/-!
Shallow embedding of `cs61a/ants/ants_gui.py` (the Ants-vs-SomeBees GUI),
covering the view-reconciliation engine (`AntsGUI._update_places`,
`AntsGUI._draw_insect`), spatial click dispatch (`AntsGUI._interpret_click`,
`AntsGUI.add_click_rect`), the place-click callback (`AntsGUI._init_places.on_click`),
the per-turn interaction loop (`AntsGUI.strategy`), and the animation helpers
(`animate_leaf`, `animate_dart`).

Python dictionaries are embedded as association lists with first-match lookup,
in-place update (`d[k] = v`), and first-occurrence removal (`d.pop(k)`).
Insects are identified by natural-number keys standing for Python object
identity (the source uses insect objects themselves as dictionary keys).
Fallible dictionary accesses (Python `KeyError`) are made explicit: each
state-mutating operation returns the (possibly partially mutated) state, the
list of backend commands issued so far, and an optional error, mirroring the
fact that a raised `KeyError` leaves all mutations performed before the raise
in place.

The simulation model (`ants.py`) and the rendering backend (`graphics.py`) are
not part of the source tree; where their behavior is needed it is modelled
from the specification and marked as such in doc comments.
-/

set_option maxHeartbeats 1000000
set_option linter.unusedSectionVars false
set_option linter.unusedVariables false

namespace AntsGui

/-! ### Association lists standing for Python dictionaries -/

/-- First-match lookup, as in Python `d[k]` / `k in d`. -/
def alookup {α β : Type} [DecidableEq α] : List (α × β) → α → Option β
  | [], _ => none
  | (k, v) :: t, k' => if k = k' then some v else alookup t k'

/-- Python `d[k] = v`: update the first binding in place, else append. -/
def aset {α β : Type} [DecidableEq α] : List (α × β) → α → β → List (α × β)
  | [], k, v => [(k, v)]
  | (k', v') :: t, k, v => if k' = k then (k, v) :: t else (k', v') :: aset t k v

/-- Python `d.pop(k)`: remove the first binding for `k`. -/
def aremove {α β : Type} [DecidableEq α] : List (α × β) → α → List (α × β)
  | [], _ => []
  | (k', v') :: t, k => if k' = k then t else (k', v') :: aremove t k

/-- The key list of an association list (Python `d.keys()`). -/
def akeys {α β : Type} (l : List (α × β)) : List α := l.map Prod.fst

/-! ### Layout constants and asset table (ants_gui.py lines 30-67) -/

def STRATEGY_SECONDS : ℚ := 3

def PLACE_PADDING : Int × Int := (10, 10)

def CRYPT : Int := 650

/-- The `INSECT_FILES` table of ants_gui.py. -/
def INSECT_FILES : List (String × String) :=
  [("Worker", "img/ant_harvester.gif"),
   ("Thrower", "img/ant_thrower.gif"),
   ("Long", "img/ant_longthrower.gif"),
   ("Short", "img/ant_shortthrower.gif"),
   ("Harvester", "img/ant_harvester.gif"),
   ("Fire", "img/ant_fire.gif"),
   ("Bodyguard", "img/ant_weeds.gif"),
   ("Hungry", "img/ant_hungry.gif"),
   ("Slow", "img/ant_freeze.gif"),
   ("Stun", "img/ant_stun.gif"),
   ("Ninja", "img/ant_ninja.gif"),
   ("Wall", "img/ant_wall.gif"),
   ("Scuba", "img/ant_scuba.gif"),
   ("Queen", "img/ant_queen.gif"),
   ("Bee", "img/bee.gif"),
   ("Remover", "img/remover.gif")]

/-- Modelled from the spec (§6 rendering backend): `graphics.shift_point`
adds an offset to a point. -/
def shift_point (p off : Int × Int) : Int × Int := (p.1 + off.1, p.2 + off.2)

/-! ### The data model

An insect key (`Nat`) stands for the Python object identity of one insect
instance.  `AntEnt` is the primary entity a place may hold; `container`
mirrors the best-effort `hasattr(place.ant, 'container') and
place.ant.container` probing, and `passenger` the nested `place.ant.ant`. -/

structure AntEnt where
  id : Nat
  name : String
  container : Bool
  passenger : Option (Nat × String)
deriving DecidableEq, Repr

/-- One entry of `colony.places`: name, `exit` link (by name; place names are
unique session keys, so the source's `other_place.exit is place` identity test
is name equality), the primary ant and the resident bees. -/
structure Place where
  name : String
  exit : Option String
  ant : Option AntEnt
  bees : List Nat
deriving DecidableEq, Repr

/-- The model snapshot the GUI reads each refresh: the ordered `colony.places`
dictionary (which includes the Hive entry, registered first by the model), the
hive, and the global counters. -/
structure Colony where
  places : List Place
  hiveName : String
  hiveBees : List Nat
  food : Nat
  time : Nat
deriving DecidableEq, Repr

/-- The mutable GUI state relevant to reconciliation:
`images : place_name -> (insect -> image id)` and `place_points`, plus the
canvas's supply of fresh image ids. -/
structure GuiState where
  images : List (String × List (Nat × Nat))
  place_points : List (String × (Int × Int))
  nextId : Nat
deriving DecidableEq, Repr

/-- Backend commands issued by the reconciler (draw = register a new visual,
slide = move/retire animation). -/
inductive CanvasCmd where
  | drawImage (pos : Int × Int) (file : String) (behind : Nat) (imageId : Nat)
  | slideShape (image : Nat) (pos : Int × Int) (duration : ℚ)
deriving DecidableEq, Repr

/-- Python `KeyError`s that the view code can raise, by source location. -/
inductive GuiErr where
  | imagesKey (place : String)
  | passengerContainerKey (place : String) (ant : Nat)
  | popKey (place : String) (insect : Nat)
  | fileKey (name : String)
  | pointsKey (place : String)
  | placesKey (name : String)
deriving DecidableEq, Repr

/-- Result of a state-mutating GUI operation: the state reached (partial on
error, as Python mutation-in-place leaves prior effects), the commands issued,
and an optional raised error. -/
abbrev GuiRes := GuiState × List CanvasCmd × Option GuiErr

/-- Sequencing that mirrors Python statement order: stop at the first raise,
keeping the partially mutated state. -/
def andThen (r : GuiRes) (f : GuiState → GuiRes) : GuiRes :=
  match r with
  | (st, cmds, none) =>
    match f st with
    | (st2, cmds2, e) => (st2, cmds ++ cmds2, e)
  | (st, cmds, some e) => (st, cmds, some e)

/-- Membership of insect `i` in the tracked mapping of container `n`
(Python `i in self.images[n]`; `false` when `n` is untracked). -/
def trackedB (st : GuiState) (n : String) (i : Nat) : Bool :=
  match alookup st.images n with
  | some pi => (alookup pi i).isSome
  | none => false

/-- The tracked mapping of a container, defaulting to empty ( only used at
points where the source has already checked the key). -/
def imagesOf (st : GuiState) (n : String) : List (Nat × Nat) :=
  (alookup st.images n).getD []

/-! ### `AntsGUI._draw_insect` (lines 257-264) -/

/-- `_draw_insect`: look up the asset, compute the position (the
`random_offset` jitter of line 261-262, drawn from `random.randint`, is passed
in as an input), issue one `draw_image`, and record the fresh image id under
the insect's key.  A missing asset or place raises before any mutation; a
missing `images[place_name]` raises after the draw command was already issued,
as in the source. -/
def draw_insect (st : GuiState) (insectId : Nat) (insectName : String)
    (place_name : String) (random_offset : Option (Int × Int)) (behind : Nat) : GuiRes :=
  match alookup INSECT_FILES insectName with
  | none => (st, [], some (GuiErr.fileKey insectName))
  | some image_file =>
    match alookup st.place_points place_name with
    | none => (st, [], some (GuiErr.pointsKey place_name))
    | some base =>
      let pos := shift_point base PLACE_PADDING
      let pos := match random_offset with
        | some off => shift_point pos off
        | none => pos
      let image := st.nextId
      match alookup st.images place_name with
      | none => (st, [CanvasCmd.drawImage pos image_file behind image],
                 some (GuiErr.imagesKey place_name))
      | some pi =>
        ({ st with
            images := aset st.images place_name (aset pi insectId image),
            nextId := st.nextId + 1 },
         [CanvasCmd.drawImage pos image_file behind image], none)

/-! ### `AntsGUI._update_places` (lines 213-255) -/

/-- The source-container search of lines 236-240: the first entry of
`colony.places` whose `exit` is the destination, else the hive. -/
def findSource (places : List Place) (hiveName : String) (dest : String) : String :=
  match places.find? (fun op => op.exit = some dest) with
  | some op => op.name
  | none => hiveName

/-- Lines 236-244 for one arriving bee: select the source container, pop the
bee's image from it (KeyError if untracked there), slide it to the
destination, and record it under the destination.  Statement order matches the
source: pop, then position lookup, then slide, then insert. -/
def beeArrival (colony : Colony) (place : Place) (st : GuiState) (bee : Nat) : GuiRes :=
  let srcName := findSource colony.places colony.hiveName place.name
  match alookup st.images srcName with
  | none => (st, [], some (GuiErr.imagesKey srcName))
  | some spi =>
    match alookup spi bee with
    | none => (st, [], some (GuiErr.popKey srcName bee))
    | some image =>
      let st1 := { st with images := aset st.images srcName (aremove spi bee) }
      match alookup st1.place_points place.name with
      | none => (st1, [], some (GuiErr.pointsKey place.name))
      | some base =>
        let pos := shift_point base PLACE_PADDING
        match alookup st1.images place.name with
        | none => (st1, [CanvasCmd.slideShape image pos STRATEGY_SECONDS],
                   some (GuiErr.imagesKey place.name))
        | some dpi =>
          ({ st1 with images := aset st1.images place.name (aset dpi bee image) },
           [CanvasCmd.slideShape image pos STRATEGY_SECONDS], none)

/-- Lines 227-233: the primary-ant block.  The passenger branch (lines
228-231) runs first: if the ant is a container carrying an untracked
passenger, the CONTAINER's image is looked up (KeyError if the container
itself is untracked) and the passenger drawn behind it; then the ant itself is
drawn if untracked.  Membership tests read the live dictionary. -/
def processAnt (st : GuiState) (pname : String) (a : AntEnt) : GuiRes :=
  let step1 : GuiRes :=
    match a.passenger with
    | some q =>
      if a.container ∧ ¬ trackedB st pname q.1 then
        match alookup (imagesOf st pname) a.id with
        | none => (st, [], some (GuiErr.passengerContainerKey pname a.id))
        | some containerImg => draw_insect st q.1 q.2 pname none containerImg
      else (st, [], none)
    | none => (st, [], none)
  andThen step1 (fun st1 =>
    if trackedB st1 pname a.id then (st1, [], none)
    else draw_insect st1 a.id a.name pname none 0)

/-- Lines 234-244: the bee loop. The `bee not in current` test is against the
live key view. -/
def processBees (colony : Colony) (place : Place) : List Nat → GuiState → GuiRes
  | [], st => (st, [], none)
  | b :: rest, st =>
    if trackedB st place.name b then processBees colony place rest st
    else andThen (beeArrival colony place st b) (fun st1 => processBees colony place rest st1)

/-- The `valid_insects` set of lines 247-250, as an id list: the bees, the
primary ant, and (when the ant is a container) its passenger. -/
def validIds (place : Place) : List Nat :=
  place.bees ++
    (match place.ant with
     | none => []
     | some a =>
       a.id :: (if a.container then
                  (match a.passenger with | some q => [q.1] | none => [])
                else []))

/-- Lines 252-255 for one expired insect: skip when the place has an exit that
still tracks the insect, else pop its image (KeyError surfaces as in the
source) and slide it to the crypt. -/
def retireOne (st : GuiState) (place : Place) (insect : Nat) : GuiRes :=
  let core : GuiState → GuiRes := fun st =>
    match alookup st.images place.name with
    | none => (st, [], some (GuiErr.imagesKey place.name))
    | some pi =>
      match alookup pi insect with
      | none => (st, [], some (GuiErr.popKey place.name insect))
      | some image =>
        let st1 := { st with images := aset st.images place.name (aremove pi insect) }
        match alookup st1.place_points place.name with
        | none => (st1, [], some (GuiErr.pointsKey place.name))
        | some base =>
          (st1, [CanvasCmd.slideShape image (base.1, CRYPT) STRATEGY_SECONDS], none)
  match place.exit with
  | none => core st
  | some ex =>
    match alookup st.images ex with
    | none => (st, [], some (GuiErr.imagesKey ex))
    | some epi =>
      if (alookup epi insect).isSome then (st, [], none)
      else core st

/-- The retirement loop over `current - valid_insects`. -/
def retireList (place : Place) : List Nat → GuiState → GuiRes
  | [], st => (st, [], none)
  | i :: rest, st =>
    andThen (retireOne st place i) (fun st1 => retireList place rest st1)

/-- Lines 221-255 for one entry of `colony.places`: skip the Hive, take the
live key view (KeyError if the place is untracked), run the ant block, the bee
loop, then compute `current - valid_insects` from the now-current mapping and
retire.  (Python iterates the difference as a set; the iteration order is
fixed here as key order, which only permutes independent retirements.) -/
def processPlace (colony : Colony) (st : GuiState) (place : Place) : GuiRes :=
  if place.name = "Hive" then (st, [], none)
  else
    match alookup st.images place.name with
    | none => (st, [], some (GuiErr.imagesKey place.name))
    | some _ =>
      let r1 : GuiRes :=
        match place.ant with
        | none => (st, [], none)
        | some a => processAnt st place.name a
      andThen r1 (fun st1 =>
        andThen (processBees colony place place.bees st1) (fun st2 =>
          let current := akeys (imagesOf st2 place.name)
          let valid := validIds place
          let expired := current.filter (fun i => decide (i ∉ valid))
          retireList place expired st2))

/-- The main loop of `_update_places` over `colony.places.items()`. -/
def updatePlacesAux (colony : Colony) : List Place → GuiState → List CanvasCmd → GuiRes
  | [], st, acc => (st, acc, none)
  | p :: rest, st, acc =>
    match processPlace colony st p with
    | (st1, cmds, none) => updatePlacesAux colony rest st1 (acc ++ cmds)
    | (st1, cmds, some e) => (st1, acc ++ cmds, some e)

/-- `AntsGUI._update_places(colony)`. -/
def updatePlaces (colony : Colony) (st : GuiState) : GuiRes :=
  updatePlacesAux colony colony.places st []

/-! ### `AntsGUI.add_click_rect` / `AntsGUI._interpret_click` (lines 162-167, 192-198) -/

/-- One entry of `self._click_rectangles`: `(pos, width, height, frame, on_click)`.
The callback is represented by the rectangle's `frame` id, which the source
passes to `on_click`; the dispatcher below reports which callbacks fire. -/
structure ClickRect where
  corner : Int × Int
  width : Int
  height : Int
  frame : Nat
deriving DecidableEq, Repr

/-- The containment test of line 197:
`x >= cx and x <= cx + width and y >= cy and y <= cy + height`. -/
def rectContains (r : ClickRect) (pos : Int × Int) : Bool :=
  pos.1 ≥ r.corner.1 ∧ pos.1 ≤ r.corner.1 + r.width ∧
  pos.2 ≥ r.corner.2 ∧ pos.2 ≤ r.corner.2 + r.height

/-- `_interpret_click`: walk `self._click_rectangles` in registration order and
invoke `on_click(colony, frame)` for each rectangle containing the point.
Returns the frames of the invoked callbacks, in invocation order. -/
def interpret_click : List ClickRect → (Int × Int) → List Nat
  | [], _ => []
  | r :: rest, pos =>
    if rectContains r pos then r.frame :: interpret_click rest pos
    else interpret_click rest pos

/-- The specification's `hitTest`: the FIRST registered region containing the
point, or none.  Stated from the spec's words (§4.1), for comparison with the
source's `interpret_click`. -/
def hitTestSpec (rects : List ClickRect) (pos : Int × Int) : Option Nat :=
  (rects.find? (fun r => rectContains r pos)).map ClickRect.frame

/-! ### `AntsGUI._init_places.on_click` (lines 130-145) -/

/-- Python `print` output of the callback, by source line: the command echo of
lines 135/140, and the caught-exception report of line 145 (the diagnostic
channel for a rejected mutation). -/
inductive PrintOut where
  | commandEcho (s : String)
  | diagnostic (s : String)
deriving DecidableEq, Repr

/-- `colony.places[name]` (a dictionary keyed by unique place name). -/
def colonyPlace (c : Colony) (n : String) : Option Place :=
  c.places.find? (fun p => p.name = n)

/-- Rendering of a raised error for the `print(e)` of line 145. -/
def describeErr : GuiErr → String
  | GuiErr.imagesKey p => "KeyError: " ++ p
  | GuiErr.passengerContainerKey p _ => "KeyError: container at " ++ p
  | GuiErr.popKey p _ => "KeyError: pop at " ++ p
  | GuiErr.fileKey n => "KeyError: " ++ n
  | GuiErr.pointsKey p => "KeyError: " ++ p
  | GuiErr.placesKey n => "KeyError: " ++ n

/-- The per-place click callback of `_init_places` (lines 130-145).
`deploy` and `remove` stand for `colony.deploy_ant` / `colony.remove_ant`,
which live in the model collaborator (`ants.py`, not in the source tree);
modelled from the spec (§6): both are mutation requests and `deploy` may fail,
in which case it reports the failure and mutates nothing.  The deploy branch
wraps the mutation AND the refresh in `try/except`, so an error there is
caught and printed; the Remover branch is unguarded, so its errors propagate. -/
def place_on_click
    (deploy : Colony → String → String → Except String Colony)
    (remove : Colony → String → Colony)
    (name : String) (ant_type_selected : Option String)
    (colony : Colony) (st : GuiState) :
    Colony × GuiState × List CanvasCmd × List PrintOut × Option GuiErr :=
  match colonyPlace colony name with
  | none => (colony, st, [], [], some (GuiErr.placesKey name))
  | some pl =>
    match ant_type_selected with
    | none => (colony, st, [], [], none)
    | some t =>
      if t = "Remover" then
        if pl.ant.isSome then
          let echo := PrintOut.commandEcho ("colony.remove_ant(" ++ name ++ ")")
          let c2 := remove colony name
          match updatePlaces c2 st with
          | (st1, cmds, e) => (c2, st1, cmds, [echo], e)
        else (colony, st, [], [], none)
      else
        let echo := PrintOut.commandEcho ("colony.deploy_ant(" ++ name ++ ", " ++ t ++ ")")
        match deploy colony name t with
        | Except.error emsg => (colony, st, [], [echo, PrintOut.diagnostic emsg], none)
        | Except.ok c2 =>
          match updatePlaces c2 st with
          | (st1, cmds, none) => (c2, st1, cmds, [echo], none)
          | (st1, cmds, some ge) =>
            (c2, st1, cmds, [echo, PrintOut.diagnostic (describeErr ge)], none)

/-! ### `AntsGUI.strategy` (lines 169-191): the per-turn interaction loop -/

/-- One result of `self.canvas.wait_for_click(STRATEGY_SECONDS - elapsed)`:
the click position (none on timeout) and the physical time the wait consumed.
`wait_for_click` lives in the opaque backend (`graphics.py`, not in the source
tree); modelled from the spec (§6): it blocks for at most the requested budget
and reports position and elapsed time. -/
structure WaitEv where
  pos : Option (Int × Int)
  el : ℚ
deriving DecidableEq, Repr

/-- The control skeleton of the per-turn loop (lines 173-182): while
`elapsed < STRATEGY_SECONDS`, refresh the view, wait (consuming the next
scripted wait result), accumulate the elapsed time, and dispatch the click if
any.  When the script is exhausted, every further wait times out, returning
the full remaining budget (the modelled timeout behavior), after which the
guard fails.  Returns the final `elapsed` and the dispatched click positions
in dispatch order.  The refresh calls in the body do not touch `elapsed`. -/
def strategy_loop : List WaitEv → ℚ → ℚ × List (Int × Int)
  | [], elapsed =>
    if elapsed < STRATEGY_SECONDS then (elapsed + (STRATEGY_SECONDS - elapsed), [])
    else (elapsed, [])
  | ev :: rest, elapsed =>
    if elapsed < STRATEGY_SECONDS then
      let r := strategy_loop rest (elapsed + ev.el)
      (r.1, match ev.pos with | some p => p :: r.2 | none => r.2)
    else (elapsed, [])

/-- The claim's hypotheses on the scripted wait results: waits consume
nonnegative physical time; while the turn is running, a wait consumes at most
the requested remaining budget and a timeout consumes exactly it. -/
def ValidScript : ℚ → List WaitEv → Prop
  | _, [] => True
  | elapsed, ev :: rest =>
    (0 ≤ ev.el ∧
      (elapsed < STRATEGY_SECONDS →
        ev.el ≤ STRATEGY_SECONDS - elapsed ∧
        (ev.pos = none → ev.el = STRATEGY_SECONDS - elapsed))) ∧
    ValidScript (elapsed + ev.el) rest

/-- The loop's accumulated elapsed time when the `k`-th scripted wait result
is delivered (the sum of the first `k` consumed wait times). -/
def elapsedAt (script : List WaitEv) (k : Nat) : ℚ :=
  ((script.take k).map WaitEv.el).sum

/-! ### `animate_leaf` / `animate_dart` (lines 287-301, 309-323) -/

/-- Python `int()` on a rational: truncation toward zero. -/
def pyInt (q : ℚ) : ℤ := if 0 ≤ q then ⌊q⌋ else ⌈q⌉

/-- Commands an animation task issues to the backend: allocate the polygon,
start the per-frame animation (`canvas.animate_shape`, carrying the per-frame
increment closed over by `points_fn`), and schedule the one-shot cleanup
(`canvas._canvas.after(int(1000*duration) + 1, lambda: canvas.clear(shape))`).
The polygon geometry (`leaf_coords`/`dart_coords`, trigonometric) belongs to
the opaque backend and is not reproduced. -/
inductive AnimCmd where
  | drawPolygon (shape : Nat) (color : String) (fill_color : String)
  | animateShape (shape : Nat) (duration : ℚ) (increment : ℚ × ℚ)
  | scheduleClear (delayMs : ℤ) (shape : Nat)
deriving DecidableEq, Repr

/-- `animate_leaf(canvas, start, end, duration, color)`: draw the leaf
polygon, compute `num_frames = duration / FRAME_TIME` and the constant
per-frame `increment`, start the animation, and schedule exactly one clear at
`int(1000*duration) + 1` milliseconds.  `shapeId` is the fresh id
`canvas.draw_polygon` returns; `FRAME_TIME` is `graphics.FRAME_TIME`. -/
def animate_leaf (shapeId : Nat) (FRAME_TIME : ℚ) (startP endP : ℚ × ℚ)
    (duration : ℚ) (color : String) : List AnimCmd :=
  let leaf := shapeId
  let num_frames := duration / FRAME_TIME
  let increment := ((endP.1 - startP.1) / num_frames, (endP.2 - startP.2) / num_frames)
  [AnimCmd.drawPolygon leaf "DarkGreen" color,
   AnimCmd.animateShape leaf duration increment,
   AnimCmd.scheduleClear (pyInt (1000 * duration) + 1) leaf]

/-- `animate_dart(canvas, start, end, duration, color)`: identical scheduling
structure with the dart polygon. -/
def animate_dart (shapeId : Nat) (FRAME_TIME : ℚ) (startP endP : ℚ × ℚ)
    (duration : ℚ) (color : String) : List AnimCmd :=
  let dart := shapeId
  let num_frames := duration / FRAME_TIME
  let increment := ((endP.1 - startP.1) / num_frames, (endP.2 - startP.2) / num_frames)
  [AnimCmd.drawPolygon dart "DarkGreen" color,
   AnimCmd.animateShape dart duration increment,
   AnimCmd.scheduleClear (pyInt (1000 * duration) + 1) dart]

/-- What the backend executes for one command, when it actually fires
`framesFired` of the scheduled animation frames before the duration elapses
(modelled from the spec §4.5: frames are best-effort, cleanup is
unconditional). -/
inductive ExecEvent where
  | polygonDrawn (shape : Nat)
  | frameRedraw (shape : Nat) (idx : Nat)
  | cleared (shape : Nat) (atMs : ℤ)
deriving DecidableEq, Repr

def execAnim (framesFired : Nat) : AnimCmd → List ExecEvent
  | AnimCmd.drawPolygon s _ _ => [ExecEvent.polygonDrawn s]
  | AnimCmd.animateShape s _ _ =>
    (List.range framesFired).map (fun i => ExecEvent.frameRedraw s i)
  | AnimCmd.scheduleClear t s => [ExecEvent.cleared s t]

/-- The executed event trace of a command list. -/
def execTrace (framesFired : Nat) (cmds : List AnimCmd) : List ExecEvent :=
  cmds.flatMap (execAnim framesFired)

/-- Does an executed event clear the given shape? -/
def isClearOf (shape : Nat) : ExecEvent → Bool
  | ExecEvent.cleared s _ => s = shape
  | _ => false

/-! ## Lemmas about the dictionary embedding -/

section AssocLemmas

variable {α β : Type} [DecidableEq α]

@[simp] theorem akeys_nil : akeys ([] : List (α × β)) = [] := rfl

@[simp] theorem akeys_cons (k : α) (v : β) (t : List (α × β)) :
    akeys ((k, v) :: t) = k :: akeys t := rfl

@[simp] theorem alookup_nil (k : α) : alookup ([] : List (α × β)) k = none := rfl

theorem alookup_cons (k k' : α) (v : β) (t : List (α × β)) :
    alookup ((k, v) :: t) k' = if k = k' then some v else alookup t k' := rfl

theorem aset_cons (k k' : α) (v v' : β) (t : List (α × β)) :
    aset ((k', v') :: t) k v =
      if k' = k then (k, v) :: t else (k', v') :: aset t k v := rfl

theorem aremove_cons (k k' : α) (v' : β) (t : List (α × β)) :
    aremove ((k', v') :: t) k = if k' = k then t else (k', v') :: aremove t k := rfl

theorem alookup_aset_self (l : List (α × β)) (k : α) (v : β) :
    alookup (aset l k v) k = some v := by
  induction l with
  | nil => simp [aset, alookup]
  | cons hd t ih =>
    obtain ⟨k0, v0⟩ := hd
    by_cases hk : k0 = k
    · subst hk; simp [aset_cons, alookup_cons]
    · simp [aset_cons, alookup_cons, hk, ih]

theorem alookup_aset_ne (l : List (α × β)) {k k' : α} (v : β) (h : k' ≠ k) :
    alookup (aset l k v) k' = alookup l k' := by
  induction l with
  | nil => simp [aset, alookup_cons, Ne.symm h]
  | cons hd t ih =>
    obtain ⟨k0, v0⟩ := hd
    by_cases hk : k0 = k
    · subst hk
      simp [aset_cons, alookup_cons, Ne.symm h]
    · by_cases hk' : k0 = k'
      · subst hk'
        simp [aset_cons, hk, alookup_cons]
      · simp [aset_cons, hk, alookup_cons, hk', ih]

theorem alookup_aremove_ne (l : List (α × β)) {k k' : α} (h : k' ≠ k) :
    alookup (aremove l k) k' = alookup l k' := by
  induction l with
  | nil => simp [aremove]
  | cons hd t ih =>
    obtain ⟨k0, v0⟩ := hd
    by_cases hk : k0 = k
    · subst hk
      simp [aremove_cons, alookup_cons, Ne.symm h]
    · by_cases hk' : k0 = k'
      · subst hk'
        simp [aremove_cons, hk, alookup_cons]
      · simp [aremove_cons, hk, alookup_cons, hk', ih]

theorem mem_akeys_iff (l : List (α × β)) (k : α) :
    k ∈ akeys l ↔ alookup l k ≠ none := by
  induction l with
  | nil => simp
  | cons hd t ih =>
    obtain ⟨k0, v0⟩ := hd
    by_cases hk : k0 = k
    · subst hk; simp [alookup_cons]
    · simp [alookup_cons, hk, Ne.symm hk, ih]

theorem alookup_aremove_self (l : List (α × β)) (k : α) (h : (akeys l).Nodup) :
    alookup (aremove l k) k = none := by
  induction l with
  | nil => simp [aremove]
  | cons hd t ih =>
    obtain ⟨k0, v0⟩ := hd
    have h' : k0 ∉ akeys t ∧ (akeys t).Nodup := by simpa using h
    by_cases hk : k0 = k
    · subst hk
      rw [aremove_cons, if_pos rfl]
      by_contra hne
      exact h'.1 ((mem_akeys_iff t k0).mpr hne)
    · simp [aremove_cons, hk, alookup_cons, ih h'.2]

theorem akeys_aset_of_mem (l : List (α × β)) (k : α) (v : β) (h : k ∈ akeys l) :
    akeys (aset l k v) = akeys l := by
  induction l with
  | nil => simp at h
  | cons hd t ih =>
    obtain ⟨k0, v0⟩ := hd
    by_cases hk : k0 = k
    · subst hk; simp [aset_cons]
    · rw [akeys_cons, List.mem_cons] at h
      rcases h with h | h
    
      · exact absurd h.symm hk
      · simp [aset_cons, hk, ih h]

theorem mem_akeys_aset (l : List (α × β)) (k a : α) (v : β) :
    a ∈ akeys (aset l k v) ↔ a = k ∨ a ∈ akeys l := by
  induction l with
  | nil => simp [aset]
  | cons hd t ih =>
    obtain ⟨k0, v0⟩ := hd
    by_cases hk : k0 = k
    · subst hk
      simp [aset_cons]
    · simp [aset_cons, hk, ih]
      tauto

theorem akeys_aset_nodup (l : List (α × β)) (k : α) (v : β) (h : (akeys l).Nodup) :
    (akeys (aset l k v)).Nodup := by
  induction l with
  | nil => simp [aset]
  | cons hd t ih =>
    obtain ⟨k0, v0⟩ := hd
    have h' : k0 ∉ akeys t ∧ (akeys t).Nodup := by simpa using h
    by_cases hk : k0 = k
    · subst hk
      simpa [aset_cons] using h
    · rw [aset_cons, if_neg hk, akeys_cons, List.nodup_cons]
      constructor
      · intro hmem
        rcases (mem_akeys_aset t k k0 v).mp hmem with h0 | h0
        · exact hk h0
        · exact h'.1 h0
      · exact ih h'.2

theorem mem_akeys_aremove (l : List (α × β)) (k a : α) (h : (akeys l).Nodup) :
    a ∈ akeys (aremove l k) ↔ a ∈ akeys l ∧ a ≠ k := by
  rw [mem_akeys_iff]
  by_cases hk : a = k
  · subst hk
    simp [alookup_aremove_self l a h]
  · rw [alookup_aremove_ne l hk, ← mem_akeys_iff]
    simp [hk]

theorem akeys_aremove_nodup (l : List (α × β)) (k : α) (h : (akeys l).Nodup) :
    (akeys (aremove l k)).Nodup := by
  induction l with
  | nil => simp [aremove]
  | cons hd t ih =>
    obtain ⟨k0, v0⟩ := hd
    have h' : k0 ∉ akeys t ∧ (akeys t).Nodup := by simpa using h
    by_cases hk : k0 = k
    · subst hk
      rw [aremove_cons, if_pos rfl]
      exact h'.2
    · rw [aremove_cons, if_neg hk, akeys_cons, List.nodup_cons]
      refine ⟨fun hmem => ?_, ih h'.2⟩
      exact h'.1 (((mem_akeys_aremove t k k0 h'.2).mp hmem).1)

theorem alookup_mem_of_some (l : List (α × β)) (k : α) (v : β)
    (h : alookup l k = some v) : (k, v) ∈ l := by
  induction l with
  | nil => simp at h
  | cons hd t ih =>
    obtain ⟨k0, v0⟩ := hd
    by_cases hk : k0 = k
    · subst hk
      rw [alookup_cons, if_pos rfl, Option.some.injEq] at h
      simp [h]
    · rw [alookup_cons, if_neg hk] at h
      simp [ih h]

end AssocLemmas

/-! ## Well-formedness of the model snapshot and the tracker state -/

/-- The insect ids mentioned by a primary-entity slot (the ant and, if any,
its passenger). -/
def antIdsOpt : Option AntEnt → List Nat
  | none => []
  | some a => a.id :: (match a.passenger with | some q => [q.1] | none => [])

/-- Well-formedness of a colony snapshot: place names are unique session keys,
no place's exit is itself, the hive is the entry named `Hive`, and insect keys
(standing for Python object identities) are globally distinct. -/
structure ColonyWF (c : Colony) : Prop where
  namesNodup : (c.places.map Place.name).Nodup
  exitNeSelf : ∀ p ∈ c.places, p.exit ≠ some p.name
  hiveNamed : c.hiveName = "Hive"
  beesNodup : ∀ p ∈ c.places, p.bees.Nodup
  beesDisj : ∀ p ∈ c.places, ∀ q ∈ c.places, p ≠ q → ∀ i ∈ p.bees, i ∉ q.bees
  antNotBee : ∀ p ∈ c.places, ∀ q ∈ c.places, ∀ i ∈ antIdsOpt p.ant, i ∉ q.bees
  antsDisj : ∀ p ∈ c.places, ∀ q ∈ c.places, p ≠ q →
    ∀ i ∈ antIdsOpt p.ant, i ∉ antIdsOpt q.ant
  antIdsNodup : ∀ p ∈ c.places, (antIdsOpt p.ant).Nodup
  beeNotHive : ∀ p ∈ c.places, ∀ i ∈ p.bees, i ∉ c.hiveBees
  antNotHive : ∀ p ∈ c.places, ∀ i ∈ antIdsOpt p.ant, i ∉ c.hiveBees
  hiveNodup : c.hiveBees.Nodup

/-- Structural well-formedness of the tracker: every tracked mapping has
unique insect keys, and every place of the colony (and the hive) has a
mapping, as `_init_places` establishes. -/
structure StateWF (c : Colony) (st : GuiState) : Prop where
  innerNodup : ∀ e ∈ st.images, (akeys e.2).Nodup
  placesTracked : ∀ p ∈ c.places, alookup st.images p.name ≠ none
  hiveTracked : alookup st.images c.hiveName ≠ none

/-- The one-representation invariant of the spec (§3): an insect key is
tracked in at most one container's mapping. -/
def noDupTracked (st : GuiState) : Prop :=
  ∀ m1 m2 i, trackedB st m1 i = true → trackedB st m2 i = true → m1 = m2

/-- Ant ids are tracked only at their own place (ants are stationary). -/
def AntOwn (c : Colony) (st : GuiState) : Prop :=
  ∀ p ∈ c.places, p.name ≠ "Hive" →
    ∀ i ∈ antIdsOpt p.ant, ∀ m, trackedB st m i = true → m = p.name

/-- The invariant behind claim C10: wherever a container ant carries a
passenger, the passenger or the container itself is already tracked at that
place (so that the behind-target lookup of line 230 cannot fail). -/
def PassengerSafe (c : Colony) (st : GuiState) : Prop :=
  ∀ p ∈ c.places, p.name ≠ "Hive" → ∀ a, p.ant = some a → a.container = true →
    ∀ q, a.passenger = some q →
      trackedB st p.name q.1 = true ∨ trackedB st p.name a.id = true

/-! ## Effect lemmas for the tracker-state primitives -/

theorem mem_aset {α β : Type} [DecidableEq α] (l : List (α × β)) (k : α) (v : β)
    (e : α × β) (h : e ∈ aset l k v) : e = (k, v) ∨ e ∈ l := by
  induction l with
  | nil => simpa [aset] using h
  | cons hd t ih =>
    obtain ⟨k0, v0⟩ := hd
    by_cases hk : k0 = k
    · subst hk
      rw [aset_cons, if_pos rfl] at h
      rcases List.mem_cons.mp h with h | h
      · exact Or.inl h
      · exact Or.inr (List.mem_cons_of_mem _ h)
    · rw [aset_cons, if_neg hk] at h
      rcases List.mem_cons.mp h with h | h
      · exact Or.inr (h ▸ List.mem_cons_self _ _)
      · rcases ih h with h | h
        · exact Or.inl h
        · exact Or.inr (List.mem_cons_of_mem _ h)

theorem trackedB_of_eq {st : GuiState} {n : String} {pi : List (Nat × Nat)}
    (hi : alookup st.images n = some pi) (i : Nat) :
    trackedB st n i = (alookup pi i).isSome := by
  simp [trackedB, hi]

theorem trackedB_of_none {st : GuiState} {n : String}
    (hi : alookup st.images n = none) (i : Nat) :
    trackedB st n i = false := by
  simp [trackedB, hi]

theorem trackedB_of_images_aset (st st' : GuiState) (n : String)
    (pi2 : List (Nat × Nat)) (h : st'.images = aset st.images n pi2)
    (m : String) (j : Nat) :
    trackedB st' m j = if m = n then (alookup pi2 j).isSome else trackedB st m j := by
  by_cases hm : m = n
  · subst hm
    simp [trackedB, h, alookup_aset_self]
  · simp [trackedB, h, alookup_aset_ne _ _ hm, hm]

/-! ### `draw_insect` effects -/

theorem draw_insect_points (st : GuiState) (i : Nat) (iname p : String)
    (off : Option (Int × Int)) (behind : Nat) :
    (draw_insect st i iname p off behind).1.place_points = st.place_points := by
  unfold draw_insect
  rcases alookup INSECT_FILES iname with _ | f
  · rfl
  · rcases alookup st.place_points p with _ | base
    · rfl
    · rcases alookup st.images p with _ | pi
      · rfl
      · rfl

/-- Case analysis for `draw_insect`: either it raises before touching the
tracker, or the tracker gains exactly the binding `i ↦ nextId` at `p`. -/
theorem draw_insect_images (st : GuiState) (i : Nat) (iname p : String)
    (off : Option (Int × Int)) (behind : Nat) :
    ((draw_insect st i iname p off behind).1.images = st.images ∧
      (draw_insect st i iname p off behind).2.2 ≠ none) ∨
    (∃ pi, alookup st.images p = some pi ∧
      (draw_insect st i iname p off behind).1.images = aset st.images p (aset pi i st.nextId) ∧
      (draw_insect st i iname p off behind).2.2 = none) := by
  unfold draw_insect
  rcases alookup INSECT_FILES iname with _ | f
  · exact Or.inl ⟨rfl, by simp⟩
  · rcases alookup st.place_points p with _ | base
    · exact Or.inl ⟨rfl, by simp⟩
    · rcases hi : alookup st.images p with _ | pi
      · exact Or.inl ⟨rfl, by simp⟩
      · exact Or.inr ⟨pi, rfl, rfl, rfl⟩

theorem draw_insect_tracked {st : GuiState} {i : Nat} {iname p : String}
    {off : Option (Int × Int)} {behind : Nat} {m : String} {j : Nat}
    (h : trackedB (draw_insect st i iname p off behind).1 m j = true) :
    trackedB st m j = true ∨ (m = p ∧ j = i) := by
  rcases draw_insect_images st i iname p off behind with ⟨he, _⟩ | ⟨pi, hi, he, _⟩
  · left
    rwa [show trackedB (draw_insect st i iname p off behind).1 m j = trackedB st m j from by
      simp [trackedB, he]] at h
  · rw [trackedB_of_images_aset st _ p (aset pi i st.nextId) he m j] at h
    by_cases hm : m = p
    · rw [if_pos hm] at h
      by_cases hj : j = i
      · exact Or.inr ⟨hm, hj⟩
      · left
        rw [alookup_aset_ne pi _ hj] at h
        rw [hm, trackedB_of_eq hi]
        exact h
    · rw [if_neg hm] at h
      exact Or.inl h

theorem draw_insect_mono {st : GuiState} {i : Nat} {iname p : String}
    {off : Option (Int × Int)} {behind : Nat} {m : String} {j : Nat}
    (h : trackedB st m j = true) :
    trackedB (draw_insect st i iname p off behind).1 m j = true := by
  rcases draw_insect_images st i iname p off behind with ⟨he, _⟩ | ⟨pi, hi, he, _⟩
  · rw [show trackedB (draw_insect st i iname p off behind).1 m j = trackedB st m j from by
      simp [trackedB, he]]
    exact h
  · rw [trackedB_of_images_aset st _ p (aset pi i st.nextId) he m j]
    by_cases hm : m = p
    · rw [if_pos hm]
      by_cases hj : j = i
      · subst hj
        simp [alookup_aset_self]
      · rw [alookup_aset_ne pi _ hj]
        rw [hm, trackedB_of_eq hi] at h
        exact h
    · rw [if_neg hm]
      exact h

theorem draw_insect_other {st : GuiState} (i : Nat) (iname p : String)
    (off : Option (Int × Int)) (behind : Nat) {m : String} (j : Nat) (hm : m ≠ p) :
    trackedB (draw_insect st i iname p off behind).1 m j = trackedB st m j := by
  rcases draw_insect_images st i iname p off behind with ⟨he, _⟩ | ⟨pi, hi, he, _⟩
  · simp [trackedB, he]
  · rw [trackedB_of_images_aset st _ p (aset pi i st.nextId) he m j, if_neg hm]

theorem draw_insect_self_ne {st : GuiState} (i : Nat) (iname p : String)
    (off : Option (Int × Int)) (behind : Nat) {j : Nat} (hj : j ≠ i) (m : String) :
    trackedB (draw_insect st i iname p off behind).1 m j = trackedB st m j := by
  rcases draw_insect_images st i iname p off behind with ⟨he, _⟩ | ⟨pi, hi, he, _⟩
  · simp [trackedB, he]
  · rw [trackedB_of_images_aset st _ p (aset pi i st.nextId) he m j]
    by_cases hm : m = p
    · rw [if_pos hm, alookup_aset_ne pi _ hj, hm, trackedB_of_eq hi]
    · rw [if_neg hm]

theorem draw_insect_ok_tracked {st : GuiState} {i : Nat} {iname p : String}
    {off : Option (Int × Int)} {behind : Nat}
    (h : (draw_insect st i iname p off behind).2.2 = none) :
    trackedB (draw_insect st i iname p off behind).1 p i = true := by
  rcases draw_insect_images st i iname p off behind with ⟨_, hne⟩ | ⟨pi, hi, he, _⟩
  · exact absurd h hne
  · rw [trackedB_of_images_aset st _ p (aset pi i st.nextId) he p i, if_pos rfl,
      alookup_aset_self]
    rfl

theorem draw_insect_topkeys (st : GuiState) (i : Nat) (iname p : String)
    (off : Option (Int × Int)) (behind : Nat) :
    akeys (draw_insect st i iname p off behind).1.images = akeys st.images := by
  rcases draw_insect_images st i iname p off behind with ⟨he, _⟩ | ⟨pi, hi, he, _⟩
  · rw [he]
  · rw [he, akeys_aset_of_mem]
    rw [mem_akeys_iff, hi]
    simp

theorem draw_insect_inner {st : GuiState} (i : Nat) (iname p : String)
    (off : Option (Int × Int)) (behind : Nat)
    (h : ∀ e ∈ st.images, (akeys e.2).Nodup) :
    ∀ e ∈ (draw_insect st i iname p off behind).1.images, (akeys e.2).Nodup := by
  rcases draw_insect_images st i iname p off behind with ⟨he, _⟩ | ⟨pi, hi, he, _⟩
  · rw [he]; exact h
  · rw [he]
    intro e hmem
    rcases mem_aset _ _ _ _ hmem with hme | hme
    · subst hme
      exact akeys_aset_nodup _ _ _ (h _ (alookup_mem_of_some _ _ _ hi))
    · exact h _ hme

theorem draw_insect_no_passenger_err (st : GuiState) (i : Nat) (iname p : String)
    (off : Option (Int × Int)) (behind : Nat) (pl : String) (aid : Nat) :
    (draw_insect st i iname p off behind).2.2 ≠ some (GuiErr.passengerContainerKey pl aid) := by
  unfold draw_insect
  rcases alookup INSECT_FILES iname with _ | f
  · simp
  · rcases alookup st.place_points p with _ | base
    · simp
    · rcases alookup st.images p with _ | pi
      · simp
      · simp

/-! ### `andThen` composition -/

theorem andThen_err {r : GuiRes} {f : GuiState → GuiRes} (h : r.2.2 ≠ none) :
    andThen r f = r := by
  obtain ⟨st, cmds, e⟩ := r
  cases e with
  | none => simp at h
  | some e0 => rfl

theorem andThen_ok {r : GuiRes} {f : GuiState → GuiRes} (h : r.2.2 = none) :
    (andThen r f).1 = (f r.1).1 ∧
    (andThen r f).2.1 = r.2.1 ++ (f r.1).2.1 ∧
    (andThen r f).2.2 = (f r.1).2.2 := by
  obtain ⟨st, cmds, e⟩ := r
  cases e with
  | none =>
    rcases hf : f st with ⟨st2, cmds2, e2⟩
    simp [andThen, hf]
  | some e0 => simp at h

/-! ### Supplementary dictionary lemma -/

theorem alookup_aremove_isSome {α β : Type} [DecidableEq α] (l : List (α × β)) (k k' : α)
    (h : (alookup (aremove l k) k').isSome = true) : (alookup l k').isSome = true := by
  induction l with
  | nil => simp [aremove] at h
  | cons hd t ih =>
    obtain ⟨k0, v0⟩ := hd
    by_cases hk : k0 = k
    · rw [aremove_cons, if_pos hk] at h
      rw [alookup_cons]
      by_cases hk' : k0 = k'
      · simp [hk']
      · rw [if_neg hk']
        exact h
    · rw [aremove_cons, if_neg hk] at h
      rw [alookup_cons] at h ⊢
      by_cases hk' : k0 = k'
      · simp [hk']
      · rw [if_neg hk'] at h ⊢
        exact ih h

/-! ### `beeArrival` effects -/

theorem trackedB_images_eq {st st' : GuiState} (h : st'.images = st.images)
    (m : String) (j : Nat) : trackedB st' m j = trackedB st m j := by
  simp [trackedB, h]

/-- Case analysis for `beeArrival`: raise before the pop, raise after the pop
(bee popped from the source but not yet recorded at the destination), or
success (popped from the source, recorded at the destination with the same
image handle). -/
theorem beeArrival_images (colony : Colony) (place : Place) (st : GuiState) (b : Nat) :
    ((beeArrival colony place st b).1.images = st.images ∧
      (beeArrival colony place st b).2.2 ≠ none) ∨
    (∃ spi img,
      alookup st.images (findSource colony.places colony.hiveName place.name) = some spi ∧
      alookup spi b = some img ∧
      (((beeArrival colony place st b).1.images =
          aset st.images (findSource colony.places colony.hiveName place.name) (aremove spi b) ∧
        (beeArrival colony place st b).2.2 ≠ none) ∨
       (∃ dpi,
         alookup (aset st.images (findSource colony.places colony.hiveName place.name)
             (aremove spi b)) place.name = some dpi ∧
         (beeArrival colony place st b).1.images =
           aset (aset st.images (findSource colony.places colony.hiveName place.name)
             (aremove spi b)) place.name (aset dpi b img) ∧
         (beeArrival colony place st b).2.2 = none))) := by
  simp only [beeArrival]
  rcases h1 : alookup st.images (findSource colony.places colony.hiveName place.name)
    with _ | spi
  · dsimp only
    exact Or.inl ⟨rfl, by simp⟩
  · dsimp only
    rcases h2 : alookup spi b with _ | img
    · dsimp only
      exact Or.inl ⟨rfl, by simp⟩
    · dsimp only
      rcases h3 : alookup st.place_points place.name with _ | base
      · dsimp only
        exact Or.inr ⟨spi, img, rfl, h2, Or.inl ⟨rfl, by simp⟩⟩
      · dsimp only
        rcases h4 : alookup
            (aset st.images (findSource colony.places colony.hiveName place.name)
              (aremove spi b)) place.name with _ | dpi
        · dsimp only
          exact Or.inr ⟨spi, img, rfl, h2, Or.inl ⟨rfl, by simp⟩⟩
        · dsimp only
          exact Or.inr ⟨spi, img, rfl, h2, Or.inr ⟨dpi, h4, rfl, rfl⟩⟩

theorem beeArrival_points (colony : Colony) (place : Place) (st : GuiState) (b : Nat) :
    (beeArrival colony place st b).1.place_points = st.place_points := by
  simp only [beeArrival]
  rcases alookup st.images (findSource colony.places colony.hiveName place.name)
    with _ | spi
  · rfl
  · dsimp only
    rcases alookup spi b with _ | img
    · rfl
    · dsimp only
      rcases alookup st.place_points place.name with _ | base
      · rfl
      · dsimp only
        rcases alookup
            (aset st.images (findSource colony.places colony.hiveName place.name)
              (aremove spi b)) place.name with _ | dpi
        · rfl
        · rfl

theorem beeArrival_other (colony : Colony) (place : Place) (st : GuiState) (b : Nat)
    {j : Nat} (hj : j ≠ b) (m : String) :
    trackedB (beeArrival colony place st b).1 m j = trackedB st m j := by
  rcases beeArrival_images colony place st b with ⟨he, _⟩ | ⟨spi, img, h1, h2, hrest⟩
  · exact trackedB_images_eq he m j
  · have hmid : ∀ st2 : GuiState,
        st2.images = aset st.images (findSource colony.places colony.hiveName place.name)
          (aremove spi b) →
        trackedB st2 m j = trackedB st m j := by
      intro st2 h
      rw [trackedB_of_images_aset st st2 _ _ h m j]
      by_cases hm : m = findSource colony.places colony.hiveName place.name
      · rw [if_pos hm, alookup_aremove_ne spi hj, hm, trackedB_of_eq h1]
      · rw [if_neg hm]
    rcases hrest with ⟨he, _⟩ | ⟨dpi, h4, he, _⟩
    · exact hmid _ he
    · set stMid : GuiState := { st with
        images := aset st.images (findSource colony.places colony.hiveName place.name)
          (aremove spi b) } with hstMid
      have h5 : trackedB (beeArrival colony place st b).1 m j = trackedB stMid m j := by
        rw [trackedB_of_images_aset stMid _ place.name (aset dpi b img) he m j]
        by_cases hm : m = place.name
        · rw [if_pos hm, alookup_aset_ne dpi _ hj, hm, trackedB_of_eq h4]
        · rw [if_neg hm]
      rw [h5]
      exact hmid stMid rfl

theorem beeArrival_tracked (colony : Colony) (place : Place) (st : GuiState) (b : Nat)
    (inner : ∀ e ∈ st.images, (akeys e.2).Nodup) {m : String} {j : Nat}
    (h : trackedB (beeArrival colony place st b).1 m j = true) :
    trackedB st m j = true ∨ (m = place.name ∧ j = b) := by
  by_cases hj : j = b
  · subst hj
    rcases beeArrival_images colony place st j with ⟨he, _⟩ | ⟨spi, img, h1, h2, hrest⟩
    · rw [trackedB_images_eq he] at h
      exact Or.inl h
    · have hspiNodup : (akeys spi).Nodup := inner _ (alookup_mem_of_some _ _ _ h1)
      have hmid : ∀ st2 : GuiState,
          st2.images = aset st.images (findSource colony.places colony.hiveName place.name)
            (aremove spi j) →
          trackedB st2 m j = true → trackedB st m j = true := by
        intro st2 hh ht
        rw [trackedB_of_images_aset st st2 _ _ hh m j] at ht
        by_cases hm : m = findSource colony.places colony.hiveName place.name
        · rw [if_pos hm, alookup_aremove_self spi j hspiNodup] at ht
          simp at ht
        · rwa [if_neg hm] at ht
      rcases hrest with ⟨he, _⟩ | ⟨dpi, h4, he, _⟩
      · exact Or.inl (hmid _ he h)
      · by_cases hm : m = place.name
        · exact Or.inr ⟨hm, rfl⟩
        · set stMid : GuiState := { st with
            images := aset st.images (findSource colony.places colony.hiveName place.name)
              (aremove spi j) } with hstMid
          rw [trackedB_of_images_aset stMid _ place.name (aset dpi j img) he m j,
            if_neg hm] at h
          exact Or.inl (hmid stMid rfl h)
  · rw [beeArrival_other colony place st b hj m] at h
    exact Or.inl h

theorem beeArrival_src_tracked (colony : Colony) (place : Place) (st : GuiState) (b : Nat)
    (hok : (beeArrival colony place st b).2.2 = none) :
    trackedB st (findSource colony.places colony.hiveName place.name) b = true := by
  rcases beeArrival_images colony place st b with ⟨_, hne⟩ | ⟨spi, img, h1, h2, hrest⟩
  · exact absurd hok hne
  · rw [trackedB_of_eq h1, h2]
    rfl

theorem beeArrival_ok_tracked (colony : Colony) (place : Place) (st : GuiState) (b : Nat)
    (hok : (beeArrival colony place st b).2.2 = none) :
    trackedB (beeArrival colony place st b).1 place.name b = true := by
  rcases beeArrival_images colony place st b with ⟨_, hne⟩ | ⟨spi, img, h1, h2, hrest⟩
  · exact absurd hok hne
  · rcases hrest with ⟨_, hne⟩ | ⟨dpi, h4, he, _⟩
    · exact absurd hok hne
    · set stMid : GuiState := { st with
        images := aset st.images (findSource colony.places colony.hiveName place.name)
          (aremove spi b) } with hstMid
      rw [trackedB_of_images_aset stMid _ place.name (aset dpi b img) he place.name b,
        if_pos rfl, alookup_aset_self]
      rfl

theorem beeArrival_ok_gone (colony : Colony) (place : Place) (st : GuiState) (b : Nat)
    (inner : ∀ e ∈ st.images, (akeys e.2).Nodup) (hnd : noDupTracked st)
    (hok : (beeArrival colony place st b).2.2 = none)
    {m : String} (hm : m ≠ place.name) :
    trackedB (beeArrival colony place st b).1 m b = false := by
  rcases beeArrival_images colony place st b with ⟨_, hne⟩ | ⟨spi, img, h1, h2, hrest⟩
  · exact absurd hok hne
  · rcases hrest with ⟨_, hne⟩ | ⟨dpi, h4, he, _⟩
    · exact absurd hok hne
    · set stMid : GuiState := { st with
        images := aset st.images (findSource colony.places colony.hiveName place.name)
          (aremove spi b) } with hstMid
      rw [trackedB_of_images_aset stMid _ place.name (aset dpi b img) he m b, if_neg hm]
      rw [trackedB_of_images_aset st stMid _ _ rfl m b]
      by_cases hsrc : m = findSource colony.places colony.hiveName place.name
      · rw [if_pos hsrc,
          alookup_aremove_self spi b (inner _ (alookup_mem_of_some _ _ _ h1))]
        rfl
      · rw [if_neg hsrc]
        by_contra hcon
        have ht : trackedB st m b = true := by
          cases hv : trackedB st m b
          · exact absurd hv hcon
          · rfl
        have hsrcT : trackedB st (findSource colony.places colony.hiveName place.name) b
            = true := beeArrival_src_tracked colony place st b hok
        exact hsrc (hnd m _ b ht hsrcT)

theorem beeArrival_noDup (colony : Colony) (place : Place) (st : GuiState) (b : Nat)
    (inner : ∀ e ∈ st.images, (akeys e.2).Nodup) (hnd : noDupTracked st) :
    noDupTracked (beeArrival colony place st b).1 := by
  intro m1 m2 i h1 h2
  by_cases hok : (beeArrival colony place st b).2.2 = none
  · by_cases hi : i = b
    · subst hi
      by_cases hm1 : m1 = place.name
      · by_cases hm2 : m2 = place.name
        · rw [hm1, hm2]
        · exact absurd h2 (by simp [beeArrival_ok_gone colony place st i inner hnd hok hm2])
      · exact absurd h1 (by simp [beeArrival_ok_gone colony place st i inner hnd hok hm1])
    · rw [beeArrival_other colony place st b hi] at h1 h2
      exact hnd m1 m2 i h1 h2
  · -- failed arrival: the tracker only lost bindings, so uniqueness persists
    have hdec : ∀ m j, trackedB (beeArrival colony place st b).1 m j = true →
        trackedB st m j = true := by
      intro m j hmj
      rcases beeArrival_images colony place st b with ⟨he, _⟩ | ⟨spi, img, hh1, hh2, hrest⟩
      · rwa [trackedB_images_eq he] at hmj
      · rcases hrest with ⟨he, _⟩ | ⟨dpi, h4, he, hok2⟩
        · rw [trackedB_of_images_aset st _ _ _ he m j] at hmj
          by_cases hm : m = findSource colony.places colony.hiveName place.name
          · rw [if_pos hm] at hmj
            rw [hm, trackedB_of_eq hh1]
            exact alookup_aremove_isSome spi b j hmj
          · rwa [if_neg hm] at hmj
        · exact absurd hok2 hok
    exact hnd m1 m2 i (hdec m1 i h1) (hdec m2 i h2)

theorem beeArrival_topkeys (colony : Colony) (place : Place) (st : GuiState) (b : Nat) :
    akeys (beeArrival colony place st b).1.images = akeys st.images := by
  rcases beeArrival_images colony place st b with ⟨he, _⟩ | ⟨spi, img, h1, h2, hrest⟩
  · rw [he]
  · have hsrcMem : (findSource colony.places colony.hiveName place.name) ∈ akeys st.images :=
      (mem_akeys_iff _ _).mpr (by rw [h1]; simp)
    have hA1 : akeys (aset st.images (findSource colony.places colony.hiveName place.name)
        (aremove spi b)) = akeys st.images :=
      akeys_aset_of_mem _ _ _ hsrcMem
    rcases hrest with ⟨he, _⟩ | ⟨dpi, h4, he, _⟩
    · rw [he, hA1]
    · have hdMem : place.name ∈ akeys (aset st.images
          (findSource colony.places colony.hiveName place.name) (aremove spi b)) :=
        (mem_akeys_iff _ _).mpr (by rw [h4]; simp)
      rw [he, akeys_aset_of_mem _ _ _ hdMem, hA1]

theorem beeArrival_inner (colony : Colony) (place : Place) (st : GuiState) (b : Nat)
    (inner : ∀ e ∈ st.images, (akeys e.2).Nodup) :
    ∀ e ∈ (beeArrival colony place st b).1.images, (akeys e.2).Nodup := by
  rcases beeArrival_images colony place st b with ⟨he, _⟩ | ⟨spi, img, h1, h2, hrest⟩
  · rw [he]; exact inner
  · have hspi : (akeys spi).Nodup := inner _ (alookup_mem_of_some _ _ _ h1)
    have innerA1 : ∀ e ∈ aset st.images
        (findSource colony.places colony.hiveName place.name) (aremove spi b),
        (akeys e.2).Nodup := by
      intro e he2
      rcases mem_aset _ _ _ _ he2 with hme | hme
      · subst hme
        exact akeys_aremove_nodup _ _ hspi
      · exact inner _ hme
    rcases hrest with ⟨he, _⟩ | ⟨dpi, h4, he, _⟩
    · rw [he]; exact innerA1
    · rw [he]
      intro e he2
      rcases mem_aset _ _ _ _ he2 with hme | hme
      · subst hme
        exact akeys_aset_nodup _ _ _ (innerA1 _ (alookup_mem_of_some _ _ _ h4))
      · exact innerA1 _ hme

theorem beeArrival_no_passenger_err (colony : Colony) (place : Place) (st : GuiState)
    (b : Nat) (pl : String) (aid : Nat) :
    (beeArrival colony place st b).2.2 ≠ some (GuiErr.passengerContainerKey pl aid) := by
  simp only [beeArrival]
  rcases alookup st.images (findSource colony.places colony.hiveName place.name)
    with _ | spi
  · simp
  · dsimp only
    rcases alookup spi b with _ | img
    · simp
    · dsimp only
      rcases alookup st.place_points place.name with _ | base
      · simp
      · dsimp only
        rcases alookup (aset st.images
            (findSource colony.places colony.hiveName place.name) (aremove spi b))
            place.name with _ | dpi
        · simp
        · simp

/-! ### `retireOne` / `retireList` effects -/

theorem trackedB_elim {st : GuiState} {n : String} {i : Nat}
    (h : trackedB st n i = true) :
    ∃ pi, alookup st.images n = some pi ∧ (alookup pi i).isSome = true := by
  rcases hl : alookup st.images n with _ | pi
  · rw [trackedB_of_none hl] at h
    exact absurd h (by simp)
  · refine ⟨pi, rfl, ?_⟩
    rw [trackedB_of_eq hl] at h
    exact h

/-- Case analysis for `retireOne`: either the tracker is untouched (raise
before the pop, or the skip branch), or exactly the binding of `insect` at
`place.name` was popped. -/
theorem retireOne_images (st : GuiState) (place : Place) (insect : Nat) :
    (retireOne st place insect).1.images = st.images ∨
    (∃ pi, alookup st.images place.name = some pi ∧ (alookup pi insect).isSome = true ∧
      (retireOne st place insect).1.images = aset st.images place.name (aremove pi insect)) := by
  simp only [retireOne]
  rcases place.exit with _ | ex
  · dsimp only
    rcases h1 : alookup st.images place.name with _ | pi
    · dsimp only
      exact Or.inl rfl
    · dsimp only
      rcases h2 : alookup pi insect with _ | image
      · dsimp only
        exact Or.inl rfl
      · dsimp only
        rcases h3 : alookup st.place_points place.name with _ | base
        · dsimp only
          exact Or.inr ⟨pi, rfl, by rw [h2]; rfl, rfl⟩
        · dsimp only
          exact Or.inr ⟨pi, rfl, by rw [h2]; rfl, rfl⟩
  · dsimp only
    rcases he : alookup st.images ex with _ | epi
    · dsimp only
      exact Or.inl rfl
    · dsimp only
      by_cases hskip : (alookup epi insect).isSome
      · rw [if_pos hskip]
        exact Or.inl rfl
      · rw [if_neg hskip]
        rcases h1 : alookup st.images place.name with _ | pi
        · dsimp only
          exact Or.inl rfl
        · dsimp only
          rcases h2 : alookup pi insect with _ | image
          · dsimp only
            exact Or.inl rfl
          · dsimp only
            rcases h3 : alookup st.place_points place.name with _ | base
            · dsimp only
              exact Or.inr ⟨pi, rfl, by rw [h2]; rfl, rfl⟩
            · dsimp only
              exact Or.inr ⟨pi, rfl, by rw [h2]; rfl, rfl⟩

theorem retireOne_points (st : GuiState) (place : Place) (insect : Nat) :
    (retireOne st place insect).1.place_points = st.place_points := by
  simp only [retireOne]
  rcases place.exit with _ | ex
  · dsimp only
    rcases alookup st.images place.name with _ | pi
    · rfl
    · dsimp only
      rcases alookup pi insect with _ | image
      · rfl
      · dsimp only
        rcases alookup st.place_points place.name with _ | base
        · rfl
        · rfl
  · dsimp only
    rcases alookup st.images ex with _ | epi
    · rfl
    · dsimp only
      by_cases hskip : (alookup epi insect).isSome
      · rw [if_pos hskip]
      · rw [if_neg hskip]
        rcases alookup st.images place.name with _ | pi
        · rfl
        · dsimp only
          rcases alookup pi insect with _ | image
          · rfl
          · dsimp only
            rcases alookup st.place_points place.name with _ | base
            · rfl
            · rfl

theorem retireOne_untouched (st : GuiState) (place : Place) (insect : Nat)
    {m : String} {j : Nat} (h : m ≠ place.name ∨ j ≠ insect) :
    trackedB (retireOne st place insect).1 m j = trackedB st m j := by
  rcases retireOne_images st place insect with he | ⟨pi, h1, h2, he⟩
  · exact trackedB_images_eq he m j
  · rw [trackedB_of_images_aset st _ place.name (aremove pi insect) he m j]
    by_cases hm : m = place.name
    · rcases h with h | h
      · exact absurd hm h
      · rw [if_pos hm, alookup_aremove_ne pi h, hm, trackedB_of_eq h1]
    · rw [if_neg hm]

theorem retireOne_decreasing (st : GuiState) (place : Place) (insect : Nat)
    {m : String} {j : Nat}
    (h : trackedB (retireOne st place insect).1 m j = true) :
    trackedB st m j = true := by
  rcases retireOne_images st place insect with he | ⟨pi, h1, h2, he⟩
  · rwa [trackedB_images_eq he] at h
  · rw [trackedB_of_images_aset st _ place.name (aremove pi insect) he m j] at h
    by_cases hm : m = place.name
    · rw [if_pos hm] at h
      rw [hm, trackedB_of_eq h1]
      exact alookup_aremove_isSome pi insect j h
    · rwa [if_neg hm] at h

theorem retireOne_noDup (st : GuiState) (place : Place) (insect : Nat)
    (hnd : noDupTracked st) : noDupTracked (retireOne st place insect).1 := by
  intro m1 m2 i hh1 hh2
  exact hnd m1 m2 i (retireOne_decreasing st place insect hh1)
    (retireOne_decreasing st place insect hh2)

theorem retireOne_inner (st : GuiState) (place : Place) (insect : Nat)
    (inner : ∀ e ∈ st.images, (akeys e.2).Nodup) :
    ∀ e ∈ (retireOne st place insect).1.images, (akeys e.2).Nodup := by
  rcases retireOne_images st place insect with he | ⟨pi, h1, h2, he⟩
  · rw [he]; exact inner
  · rw [he]
    intro e he2
    rcases mem_aset _ _ _ _ he2 with hme | hme
    · subst hme
      exact akeys_aremove_nodup _ _ (inner _ (alookup_mem_of_some _ _ _ h1))
    · exact inner _ hme

theorem retireOne_topkeys (st : GuiState) (place : Place) (insect : Nat) :
    akeys (retireOne st place insect).1.images = akeys st.images := by
  rcases retireOne_images st place insect with he | ⟨pi, h1, h2, he⟩
  · rw [he]
  · rw [he, akeys_aset_of_mem]
    rw [mem_akeys_iff, h1]
    simp

theorem retireOne_no_passenger_err (st : GuiState) (place : Place) (insect : Nat)
    (pl : String) (aid : Nat) :
    (retireOne st place insect).2.2 ≠ some (GuiErr.passengerContainerKey pl aid) := by
  simp only [retireOne]
  rcases place.exit with _ | ex
  · dsimp only
    rcases alookup st.images place.name with _ | pi
    · simp
    · dsimp only
      rcases alookup pi insect with _ | image
      · simp
      · dsimp only
        rcases alookup st.place_points place.name with _ | base
        · simp
        · simp
  · dsimp only
    rcases alookup st.images ex with _ | epi
    · simp
    · dsimp only
      by_cases hskip : (alookup epi insect).isSome
      · rw [if_pos hskip]
        simp
      · rw [if_neg hskip]
        rcases alookup st.images place.name with _ | pi
        · simp
        · dsimp only
          rcases alookup pi insect with _ | image
          · simp
          · dsimp only
            rcases alookup st.place_points place.name with _ | base
            · simp
            · simp

theorem retireOne_removes (st : GuiState) (place : Place) (insect : Nat)
    (inner : ∀ e ∈ st.images, (akeys e.2).Nodup)
    (hnd : noDupTracked st)
    (ht : trackedB st place.name insect = true)
    (hexitne : ∀ ex, place.exit = some ex → ex ≠ place.name)
    (hok : (retireOne st place insect).2.2 = none) :
    trackedB (retireOne st place insect).1 place.name insect = false := by
  obtain ⟨pi, h1, h2⟩ := trackedB_elim ht
  have hpiNodup := inner _ (alookup_mem_of_some _ _ _ h1)
  have hgoal : ∀ st2 : GuiState,
      st2.images = aset st.images place.name (aremove pi insect) →
      trackedB st2 place.name insect = false := by
    intro st2 hh
    rw [trackedB_of_images_aset st st2 _ _ hh, if_pos rfl,
      alookup_aremove_self _ _ hpiNodup]
    rfl
  revert hok
  simp only [retireOne]
  rcases hex : place.exit with _ | ex
  · dsimp only
    rw [h1]
    dsimp only
    rcases h2' : alookup pi insect with _ | image
    · rw [h2'] at h2
      simp at h2
    · dsimp only
      rcases h3 : alookup st.place_points place.name with _ | base
      · intro hok
        simp at hok
      · intro _
        exact hgoal _ rfl
  · dsimp only
    rcases he : alookup st.images ex with _ | epi
    · intro hok
      simp at hok
    · dsimp only
      have hskip : ¬ ((alookup epi insect).isSome = true) := by
        intro hv
        have hte : trackedB st ex insect = true := by
          rw [trackedB_of_eq he]
          exact hv
        exact (hexitne ex hex) (hnd ex place.name insect hte ht)
      rw [if_neg hskip]
      rw [h1]
      dsimp only
      rcases h2' : alookup pi insect with _ | image
      · rw [h2'] at h2
        simp at h2
      · dsimp only
        rcases h3 : alookup st.place_points place.name with _ | base
        · intro hok
          simp at hok
        · intro _
          exact hgoal _ rfl

/-! ### `retireList` -/

theorem retireList_nil (place : Place) (st : GuiState) :
    retireList place [] st = (st, [], none) := rfl

theorem retireList_cons (place : Place) (i : Nat) (rest : List Nat) (st : GuiState) :
    retireList place (i :: rest) st =
      andThen (retireOne st place i) (fun st1 => retireList place rest st1) := rfl

theorem retireList_other (place : Place) (E : List Nat) :
    ∀ st : GuiState, ∀ m : String, m ≠ place.name → ∀ j : Nat,
    trackedB (retireList place E st).1 m j = trackedB st m j := by
  induction E with
  | nil => intro st m hm j; rfl
  | cons i rest ih =>
    intro st m hm j
    rw [retireList_cons]
    by_cases herr : (retireOne st place i).2.2 = none
    · rw [(andThen_ok herr).1, ih _ m hm j,
        retireOne_untouched st place i (Or.inl hm)]
    · rw [andThen_err herr]
      exact retireOne_untouched st place i (Or.inl hm)

theorem retireList_notmem (place : Place) (E : List Nat) :
    ∀ st : GuiState, ∀ j : Nat, j ∉ E → ∀ m : String,
    trackedB (retireList place E st).1 m j = trackedB st m j := by
  induction E with
  | nil => intro st j hj m; rfl
  | cons i rest ih =>
    intro st j hj m
    have hji : j ≠ i := fun hh => hj (hh ▸ List.mem_cons_self i rest)
    have hjr : j ∉ rest := fun hh => hj (List.mem_cons_of_mem i hh)
    rw [retireList_cons]
    by_cases herr : (retireOne st place i).2.2 = none
    · rw [(andThen_ok herr).1, ih _ j hjr m,
        retireOne_untouched st place i (Or.inr hji)]
    · rw [andThen_err herr]
      exact retireOne_untouched st place i (Or.inr hji)

theorem retireList_decreasing (place : Place) (E : List Nat) :
    ∀ st : GuiState, ∀ m : String, ∀ j : Nat,
    trackedB (retireList place E st).1 m j = true → trackedB st m j = true := by
  induction E with
  | nil => intro st m j h; exact h
  | cons i rest ih =>
    intro st m j h
    rw [retireList_cons] at h
    by_cases herr : (retireOne st place i).2.2 = none
    · rw [(andThen_ok herr).1] at h
      exact retireOne_decreasing st place i (ih _ m j h)
    · rw [andThen_err herr] at h
      exact retireOne_decreasing st place i h

theorem retireList_noDup (place : Place) (E : List Nat) (st : GuiState)
    (hnd : noDupTracked st) : noDupTracked (retireList place E st).1 := by
  intro m1 m2 i h1 h2
  exact hnd m1 m2 i (retireList_decreasing place E st m1 i h1)
    (retireList_decreasing place E st m2 i h2)

theorem retireList_inner (place : Place) (E : List Nat) :
    ∀ st : GuiState, (∀ e ∈ st.images, (akeys e.2).Nodup) →
    ∀ e ∈ (retireList place E st).1.images, (akeys e.2).Nodup := by
  induction E with
  | nil => intro st inner; exact inner
  | cons i rest ih =>
    intro st inner
    rw [retireList_cons]
    by_cases herr : (retireOne st place i).2.2 = none
    · rw [(andThen_ok herr).1]
      exact ih _ (retireOne_inner st place i inner)
    · rw [andThen_err herr]
      exact retireOne_inner st place i inner

theorem retireList_topkeys (place : Place) (E : List Nat) :
    ∀ st : GuiState, akeys (retireList place E st).1.images = akeys st.images := by
  induction E with
  | nil => intro st; rfl
  | cons i rest ih =>
    intro st
    rw [retireList_cons]
    by_cases herr : (retireOne st place i).2.2 = none
    · rw [(andThen_ok herr).1, ih _, retireOne_topkeys]
    · rw [andThen_err herr]
      exact retireOne_topkeys st place i

theorem retireList_points (place : Place) (E : List Nat) :
    ∀ st : GuiState, (retireList place E st).1.place_points = st.place_points := by
  induction E with
  | nil => intro st; rfl
  | cons i rest ih =>
    intro st
    rw [retireList_cons]
    by_cases herr : (retireOne st place i).2.2 = none
    · rw [(andThen_ok herr).1, ih _, retireOne_points]
    · rw [andThen_err herr]
      exact retireOne_points st place i

theorem retireList_no_passenger_err (place : Place) (E : List Nat) :
    ∀ st : GuiState, ∀ pl : String, ∀ aid : Nat,
    (retireList place E st).2.2 ≠ some (GuiErr.passengerContainerKey pl aid) := by
  induction E with
  | nil => intro st pl aid; simp [retireList_nil]
  | cons i rest ih =>
    intro st pl aid
    rw [retireList_cons]
    by_cases herr : (retireOne st place i).2.2 = none
    · rw [(andThen_ok herr).2.2]
      exact ih _ pl aid
    · rw [andThen_err herr]
      exact retireOne_no_passenger_err st place i pl aid

theorem retireList_ok_head (place : Place) (i : Nat) (rest : List Nat) (st : GuiState)
    (hok : (retireList place (i :: rest) st).2.2 = none) :
    (retireOne st place i).2.2 = none ∧
    (retireList place rest (retireOne st place i).1).2.2 = none := by
  rw [retireList_cons] at hok
  by_cases herr : (retireOne st place i).2.2 = none
  · rw [(andThen_ok herr).2.2] at hok
    exact ⟨herr, hok⟩
  · rw [andThen_err herr] at hok
    exact absurd hok herr

theorem retireList_removes (place : Place) (E : List Nat)
    (hexitne : ∀ ex, place.exit = some ex → ex ≠ place.name) :
    ∀ st : GuiState, E.Nodup →
    (∀ e ∈ st.images, (akeys e.2).Nodup) → noDupTracked st →
    (∀ j ∈ E, trackedB st place.name j = true) →
    (retireList place E st).2.2 = none →
    ∀ j ∈ E, trackedB (retireList place E st).1 place.name j = false := by
  induction E with
  | nil => intro st _ _ _ _ _ j hj; simp at hj
  | cons i rest ih =>
    intro st hnodup inner hnd htr hok j hj
    obtain ⟨hok1, hok2⟩ := retireList_ok_head place i rest st hok
    have hstep : trackedB (retireOne st place i).1 place.name i = false :=
      retireOne_removes st place i inner hnd (htr i (List.mem_cons_self i rest))
        hexitne hok1
    have hinner1 := retireOne_inner st place i inner
    have hnd1 := retireOne_noDup st place i hnd
    rw [retireList_cons, (andThen_ok hok1).1]
    rcases List.mem_cons.mp hj with hji | hjr
    · subst hji
      cases hv : trackedB (retireList place rest (retireOne st place j).1).1 place.name j
      · rfl
      · have hdec := retireList_decreasing place rest _ place.name j hv
        rw [hstep] at hdec
        simp at hdec
    · have hnotr : (i ∉ rest) := (List.nodup_cons.mp hnodup).1
      have htr1 : ∀ k ∈ rest, trackedB (retireOne st place i).1 place.name k = true := by
        intro k hk
        have hki : k ≠ i := fun hh => hnotr (hh ▸ hk)
        rw [retireOne_untouched st place i (Or.inr hki)]
        exact htr k (List.mem_cons_of_mem i hk)
      exact ih _ (List.nodup_cons.mp hnodup).2 hinner1 hnd1 htr1 hok2 j hjr

/-! ### `processBees` -/

theorem processBees_nil (colony : Colony) (place : Place) (st : GuiState) :
    processBees colony place [] st = (st, [], none) := rfl

theorem processBees_cons (colony : Colony) (place : Place) (b : Nat) (rest : List Nat)
    (st : GuiState) :
    processBees colony place (b :: rest) st =
      if trackedB st place.name b then processBees colony place rest st
      else andThen (beeArrival colony place st b)
        (fun st1 => processBees colony place rest st1) := rfl

theorem processBees_notmem (colony : Colony) (place : Place) (bees : List Nat) :
    ∀ st : GuiState, ∀ j : Nat, j ∉ bees → ∀ m : String,
    trackedB (processBees colony place bees st).1 m j = trackedB st m j := by
  induction bees with
  | nil => intro st j hj m; rfl
  | cons b rest ih =>
    intro st j hj m
    have hjb : j ≠ b := fun hh => hj (hh ▸ List.mem_cons_self b rest)
    have hjr : j ∉ rest := fun hh => hj (List.mem_cons_of_mem b hh)
    rw [processBees_cons]
    by_cases htr : trackedB st place.name b = true
    · rw [if_pos htr]
      exact ih st j hjr m
    · rw [if_neg htr]
      by_cases herr : (beeArrival colony place st b).2.2 = none
      · rw [(andThen_ok herr).1, ih _ j hjr m, beeArrival_other colony place st b hjb m]
      · rw [andThen_err herr]
        exact beeArrival_other colony place st b hjb m

theorem processBees_tracked (colony : Colony) (place : Place) (bees : List Nat) :
    ∀ st : GuiState, (∀ e ∈ st.images, (akeys e.2).Nodup) →
    ∀ m : String, ∀ j : Nat,
    trackedB (processBees colony place bees st).1 m j = true →
    trackedB st m j = true ∨ (m = place.name ∧ j ∈ bees) := by
  induction bees with
  | nil => intro st _ m j h; exact Or.inl h
  | cons b rest ih =>
    intro st inner m j h
    rw [processBees_cons] at h
    by_cases htr : trackedB st place.name b = true
    · rw [if_pos htr] at h
      rcases ih st inner m j h with h' | ⟨hm, hr⟩
      · exact Or.inl h'
      · exact Or.inr ⟨hm, List.mem_cons_of_mem b hr⟩
    · rw [if_neg htr] at h
      by_cases herr : (beeArrival colony place st b).2.2 = none
      · rw [(andThen_ok herr).1] at h
        rcases ih _ (beeArrival_inner colony place st b inner) m j h with h' | ⟨hm, hr⟩
        · rcases beeArrival_tracked colony place st b inner h' with h2 | ⟨hm, hb⟩
          · exact Or.inl h2
          · exact Or.inr ⟨hm, hb ▸ List.mem_cons_self b rest⟩
        · exact Or.inr ⟨hm, List.mem_cons_of_mem b hr⟩
      · rw [andThen_err herr] at h
        rcases beeArrival_tracked colony place st b inner h with h2 | ⟨hm, hb⟩
        · exact Or.inl h2
        · exact Or.inr ⟨hm, hb ▸ List.mem_cons_self b rest⟩

theorem processBees_noDup (colony : Colony) (place : Place) (bees : List Nat) :
    ∀ st : GuiState, (∀ e ∈ st.images, (akeys e.2).Nodup) → noDupTracked st →
    noDupTracked (processBees colony place bees st).1 := by
  induction bees with
  | nil => intro st _ hnd; exact hnd
  | cons b rest ih =>
    intro st inner hnd
    rw [processBees_cons]
    by_cases htr : trackedB st place.name b = true
    · rw [if_pos htr]
      exact ih st inner hnd
    · rw [if_neg htr]
      by_cases herr : (beeArrival colony place st b).2.2 = none
      · rw [(andThen_ok herr).1]
        exact ih _ (beeArrival_inner colony place st b inner)
          (beeArrival_noDup colony place st b inner hnd)
      · rw [andThen_err herr]
        exact beeArrival_noDup colony place st b inner hnd

theorem processBees_inner (colony : Colony) (place : Place) (bees : List Nat) :
    ∀ st : GuiState, (∀ e ∈ st.images, (akeys e.2).Nodup) →
    ∀ e ∈ (processBees colony place bees st).1.images, (akeys e.2).Nodup := by
  induction bees with
  | nil => intro st inner; exact inner
  | cons b rest ih =>
    intro st inner
    rw [processBees_cons]
    by_cases htr : trackedB st place.name b = true
    · rw [if_pos htr]
      exact ih st inner
    · rw [if_neg htr]
      by_cases herr : (beeArrival colony place st b).2.2 = none
      · rw [(andThen_ok herr).1]
        exact ih _ (beeArrival_inner colony place st b inner)
      · rw [andThen_err herr]
        exact beeArrival_inner colony place st b inner

theorem processBees_topkeys (colony : Colony) (place : Place) (bees : List Nat) :
    ∀ st : GuiState,
    akeys (processBees colony place bees st).1.images = akeys st.images := by
  induction bees with
  | nil => intro st; rfl
  | cons b rest ih =>
    intro st
    rw [processBees_cons]
    by_cases htr : trackedB st place.name b = true
    · rw [if_pos htr]
      exact ih st
    · rw [if_neg htr]
      by_cases herr : (beeArrival colony place st b).2.2 = none
      · rw [(andThen_ok herr).1, ih _, beeArrival_topkeys]
      · rw [andThen_err herr]
        exact beeArrival_topkeys colony place st b

theorem processBees_points (colony : Colony) (place : Place) (bees : List Nat) :
    ∀ st : GuiState,
    (processBees colony place bees st).1.place_points = st.place_points := by
  induction bees with
  | nil => intro st; rfl
  | cons b rest ih =>
    intro st
    rw [processBees_cons]
    by_cases htr : trackedB st place.name b = true
    · rw [if_pos htr]
      exact ih st
    · rw [if_neg htr]
      by_cases herr : (beeArrival colony place st b).2.2 = none
      · rw [(andThen_ok herr).1, ih _, beeArrival_points]
      · rw [andThen_err herr]
        exact beeArrival_points colony place st b

theorem processBees_no_passenger_err (colony : Colony) (place : Place) (bees : List Nat) :
    ∀ st : GuiState, ∀ pl : String, ∀ aid : Nat,
    (processBees colony place bees st).2.2 ≠ some (GuiErr.passengerContainerKey pl aid) := by
  induction bees with
  | nil => intro st pl aid; simp [processBees_nil]
  | cons b rest ih =>
    intro st pl aid
    rw [processBees_cons]
    by_cases htr : trackedB st place.name b = true
    · rw [if_pos htr]
      exact ih st pl aid
    · rw [if_neg htr]
      by_cases herr : (beeArrival colony place st b).2.2 = none
      · rw [(andThen_ok herr).2.2]
        exact ih _ pl aid
      · rw [andThen_err herr]
        exact beeArrival_no_passenger_err colony place st b pl aid

theorem processBees_keeps (colony : Colony) (place : Place) (bees : List Nat) :
    ∀ st : GuiState, ∀ j : Nat, trackedB st place.name j = true →
    trackedB (processBees colony place bees st).1 place.name j = true := by
  induction bees with
  | nil => intro st j h; exact h
  | cons b rest ih =>
    intro st j h
    rw [processBees_cons]
    by_cases htr : trackedB st place.name b = true
    · rw [if_pos htr]
      exact ih st j h
    · rw [if_neg htr]
      have hstep : ∀ j : Nat, trackedB st place.name j = true →
          trackedB (beeArrival colony place st b).1 place.name j = true := by
        intro j hh
        by_cases hjb : j = b
        · subst hjb
          exact absurd hh htr
        · rwa [beeArrival_other colony place st b hjb place.name]
      by_cases herr : (beeArrival colony place st b).2.2 = none
      · rw [(andThen_ok herr).1]
        exact ih _ j (hstep j h)
      · rw [andThen_err herr]
        exact hstep j h

theorem processBees_ok_head (colony : Colony) (place : Place) (b : Nat) (rest : List Nat)
    (st : GuiState) (htr : ¬ trackedB st place.name b = true)
    (hok : (processBees colony place (b :: rest) st).2.2 = none) :
    (beeArrival colony place st b).2.2 = none ∧
    (processBees colony place rest (beeArrival colony place st b).1).2.2 = none := by
  rw [processBees_cons, if_neg htr] at hok
  by_cases herr : (beeArrival colony place st b).2.2 = none
  · rw [(andThen_ok herr).2.2] at hok
    exact ⟨herr, hok⟩
  · rw [andThen_err herr] at hok
    exact absurd hok herr

theorem processBees_ok_tracked (colony : Colony) (place : Place) (bees : List Nat) :
    ∀ st : GuiState,
    (processBees colony place bees st).2.2 = none →
    ∀ b ∈ bees, trackedB (processBees colony place bees st).1 place.name b = true := by
  induction bees with
  | nil => intro st _ b hb; simp at hb
  | cons b0 rest ih =>
    intro st hok b hb
    by_cases htr : trackedB st place.name b0 = true
    · rw [processBees_cons, if_pos htr] at hok ⊢
      rcases List.mem_cons.mp hb with hb0 | hbr
      · subst hb0
        exact processBees_keeps colony place rest st b htr
      · exact ih st hok b hbr
    · obtain ⟨hok1, hok2⟩ := processBees_ok_head colony place b0 rest st htr hok
      rw [processBees_cons, if_neg htr, (andThen_ok hok1).1]
      rcases List.mem_cons.mp hb with hb0 | hbr
      · subst hb0
        exact processBees_keeps colony place rest _ b
          (beeArrival_ok_tracked colony place st b hok1)
      · exact ih _ hok2 b hbr

/-! ### `processAnt` -/

theorem draw_insect_noDup {st : GuiState} (i : Nat) (iname p : String)
    (off : Option (Int × Int)) (behind : Nat) (hnd : noDupTracked st)
    (huniq : ∀ m, trackedB st m i = true → m = p) :
    noDupTracked (draw_insect st i iname p off behind).1 := by
  intro m1 m2 k h1 h2
  rcases draw_insect_tracked h1 with h1' | ⟨hm1, hk1⟩
  · rcases draw_insect_tracked h2 with h2' | ⟨hm2, hk2⟩
    · exact hnd m1 m2 k h1' h2'
    · subst hk2
      rw [huniq m1 h1', hm2]
  · subst hk1
    rcases draw_insect_tracked h2 with h2' | ⟨hm2, hk2⟩
    · rw [huniq m2 h2', hm1]
    · rw [hm1, hm2]

theorem processAnt_def (st : GuiState) (pname : String) (a : AntEnt) :
    processAnt st pname a =
      andThen
        (match a.passenger with
         | some q =>
           if a.container ∧ ¬ trackedB st pname q.1 then
             match alookup (imagesOf st pname) a.id with
             | none => (st, [], some (GuiErr.passengerContainerKey pname a.id))
             | some containerImg => draw_insect st q.1 q.2 pname none containerImg
           else (st, [], none)
         | none => (st, [], none))
        (fun st1 =>
          if trackedB st1 pname a.id then (st1, [], none)
          else draw_insect st1 a.id a.name pname none 0) := rfl

/-- The first stage of `processAnt` (the passenger branch of lines 228-231)
either leaves the state unchanged, raises the container lookup KeyError, or is
one `draw_insect` of the passenger. -/
theorem processAnt_stage1_cases (st : GuiState) (pname : String) (a : AntEnt) :
    ∀ r : GuiRes,
    r = (match a.passenger with
         | some q =>
           if a.container ∧ ¬ trackedB st pname q.1 then
             match alookup (imagesOf st pname) a.id with
             | none => (st, [], some (GuiErr.passengerContainerKey pname a.id))
             | some containerImg => draw_insect st q.1 q.2 pname none containerImg
           else (st, [], none)
         | none => (st, [], none)) →
    r = (st, [], none) ∨
    (r = (st, [], some (GuiErr.passengerContainerKey pname a.id))) ∨
    (∃ q cimg, a.passenger = some q ∧
      r = draw_insect st q.1 q.2 pname none cimg) := by
  intro r hr
  rcases hpass : a.passenger with _ | q
  · rw [hpass] at hr
    exact Or.inl hr
  · rw [hpass] at hr
    dsimp only at hr
    by_cases hcond : a.container = true ∧ ¬ trackedB st pname q.1 = true
    · rw [if_pos hcond] at hr
      rcases hq : alookup (imagesOf st pname) a.id with _ | cimg
      · rw [hq] at hr
        dsimp only at hr
        exact Or.inr (Or.inl hr)
      · rw [hq] at hr
        dsimp only at hr
        exact Or.inr (Or.inr ⟨q, cimg, rfl, hr⟩)
    · rw [if_neg hcond] at hr
      exact Or.inl hr

theorem processAnt_tracked {st : GuiState} {pname : String} {a : AntEnt}
    {m : String} {j : Nat}
    (h : trackedB (processAnt st pname a).1 m j = true) :
    trackedB st m j = true ∨ (m = pname ∧ j ∈ antIdsOpt (some a)) := by
  rw [processAnt_def] at h
  rcases processAnt_stage1_cases st pname a _ rfl with hs | hs | ⟨q, cimg, hq, hs⟩ <;>
    rw [hs] at h
  · rw [(andThen_ok rfl).1] at h
    by_cases htr : trackedB st pname a.id = true
    · rw [if_pos htr] at h
      exact Or.inl h
    · rw [if_neg htr] at h
      rcases draw_insect_tracked h with h' | ⟨hm, hj⟩
      · exact Or.inl h'
      · exact Or.inr ⟨hm, by simp [antIdsOpt, hj]⟩
  · rw [andThen_err (by simp)] at h
    exact Or.inl h
  · have hstage1 : ∀ m j, trackedB (draw_insect st q.1 q.2 pname none cimg).1 m j = true →
        trackedB st m j = true ∨ (m = pname ∧ j ∈ antIdsOpt (some a)) := by
      intro m j hh
      rcases draw_insect_tracked hh with h' | ⟨hm, hj⟩
      · exact Or.inl h'
      · exact Or.inr ⟨hm, by simp [antIdsOpt, hq, hj]⟩
    by_cases herr : (draw_insect st q.1 q.2 pname none cimg).2.2 = none
    · rw [(andThen_ok herr).1] at h
      by_cases htr : trackedB (draw_insect st q.1 q.2 pname none cimg).1 pname a.id = true
      · rw [if_pos htr] at h
        exact hstage1 m j h
      · rw [if_neg htr] at h
        rcases draw_insect_tracked h with h' | ⟨hm, hj⟩
        · exact hstage1 m j h'
        · exact Or.inr ⟨hm, by simp [antIdsOpt, hj]⟩
    · rw [andThen_err herr] at h
      exact hstage1 m j h

theorem processAnt_untouched (st : GuiState) (pname : String) (a : AntEnt)
    {m : String} {j : Nat} (h : m ≠ pname ∨ j ∉ antIdsOpt (some a)) :
    trackedB (processAnt st pname a).1 m j = trackedB st m j := by
  have hja : m ≠ pname ∨ j ≠ a.id := by
    rcases h with h | h
    · exact Or.inl h
    · exact Or.inr (fun hh => h (by simp [antIdsOpt, hh]))
  have hdraw2 : ∀ st1 : GuiState,
      trackedB (if trackedB st1 pname a.id then ((st1, [], none) : GuiRes)
        else draw_insect st1 a.id a.name pname none 0).1 m j = trackedB st1 m j := by
    intro st1
    by_cases htr : trackedB st1 pname a.id = true
    · rw [if_pos htr]
    · rw [if_neg htr]
      rcases hja with hja | hja
      · exact draw_insect_other a.id a.name pname none 0 j hja
      · exact draw_insect_self_ne a.id a.name pname none 0 hja m
  rw [processAnt_def]
  rcases processAnt_stage1_cases st pname a _ rfl with hs | hs | ⟨q, cimg, hq, hs⟩ <;>
    rw [hs]
  · rw [(andThen_ok rfl).1]
    exact hdraw2 st
  · rw [andThen_err (by simp)]
  · have hstage1 : trackedB (draw_insect st q.1 q.2 pname none cimg).1 m j
        = trackedB st m j := by
      rcases h with h | h
      · exact draw_insect_other q.1 q.2 pname none cimg j h
      · have hjq : j ≠ q.1 := fun hh => h (by simp [antIdsOpt, hq, hh])
        exact draw_insect_self_ne q.1 q.2 pname none cimg hjq m
    by_cases herr : (draw_insect st q.1 q.2 pname none cimg).2.2 = none
    · rw [(andThen_ok herr).1, hdraw2 _, hstage1]
    · rw [andThen_err herr]
      exact hstage1

theorem processAnt_noDup {st : GuiState} (pname : String) (a : AntEnt)
    (hnd : noDupTracked st)
    (huniq : ∀ i ∈ antIdsOpt (some a), ∀ m, trackedB st m i = true → m = pname) :
    noDupTracked (processAnt st pname a).1 := by
  have haid : a.id ∈ antIdsOpt (some a) := by simp [antIdsOpt]
  have hnd2 : ∀ st1 : GuiState, noDupTracked st1 →
      (∀ m, trackedB st1 m a.id = true → m = pname) →
      noDupTracked (if trackedB st1 pname a.id then ((st1, [], none) : GuiRes)
        else draw_insect st1 a.id a.name pname none 0).1 := by
    intro st1 hnd1 huniq1
    by_cases htr : trackedB st1 pname a.id = true
    · rw [if_pos htr]
      exact hnd1
    · rw [if_neg htr]
      exact draw_insect_noDup a.id a.name pname none 0 hnd1 huniq1
  rw [processAnt_def]
  rcases processAnt_stage1_cases st pname a _ rfl with hs | hs | ⟨q, cimg, hq, hs⟩ <;>
    rw [hs]
  · rw [(andThen_ok rfl).1]
    exact hnd2 st hnd (huniq a.id haid)
  · rw [andThen_err (by simp)]
    exact hnd
  · have hq1 : q.1 ∈ antIdsOpt (some a) := by simp [antIdsOpt, hq]
    have hndq : noDupTracked (draw_insect st q.1 q.2 pname none cimg).1 :=
      draw_insect_noDup q.1 q.2 pname none cimg hnd (huniq q.1 hq1)
    have huniq2 : ∀ m, trackedB (draw_insect st q.1 q.2 pname none cimg).1 m a.id = true →
        m = pname := by
      intro m hm
      rcases draw_insect_tracked hm with h' | ⟨hm', _⟩
      · exact huniq a.id haid m h'
      · exact hm'
    by_cases herr : (draw_insect st q.1 q.2 pname none cimg).2.2 = none
    · rw [(andThen_ok herr).1]
      exact hnd2 _ hndq huniq2
    · rw [andThen_err herr]
      exact hndq

theorem processAnt_inner {st : GuiState} (pname : String) (a : AntEnt)
    (inner : ∀ e ∈ st.images, (akeys e.2).Nodup) :
    ∀ e ∈ (processAnt st pname a).1.images, (akeys e.2).Nodup := by
  have hin2 : ∀ st1 : GuiState, (∀ e ∈ st1.images, (akeys e.2).Nodup) →
      ∀ e ∈ (if trackedB st1 pname a.id then ((st1, [], none) : GuiRes)
        else draw_insect st1 a.id a.name pname none 0).1.images, (akeys e.2).Nodup := by
    intro st1 hi1
    by_cases htr : trackedB st1 pname a.id = true
    · rw [if_pos htr]
      exact hi1
    · rw [if_neg htr]
      exact draw_insect_inner a.id a.name pname none 0 hi1
  rw [processAnt_def]
  rcases processAnt_stage1_cases st pname a _ rfl with hs | hs | ⟨q, cimg, hq, hs⟩ <;>
    rw [hs]
  · rw [(andThen_ok rfl).1]
    exact hin2 st inner
  · rw [andThen_err (by simp)]
    exact inner
  · have hinq := draw_insect_inner q.1 q.2 pname none cimg inner
    by_cases herr : (draw_insect st q.1 q.2 pname none cimg).2.2 = none
    · rw [(andThen_ok herr).1]
      exact hin2 _ hinq
    · rw [andThen_err herr]
      exact hinq

theorem processAnt_topkeys (st : GuiState) (pname : String) (a : AntEnt) :
    akeys (processAnt st pname a).1.images = akeys st.images := by
  have hk2 : ∀ st1 : GuiState,
      akeys (if trackedB st1 pname a.id then ((st1, [], none) : GuiRes)
        else draw_insect st1 a.id a.name pname none 0).1.images = akeys st1.images := by
    intro st1
    by_cases htr : trackedB st1 pname a.id = true
    · rw [if_pos htr]
    · rw [if_neg htr]
      exact draw_insect_topkeys st1 a.id a.name pname none 0
  rw [processAnt_def]
  rcases processAnt_stage1_cases st pname a _ rfl with hs | hs | ⟨q, cimg, hq, hs⟩ <;>
    rw [hs]
  · rw [(andThen_ok rfl).1]
    exact hk2 st
  · rw [andThen_err (by simp)]
  · by_cases herr : (draw_insect st q.1 q.2 pname none cimg).2.2 = none
    · rw [(andThen_ok herr).1, hk2 _, draw_insect_topkeys]
    · rw [andThen_err herr]
      exact draw_insect_topkeys st q.1 q.2 pname none cimg

theorem processAnt_points (st : GuiState) (pname : String) (a : AntEnt) :
    (processAnt st pname a).1.place_points = st.place_points := by
  have hp2 : ∀ st1 : GuiState,
      (if trackedB st1 pname a.id then ((st1, [], none) : GuiRes)
        else draw_insect st1 a.id a.name pname none 0).1.place_points
        = st1.place_points := by
    intro st1
    by_cases htr : trackedB st1 pname a.id = true
    · rw [if_pos htr]
    · rw [if_neg htr]
      exact draw_insect_points st1 a.id a.name pname none 0
  rw [processAnt_def]
  rcases processAnt_stage1_cases st pname a _ rfl with hs | hs | ⟨q, cimg, hq, hs⟩ <;>
    rw [hs]
  · rw [(andThen_ok rfl).1]
    exact hp2 st
  · rw [andThen_err (by simp)]
  · by_cases herr : (draw_insect st q.1 q.2 pname none cimg).2.2 = none
    · rw [(andThen_ok herr).1, hp2 _, draw_insect_points]
    · rw [andThen_err herr]
      exact draw_insect_points st q.1 q.2 pname none cimg

theorem processAnt_ok_tracked {st : GuiState} {pname : String} {a : AntEnt}
    (hok : (processAnt st pname a).2.2 = none) :
    trackedB (processAnt st pname a).1 pname a.id = true ∧
    (∀ q, a.passenger = some q → a.container = true →
      trackedB (processAnt st pname a).1 pname q.1 = true) := by
  have hmain : ∀ st1 : GuiState,
      ((if trackedB st1 pname a.id then ((st1, [], none) : GuiRes)
        else draw_insect st1 a.id a.name pname none 0)).2.2 = none →
      trackedB ((if trackedB st1 pname a.id then ((st1, [], none) : GuiRes)
        else draw_insect st1 a.id a.name pname none 0)).1 pname a.id = true := by
    intro st1 hok1
    by_cases htr : trackedB st1 pname a.id = true
    · rw [if_pos htr]
      exact htr
    · rw [if_neg htr] at hok1 ⊢
      exact draw_insect_ok_tracked hok1
  have hmainKeep : ∀ st1 : GuiState, ∀ j : Nat,
      trackedB st1 pname j = true →
      trackedB ((if trackedB st1 pname a.id then ((st1, [], none) : GuiRes)
        else draw_insect st1 a.id a.name pname none 0)).1 pname j = true := by
    intro st1 j hj
    by_cases htr : trackedB st1 pname a.id = true
    · rw [if_pos htr]
      exact hj
    · rw [if_neg htr]
      exact draw_insect_mono hj
  rw [processAnt_def] at hok ⊢
  revert hok
  rcases hpass : a.passenger with _ | q
  · intro hok
    dsimp only at hok ⊢
    rw [(andThen_ok rfl).2.2] at hok
    rw [(andThen_ok rfl).1]
    refine ⟨hmain st hok, ?_⟩
    intro q2 hq2
    cases hq2
  · intro hok
    dsimp only at hok ⊢
    by_cases hcond : a.container = true ∧ ¬ trackedB st pname q.1 = true
    · rw [if_pos hcond] at hok ⊢
      rcases hq : alookup (imagesOf st pname) a.id with _ | cimg
      · rw [hq] at hok
        dsimp only at hok
        rw [andThen_err (by simp)] at hok
        simp at hok
      · rw [hq] at hok
        dsimp only at hok
        by_cases herr : (draw_insect st q.1 q.2 pname none cimg).2.2 = none
        · rw [(andThen_ok herr).2.2] at hok
          rw [(andThen_ok herr).1]
          refine ⟨hmain _ hok, ?_⟩
          intro q2 hq2
          injection hq2 with hq2
          subst hq2
          intro _
          exact hmainKeep _ q.1 (draw_insect_ok_tracked herr)
        · rw [andThen_err herr] at hok
          exact absurd hok herr
    · rw [if_neg hcond] at hok ⊢
      rw [(andThen_ok rfl).2.2] at hok
      rw [(andThen_ok rfl).1]
      refine ⟨hmain st hok, ?_⟩
      intro q2 hq2 hcont
      injection hq2 with hq2
      subst hq2
      have htr : trackedB st pname q.1 = true := by
        by_contra hnt
        exact hcond ⟨hcont, hnt⟩
      exact hmainKeep st q.1 htr

theorem processAnt_no_passenger_err {st : GuiState} {pname : String} {a : AntEnt}
    (hsafe : ∀ q, a.passenger = some q → a.container = true →
      trackedB st pname q.1 = true ∨ trackedB st pname a.id = true) :
    ∀ pl : String, ∀ aid : Nat,
    (processAnt st pname a).2.2 ≠ some (GuiErr.passengerContainerKey pl aid) := by
  intro pl aid
  have hmain : ∀ st1 : GuiState,
      ((if trackedB st1 pname a.id then ((st1, [], none) : GuiRes)
        else draw_insect st1 a.id a.name pname none 0)).2.2
        ≠ some (GuiErr.passengerContainerKey pl aid) := by
    intro st1
    by_cases htr : trackedB st1 pname a.id = true
    · rw [if_pos htr]
      simp
    · rw [if_neg htr]
      exact draw_insect_no_passenger_err st1 a.id a.name pname none 0 pl aid
  rw [processAnt_def]
  rcases hpass : a.passenger with _ | q
  · dsimp only
    rw [(andThen_ok rfl).2.2]
    exact hmain st
  · dsimp only
    by_cases hcond : a.container = true ∧ ¬ trackedB st pname q.1 = true
    · rw [if_pos hcond]
      have htrA : trackedB st pname a.id = true := by
        rcases hsafe q hpass hcond.1 with hh | hh
        · exact absurd hh hcond.2
        · exact hh
      obtain ⟨pi, hpi, hsome⟩ := trackedB_elim htrA
      have himg : imagesOf st pname = pi := by
        simp [imagesOf, hpi]
      rcases hq : alookup (imagesOf st pname) a.id with _ | cimg
      · rw [himg] at hq
        rw [hq] at hsome
        simp at hsome
      · dsimp only
        by_cases herr : (draw_insect st q.1 q.2 pname none cimg).2.2 = none
        · rw [(andThen_ok herr).2.2]
          exact hmain _
        · rw [andThen_err herr]
          exact draw_insect_no_passenger_err st q.1 q.2 pname none cimg pl aid
    · rw [if_neg hcond]
      rw [(andThen_ok rfl).2.2]
      exact hmain st

theorem processAnt_noop {st : GuiState} {pname : String} {a : AntEnt}
    (h1 : trackedB st pname a.id = true)
    (h2 : ∀ q, a.passenger = some q → a.container = true →
      trackedB st pname q.1 = true) :
    processAnt st pname a = (st, [], none) := by
  rw [processAnt_def]
  rcases hpass : a.passenger with _ | q
  · show andThen ((st, [], none) : GuiRes) _ = (st, [], none)
    simp [andThen, h1]
  · dsimp only
    have hcond : ¬ (a.container = true ∧ ¬ trackedB st pname q.1 = true) := by
      intro hcc
      exact hcc.2 (h2 q hpass hcc.1)
    rw [if_neg hcond]
    show andThen ((st, [], none) : GuiRes) _ = (st, [], none)
    simp [andThen, h1]

/-! ### `processPlace` -/

theorem andThen_none (st : GuiState) (f : GuiState → GuiRes) :
    andThen (st, [], none) f = f st := by
  rcases hf : f st with ⟨st2, cmds2, e2⟩
  simp [andThen, hf]

/-- The insect ids a `processPlace` pass can newly record at its own place:
the place's bees (arrivals) and the primary slot's ant ids (draws). -/
def insertIds (place : Place) : List Nat := place.bees ++ antIdsOpt place.ant

theorem processBees_noop (colony : Colony) (place : Place) (bees : List Nat) :
    ∀ st : GuiState, (∀ b ∈ bees, trackedB st place.name b = true) →
    processBees colony place bees st = (st, [], none) := by
  induction bees with
  | nil => intro st _; rfl
  | cons b rest ih =>
    intro st h
    rw [processBees_cons, if_pos (h b (List.mem_cons_self b rest))]
    exact ih st (fun b2 hb2 => h b2 (List.mem_cons_of_mem b hb2))

theorem processPlace_hive (colony : Colony) (st : GuiState) (place : Place)
    (h : place.name = "Hive") : processPlace colony st place = (st, [], none) := by
  unfold processPlace
  rw [if_pos h]

theorem processPlace_eq (colony : Colony) (st : GuiState) (place : Place)
    (h1 : place.name ≠ "Hive") (pi0 : List (Nat × Nat))
    (h2 : alookup st.images place.name = some pi0) :
    processPlace colony st place =
      andThen
        (match place.ant with
         | none => ((st, [], none) : GuiRes)
         | some a => processAnt st place.name a)
        (fun st1 =>
          andThen (processBees colony place place.bees st1) (fun st2 =>
            retireList place
              ((akeys (imagesOf st2 place.name)).filter
                (fun i => decide (i ∉ validIds place))) st2)) := by
  unfold processPlace
  rw [if_neg h1, h2]

theorem processPlace_err_nokey (colony : Colony) (st : GuiState) (place : Place)
    (h1 : place.name ≠ "Hive") (h2 : alookup st.images place.name = none) :
    processPlace colony st place = (st, [], some (GuiErr.imagesKey place.name)) := by
  unfold processPlace
  rw [if_neg h1, h2]

/-- G1: anything newly tracked by `processPlace` is one of the place's own
valid ids, recorded at the place's own mapping. -/
theorem processPlace_tracked (colony : Colony) (st : GuiState) (place : Place)
    (inner : ∀ e ∈ st.images, (akeys e.2).Nodup) {m : String} {j : Nat}
    (h : trackedB (processPlace colony st place).1 m j = true) :
    trackedB st m j = true ∨ (m = place.name ∧ j ∈ insertIds place) := by
  by_cases hh : place.name = "Hive"
  · rw [processPlace_hive colony st place hh] at h
    exact Or.inl h
  · rcases hkey : alookup st.images place.name with _ | pi0
    · rw [processPlace_err_nokey colony st place hh hkey] at h
      exact Or.inl h
    · rw [processPlace_eq colony st place hh pi0 hkey] at h
      -- stage 1 facts
      have hstage1 : ∀ r : GuiRes,
          r = (match place.ant with
               | none => ((st, [], none) : GuiRes)
               | some a => processAnt st place.name a) →
          (∀ m j, trackedB r.1 m j = true →
            trackedB st m j = true ∨ (m = place.name ∧ j ∈ insertIds place)) ∧
          (∀ e ∈ r.1.images, (akeys e.2).Nodup) := by
        intro r hr
        rcases hant : place.ant with _ | a
        · rw [hant] at hr
          subst hr
          exact ⟨fun m j hmj => Or.inl hmj, inner⟩
        · rw [hant] at hr
          subst hr
          constructor
          · intro m j hmj
            rcases processAnt_tracked hmj with h' | ⟨hm, hj⟩
            · exact Or.inl h'
            · exact Or.inr ⟨hm, by simp [insertIds, hant, hj]⟩
          · exact processAnt_inner place.name a inner
      obtain ⟨hs1tr, hs1in⟩ := hstage1 _ rfl
      set r1 : GuiRes := (match place.ant with
        | none => ((st, [], none) : GuiRes)
        | some a => processAnt st place.name a) with hr1
      by_cases herr1 : r1.2.2 = none
      · rw [(andThen_ok herr1).1] at h
        set st1 := r1.1 with hst1
        by_cases herr2 : (processBees colony place place.bees st1).2.2 = none
        · rw [(andThen_ok herr2).1] at h
          set st2 := (processBees colony place place.bees st1).1 with hst2
          have h3 := retireList_decreasing place _ st2 m j h
          rcases processBees_tracked colony place place.bees st1 hs1in m j h3
            with h4 | ⟨hm, hb⟩
          · rcases hs1tr m j h4 with h5 | h5
            · exact Or.inl h5
            · exact Or.inr h5
          · exact Or.inr ⟨hm, by simp [insertIds, hb]⟩
        · rw [andThen_err herr2] at h
          rcases processBees_tracked colony place place.bees st1 hs1in m j h
            with h4 | ⟨hm, hb⟩
          · rcases hs1tr m j h4 with h5 | h5
            · exact Or.inl h5
            · exact Or.inr h5
          · exact Or.inr ⟨hm, by simp [insertIds, hb]⟩
      · rw [andThen_err herr1] at h
        exact hs1tr m j h

/-- G2: at any other place's mapping, only the processed place's own bees can
change (they are taken over from their source). -/
theorem processPlace_other (colony : Colony) (st : GuiState) (place : Place)
    {m : String} (hm : m ≠ place.name) {j : Nat} (hj : j ∉ place.bees)
    (hja : j ∉ antIdsOpt place.ant) :
    trackedB (processPlace colony st place).1 m j = trackedB st m j := by
  by_cases hh : place.name = "Hive"
  · rw [processPlace_hive colony st place hh]
  · rcases hkey : alookup st.images place.name with _ | pi0
    · rw [processPlace_err_nokey colony st place hh hkey]
    · rw [processPlace_eq colony st place hh pi0 hkey]
      have hstage1 : ∀ r : GuiRes,
          r = (match place.ant with
               | none => ((st, [], none) : GuiRes)
               | some a => processAnt st place.name a) →
          trackedB r.1 m j = trackedB st m j := by
        intro r hr
        rcases hant : place.ant with _ | a
        · rw [hant] at hr
          subst hr
          rfl
        · rw [hant] at hr
          subst hr
          refine processAnt_untouched st place.name a (Or.inr ?_)
          rw [hant] at hja
          exact hja
      set r1 : GuiRes := (match place.ant with
        | none => ((st, [], none) : GuiRes)
        | some a => processAnt st place.name a) with hr1
      by_cases herr1 : r1.2.2 = none
      · rw [(andThen_ok herr1).1]
        set st1 := r1.1 with hst1
        by_cases herr2 : (processBees colony place place.bees st1).2.2 = none
        · rw [(andThen_ok herr2).1]
          set st2 := (processBees colony place place.bees st1).1 with hst2
          rw [retireList_other place _ st2 m hm j,
            processBees_notmem colony place place.bees st1 j hj m, hstage1 _ rfl]
        · rw [andThen_err herr2]
          rw [processBees_notmem colony place place.bees st1 j hj m, hstage1 _ rfl]
      · rw [andThen_err herr1]
        exact hstage1 _ rfl

theorem processPlace_noDup (colony : Colony) (st : GuiState) (place : Place)
    (inner : ∀ e ∈ st.images, (akeys e.2).Nodup) (hnd : noDupTracked st)
    (huniq : ∀ i ∈ antIdsOpt place.ant, ∀ m, trackedB st m i = true → m = place.name) :
    noDupTracked (processPlace colony st place).1 := by
  by_cases hh : place.name = "Hive"
  · rw [processPlace_hive colony st place hh]
    exact hnd
  · rcases hkey : alookup st.images place.name with _ | pi0
    · rw [processPlace_err_nokey colony st place hh hkey]
      exact hnd
    · rw [processPlace_eq colony st place hh pi0 hkey]
      have hstage1 : ∀ r : GuiRes,
          r = (match place.ant with
               | none => ((st, [], none) : GuiRes)
               | some a => processAnt st place.name a) →
          noDupTracked r.1 ∧ (∀ e ∈ r.1.images, (akeys e.2).Nodup) := by
        intro r hr
        rcases hant : place.ant with _ | a
        · rw [hant] at hr
          subst hr
          exact ⟨hnd, inner⟩
        · rw [hant] at hr
          subst hr
          rw [hant] at huniq
          exact ⟨processAnt_noDup place.name a hnd huniq,
            processAnt_inner place.name a inner⟩
      obtain ⟨hs1nd, hs1in⟩ := hstage1 _ rfl
      set r1 : GuiRes := (match place.ant with
        | none => ((st, [], none) : GuiRes)
        | some a => processAnt st place.name a) with hr1
      by_cases herr1 : r1.2.2 = none
      · rw [(andThen_ok herr1).1]
        set st1 := r1.1 with hst1
        by_cases herr2 : (processBees colony place place.bees st1).2.2 = none
        · rw [(andThen_ok herr2).1]
          exact retireList_noDup place _ _
            (processBees_noDup colony place place.bees st1 hs1in hs1nd)
        · rw [andThen_err herr2]
          exact processBees_noDup colony place place.bees st1 hs1in hs1nd
      · rw [andThen_err herr1]
        exact hs1nd

theorem processPlace_inner (colony : Colony) (st : GuiState) (place : Place)
    (inner : ∀ e ∈ st.images, (akeys e.2).Nodup) :
    ∀ e ∈ (processPlace colony st place).1.images, (akeys e.2).Nodup := by
  by_cases hh : place.name = "Hive"
  · rw [processPlace_hive colony st place hh]
    exact inner
  · rcases hkey : alookup st.images place.name with _ | pi0
    · rw [processPlace_err_nokey colony st place hh hkey]
      exact inner
    · rw [processPlace_eq colony st place hh pi0 hkey]
      have hstage1 : ∀ r : GuiRes,
          r = (match place.ant with
               | none => ((st, [], none) : GuiRes)
               | some a => processAnt st place.name a) →
          ∀ e ∈ r.1.images, (akeys e.2).Nodup := by
        intro r hr
        rcases hant : place.ant with _ | a
        · rw [hant] at hr
          subst hr
          exact inner
        · rw [hant] at hr
          subst hr
          exact processAnt_inner place.name a inner
      set r1 : GuiRes := (match place.ant with
        | none => ((st, [], none) : GuiRes)
        | some a => processAnt st place.name a) with hr1
      by_cases herr1 : r1.2.2 = none
      · rw [(andThen_ok herr1).1]
        set st1 := r1.1 with hst1
        by_cases herr2 : (processBees colony place place.bees st1).2.2 = none
        · rw [(andThen_ok herr2).1]
          exact retireList_inner place _ _
            (processBees_inner colony place place.bees st1 (hstage1 _ rfl))
        · rw [andThen_err herr2]
          exact processBees_inner colony place place.bees st1 (hstage1 _ rfl)
      · rw [andThen_err herr1]
        exact hstage1 _ rfl

theorem processPlace_topkeys (colony : Colony) (st : GuiState) (place : Place) :
    akeys (processPlace colony st place).1.images = akeys st.images := by
  by_cases hh : place.name = "Hive"
  · rw [processPlace_hive colony st place hh]
  · rcases hkey : alookup st.images place.name with _ | pi0
    · rw [processPlace_err_nokey colony st place hh hkey]
    · rw [processPlace_eq colony st place hh pi0 hkey]
      have hstage1 : ∀ r : GuiRes,
          r = (match place.ant with
               | none => ((st, [], none) : GuiRes)
               | some a => processAnt st place.name a) →
          akeys r.1.images = akeys st.images := by
        intro r hr
        rcases hant : place.ant with _ | a
        · rw [hant] at hr
          subst hr
          rfl
        · rw [hant] at hr
          subst hr
          exact processAnt_topkeys st place.name a
      set r1 : GuiRes := (match place.ant with
        | none => ((st, [], none) : GuiRes)
        | some a => processAnt st place.name a) with hr1
      by_cases herr1 : r1.2.2 = none
      · rw [(andThen_ok herr1).1]
        set st1 := r1.1 with hst1
        by_cases herr2 : (processBees colony place place.bees st1).2.2 = none
        · rw [(andThen_ok herr2).1]
          rw [retireList_topkeys place _ _, processBees_topkeys colony place place.bees st1,
            hstage1 _ rfl]
        · rw [andThen_err herr2]
          rw [processBees_topkeys colony place place.bees st1, hstage1 _ rfl]
      · rw [andThen_err herr1]
        exact hstage1 _ rfl

theorem processPlace_points (colony : Colony) (st : GuiState) (place : Place) :
    (processPlace colony st place).1.place_points = st.place_points := by
  by_cases hh : place.name = "Hive"
  · rw [processPlace_hive colony st place hh]
  · rcases hkey : alookup st.images place.name with _ | pi0
    · rw [processPlace_err_nokey colony st place hh hkey]
    · rw [processPlace_eq colony st place hh pi0 hkey]
      have hstage1 : ∀ r : GuiRes,
          r = (match place.ant with
               | none => ((st, [], none) : GuiRes)
               | some a => processAnt st place.name a) →
          r.1.place_points = st.place_points := by
        intro r hr
        rcases hant : place.ant with _ | a
        · rw [hant] at hr
          subst hr
          rfl
        · rw [hant] at hr
          subst hr
          exact processAnt_points st place.name a
      set r1 : GuiRes := (match place.ant with
        | none => ((st, [], none) : GuiRes)
        | some a => processAnt st place.name a) with hr1
      by_cases herr1 : r1.2.2 = none
      · rw [(andThen_ok herr1).1]
        set st1 := r1.1 with hst1
        by_cases herr2 : (processBees colony place place.bees st1).2.2 = none
        · rw [(andThen_ok herr2).1]
          rw [retireList_points place _ _, processBees_points colony place place.bees st1,
            hstage1 _ rfl]
        · rw [andThen_err herr2]
          rw [processBees_points colony place place.bees st1, hstage1 _ rfl]
      · rw [andThen_err herr1]
        exact hstage1 _ rfl

theorem processPlace_ok_parts (colony : Colony) (st : GuiState) (place : Place)
    (h1 : place.name ≠ "Hive")
    (hok : (processPlace colony st place).2.2 = none) :
    ∃ pi0, alookup st.images place.name = some pi0 ∧
    ∀ r1 : GuiRes,
      r1 = (match place.ant with
            | none => ((st, [], none) : GuiRes)
            | some a => processAnt st place.name a) →
      r1.2.2 = none ∧
      (processBees colony place place.bees r1.1).2.2 = none ∧
      (retireList place
        ((akeys (imagesOf (processBees colony place place.bees r1.1).1 place.name)).filter
          (fun i => decide (i ∉ validIds place)))
        (processBees colony place place.bees r1.1).1).2.2 = none ∧
      (processPlace colony st place).1 =
        (retireList place
          ((akeys (imagesOf (processBees colony place place.bees r1.1).1 place.name)).filter
            (fun i => decide (i ∉ validIds place)))
          (processBees colony place place.bees r1.1).1).1 := by
  rcases hkey : alookup st.images place.name with _ | pi0
  · rw [processPlace_err_nokey colony st place h1 hkey] at hok
    simp at hok
  · refine ⟨pi0, rfl, ?_⟩
    intro r1 hr1
    rw [processPlace_eq colony st place h1 pi0 hkey, ← hr1] at hok
    by_cases herr1 : r1.2.2 = none
    · rw [(andThen_ok herr1).2.2] at hok
      by_cases herr2 : (processBees colony place place.bees r1.1).2.2 = none
      · rw [(andThen_ok herr2).2.2] at hok
        refine ⟨herr1, herr2, hok, ?_⟩
        rw [processPlace_eq colony st place h1 pi0 hkey, ← hr1,
          (andThen_ok herr1).1]
        rw [(andThen_ok herr2).1]
      · rw [andThen_err herr2] at hok
        exact absurd hok herr2
    · rw [andThen_err herr1] at hok
      exact absurd hok herr1

/-- G4: after a successful pass over a (non-hive) place, every valid insect of
that place is tracked at that place. -/
theorem processPlace_ok_valid (colony : Colony) (st : GuiState) (place : Place)
    (h1 : place.name ≠ "Hive")
    (hok : (processPlace colony st place).2.2 = none) :
    ∀ j ∈ validIds place, trackedB (processPlace colony st place).1 place.name j = true := by
  obtain ⟨pi0, hkey, hparts⟩ := processPlace_ok_parts colony st place h1 hok
  obtain ⟨hok1, hok2, hok3, hst⟩ := hparts _ rfl
  intro j hj
  rw [hst]
  -- j is not retired (it is valid), so membership at the retirement entry suffices
  have hnotexp : j ∉ (akeys (imagesOf (processBees colony place place.bees
      (match place.ant with
       | none => ((st, [], none) : GuiRes)
       | some a => processAnt st place.name a).1).1 place.name)).filter
      (fun i => decide (i ∉ validIds place)) := by
    intro hmem
    have := (List.mem_filter.mp hmem).2
    simp at this
    exact this hj
  rw [retireList_notmem place _ _ j hnotexp place.name]
  -- now show j is tracked after the bee stage
  rcases List.mem_append.mp (by simpa [validIds] using hj) with hjb | hjx
  · exact processBees_ok_tracked colony place place.bees _ hok2 j hjb
  · -- j is an ant id of the place
    rcases hant : place.ant with _ | a
    · rw [hant] at hjx
      simp at hjx
    · rw [hant] at hjx hok1
      refine processBees_keeps colony place place.bees _ j ?_
      obtain ⟨haid, hpass⟩ := processAnt_ok_tracked hok1
      rcases List.mem_cons.mp hjx with hjx | hjx
      · subst hjx
        exact haid
      · by_cases hcont : a.container = true
        · rw [if_pos hcont] at hjx
          rcases hq : a.passenger with _ | q
          · rw [hq] at hjx
            simp at hjx
          · rw [hq] at hjx
            simp at hjx
            subst hjx
            exact hpass q hq hcont
        · rw [if_neg hcont] at hjx
          simp at hjx

/-- G5: after a successful pass, only valid insects of the place remain
tracked at that place (the expired ones were slid to the crypt). -/
theorem processPlace_complete (colony : Colony) (st : GuiState) (place : Place)
    (h1 : place.name ≠ "Hive")
    (inner : ∀ e ∈ st.images, (akeys e.2).Nodup) (hnd : noDupTracked st)
    (huniq : ∀ i ∈ antIdsOpt place.ant, ∀ m, trackedB st m i = true → m = place.name)
    (hexitne : ∀ ex, place.exit = some ex → ex ≠ place.name)
    (hok : (processPlace colony st place).2.2 = none) :
    ∀ j, trackedB (processPlace colony st place).1 place.name j = true →
      j ∈ validIds place := by
  obtain ⟨pi0, hkey, hparts⟩ := processPlace_ok_parts colony st place h1 hok
  obtain ⟨hok1, hok2, hok3, hst⟩ := hparts _ rfl
  intro j hj
  rw [hst] at hj
  -- facts about the retirement-entry state
  have hstage1 : noDupTracked (match place.ant with
        | none => ((st, [], none) : GuiRes)
        | some a => processAnt st place.name a).1 ∧
      (∀ e ∈ (match place.ant with
        | none => ((st, [], none) : GuiRes)
        | some a => processAnt st place.name a).1.images, (akeys e.2).Nodup) := by
    rcases hant : place.ant with _ | a
    · exact ⟨hnd, inner⟩
    · rw [hant] at huniq
      exact ⟨processAnt_noDup place.name a hnd huniq, processAnt_inner place.name a inner⟩
  set st2 := (processBees colony place place.bees
    (match place.ant with
     | none => ((st, [], none) : GuiRes)
     | some a => processAnt st place.name a).1).1 with hst2
  have hnd2 : noDupTracked st2 :=
    processBees_noDup colony place place.bees _ hstage1.2 hstage1.1
  have hin2 : ∀ e ∈ st2.images, (akeys e.2).Nodup :=
    processBees_inner colony place place.bees _ hstage1.2
  have hj2 : trackedB st2 place.name j = true :=
    retireList_decreasing place _ st2 place.name j hj
  obtain ⟨pi2, hpi2, hsome2⟩ := trackedB_elim hj2
  have himg2 : imagesOf st2 place.name = pi2 := by simp [imagesOf, hpi2]
  have hmem2 : j ∈ akeys pi2 := (mem_akeys_iff _ _).mpr (by
    intro hno
    rw [hno] at hsome2
    simp at hsome2)
  by_cases hvalid : j ∈ validIds place
  · exact hvalid
  · -- j would have been in the expired set and retired: contradiction
    have hexp : j ∈ (akeys (imagesOf st2 place.name)).filter
        (fun i => decide (i ∉ validIds place)) := by
      rw [himg2]
      exact List.mem_filter.mpr ⟨hmem2, by simpa using hvalid⟩
    have hpi2nodup : (akeys pi2).Nodup := hin2 _ (alookup_mem_of_some _ _ _ hpi2)
    have hexpnodup : ((akeys (imagesOf st2 place.name)).filter
        (fun i => decide (i ∉ validIds place))).Nodup := by
      rw [himg2]
      exact hpi2nodup.filter _
    have hexptracked : ∀ k ∈ (akeys (imagesOf st2 place.name)).filter
        (fun i => decide (i ∉ validIds place)), trackedB st2 place.name k = true := by
      intro k hk
      have hkmem : k ∈ akeys pi2 := by
        rw [himg2] at hk
        exact (List.mem_filter.mp hk).1
      rw [trackedB_of_eq hpi2]
      have := (mem_akeys_iff pi2 k).mp hkmem
      cases hkv : alookup pi2 k with
      | none => exact absurd hkv this
      | some v => rfl
    have hre := retireList_removes place _ hexitne st2 hexpnodup hin2 hnd2
      hexptracked hok3 j hexp
    rw [hj] at hre
    simp at hre

/-- G6: a pass over a place whose tracked mapping already equals its valid set
does nothing: no commands, no state change, no error. -/
theorem processPlace_noop (colony : Colony) (st : GuiState) (place : Place)
    (pi0 : List (Nat × Nat)) (hkey : alookup st.images place.name = some pi0)
    (hDone : ∀ j, trackedB st place.name j = true ↔ j ∈ validIds place) :
    processPlace colony st place = (st, [], none) := by
  by_cases hh : place.name = "Hive"
  · exact processPlace_hive colony st place hh
  · rw [processPlace_eq colony st place hh pi0 hkey]
    have hr1 : (match place.ant with
        | none => ((st, [], none) : GuiRes)
        | some a => processAnt st place.name a) = ((st, [], none) : GuiRes) := by
      rcases hant : place.ant with _ | a
      · rfl
      · refine processAnt_noop ?_ ?_
        · exact (hDone a.id).mpr (by simp [validIds, hant])
        · intro q hq hcont
          refine (hDone q.1).mpr ?_
          simp [validIds, hant, hcont, hq]
      
    rw [hr1]
    have hbees : processBees colony place place.bees st = (st, [], none) := by
      refine processBees_noop colony place place.bees st ?_
      intro b hb
      exact (hDone b).mpr (by simp [validIds, hb])
    have hexp : (akeys (imagesOf st place.name)).filter
        (fun i => decide (i ∉ validIds place)) = [] := by
      rw [show imagesOf st place.name = pi0 from by simp [imagesOf, hkey]]
      refine List.filter_eq_nil_iff.mpr ?_
      intro a ha
      have htr : trackedB st place.name a = true := by
        rw [trackedB_of_eq hkey]
        have := (mem_akeys_iff pi0 a).mp ha
        cases hkv : alookup pi0 a with
        | none => exact absurd hkv this
        | some v => rfl
      simp [(hDone a).mp htr]
    rw [andThen_none]
    show andThen (processBees colony place place.bees st)
        (fun st2 => retireList place
          ((akeys (imagesOf st2 place.name)).filter
            (fun i => decide (i ∉ validIds place))) st2) = (st, [], none)
    rw [hbees, andThen_none]
    show retireList place
        ((akeys (imagesOf st place.name)).filter
          (fun i => decide (i ∉ validIds place))) st = (st, [], none)
    rw [hexp, retireList_nil]

/-- G7: when every carrier-with-passenger at the place has its passenger or
itself already tracked, the pass cannot raise the line-230 KeyError. -/
theorem processPlace_no_passenger (colony : Colony) (st : GuiState) (place : Place)
    (hsafe : ∀ a, place.ant = some a → a.container = true →
      ∀ q, a.passenger = some q →
        trackedB st place.name q.1 = true ∨ trackedB st place.name a.id = true)
    (pl : String) (aid : Nat) :
    (processPlace colony st place).2.2 ≠ some (GuiErr.passengerContainerKey pl aid) := by
  by_cases hh : place.name = "Hive"
  · rw [processPlace_hive colony st place hh]
    simp
  · rcases hkey : alookup st.images place.name with _ | pi0
    · rw [processPlace_err_nokey colony st place hh hkey]
      simp
    · rw [processPlace_eq colony st place hh pi0 hkey]
      have hrest : ∀ st1 : GuiState,
          (andThen (processBees colony place place.bees st1) (fun st2 =>
            retireList place
              ((akeys (imagesOf st2 place.name)).filter
                (fun i => decide (i ∉ validIds place))) st2)).2.2
            ≠ some (GuiErr.passengerContainerKey pl aid) := by
        intro st1
        by_cases herr2 : (processBees colony place place.bees st1).2.2 = none
        · rw [(andThen_ok herr2).2.2]
          exact retireList_no_passenger_err place _ _ pl aid
        · rw [andThen_err herr2]
          exact processBees_no_passenger_err colony place place.bees st1 pl aid
      have hstage1 : ∀ r : GuiRes,
          r = (match place.ant with
               | none => ((st, [], none) : GuiRes)
               | some a => processAnt st place.name a) →
          r.2.2 ≠ some (GuiErr.passengerContainerKey pl aid) := by
        intro r hr
        rcases hant : place.ant with _ | a
        · rw [hant] at hr
          subst hr
          simp
        · rw [hant] at hr
          subst hr
          refine processAnt_no_passenger_err ?_ pl aid
          intro q hq hcont
          exact hsafe a hant hcont q hq
      set r1 : GuiRes := (match place.ant with
        | none => ((st, [], none) : GuiRes)
        | some a => processAnt st place.name a) with hr1
      by_cases herr1 : r1.2.2 = none
      · rw [(andThen_ok herr1).2.2]
        exact hrest _
      · rw [andThen_err herr1]
        exact hstage1 _ rfl

/-! ### The `_update_places` fold -/

theorem updatePlacesAux_nil (colony : Colony) (st : GuiState) (acc : List CanvasCmd) :
    updatePlacesAux colony [] st acc = (st, acc, none) := rfl

theorem updatePlacesAux_cons (colony : Colony) (p : Place) (rest : List Place)
    (st : GuiState) (acc : List CanvasCmd) :
    updatePlacesAux colony (p :: rest) st acc =
      match processPlace colony st p with
      | (st1, cmds, none) => updatePlacesAux colony rest st1 (acc ++ cmds)
      | (st1, cmds, some e) => (st1, acc ++ cmds, some e) := rfl

theorem updatePlacesAux_cons_ok (colony : Colony) (p : Place) (rest : List Place)
    (st : GuiState) (acc : List CanvasCmd)
    (hok : (processPlace colony st p).2.2 = none) :
    updatePlacesAux colony (p :: rest) st acc =
      updatePlacesAux colony rest (processPlace colony st p).1
        (acc ++ (processPlace colony st p).2.1) := by
  rw [updatePlacesAux_cons]
  rcases hres : processPlace colony st p with ⟨st1, cmds, e⟩
  rw [hres] at hok
  cases e with
  | none => rfl
  | some e0 => simp at hok

theorem updatePlacesAux_cons_err (colony : Colony) (p : Place) (rest : List Place)
    (st : GuiState) (acc : List CanvasCmd)
    (herr : (processPlace colony st p).2.2 ≠ none) :
    updatePlacesAux colony (p :: rest) st acc =
      ((processPlace colony st p).1, acc ++ (processPlace colony st p).2.1,
        (processPlace colony st p).2.2) := by
  rw [updatePlacesAux_cons]
  rcases hres : processPlace colony st p with ⟨st1, cmds, e⟩
  rw [hres] at herr
  cases e with
  | none => simp at herr
  | some e0 => rfl

/-- The invariant the fold maintains at every intermediate state, including
the partial state at an error: per-mapping key uniqueness, the
one-representation invariant, and ant-ownership. -/
def MidInv (c : Colony) (st : GuiState) : Prop :=
  (∀ e ∈ st.images, (akeys e.2).Nodup) ∧ noDupTracked st ∧ AntOwn c st

theorem processPlace_MidInv (c : Colony) (st : GuiState) (place : Place)
    (hwf : ColonyWF c) (hp : place ∈ c.places) (hinv : MidInv c st) :
    MidInv c (processPlace c st place).1 := by
  obtain ⟨inner, hnd, hown⟩ := hinv
  by_cases hh : place.name = "Hive"
  · rw [processPlace_hive c st place hh]
    exact ⟨inner, hnd, hown⟩
  · have huniq : ∀ i ∈ antIdsOpt place.ant, ∀ m, trackedB st m i = true → m = place.name :=
      fun i hi m hm => hown place hp hh i hi m hm
    refine ⟨processPlace_inner c st place inner,
      processPlace_noDup c st place inner hnd huniq, ?_⟩
    intro p hp2 hph i hi m hm
    rcases processPlace_tracked c st place inner hm with h' | ⟨hmn, hins⟩
    · exact hown p hp2 hph i hi m h'
    · rcases List.mem_append.mp (by simpa [insertIds] using hins) with hb | ha
      · exact absurd hb (hwf.antNotBee p hp2 place hp i hi)
      · by_cases hpe : p = place
        · rw [hmn, hpe]
        · exact absurd ha (hwf.antsDisj p hp2 place hp hpe i hi)

theorem updatePlacesAux_MidInv (c : Colony) (hwf : ColonyWF c) :
    ∀ l : List Place, (∀ p ∈ l, p ∈ c.places) →
    ∀ st : GuiState, ∀ acc : List CanvasCmd, MidInv c st →
    MidInv c (updatePlacesAux c l st acc).1 := by
  intro l
  induction l with
  | nil => intro _ st acc h; exact h
  | cons p rest ih =>
    intro hsub st acc hinv
    have hp : p ∈ c.places := hsub p (List.mem_cons_self p rest)
    have hstep := processPlace_MidInv c st p hwf hp hinv
    by_cases hok : (processPlace c st p).2.2 = none
    · rw [updatePlacesAux_cons_ok c p rest st acc hok]
      exact ih (fun q hq => hsub q (List.mem_cons_of_mem p hq)) _ _ hstep
    · rw [updatePlacesAux_cons_err c p rest st acc hok]
      exact hstep

theorem updatePlacesAux_tracked (c : Colony) :
    ∀ l : List Place, ∀ st : GuiState, ∀ acc : List CanvasCmd,
    (∀ e ∈ st.images, (akeys e.2).Nodup) →
    ∀ m : String, ∀ j : Nat,
    trackedB (updatePlacesAux c l st acc).1 m j = true →
    trackedB st m j = true ∨ ∃ p ∈ l, m = p.name ∧ j ∈ insertIds p := by
  intro l
  induction l with
  | nil => intro st acc _ m j h; exact Or.inl h
  | cons p rest ih =>
    intro st acc inner m j h
    have hstep : ∀ hh : trackedB (processPlace c st p).1 m j = true,
        trackedB st m j = true ∨ ∃ q ∈ p :: rest, m = q.name ∧ j ∈ insertIds q := by
      intro hh
      rcases processPlace_tracked c st p inner hh with h' | ⟨hm, hi⟩
      · exact Or.inl h'
      · exact Or.inr ⟨p, List.mem_cons_self p rest, hm, hi⟩
    by_cases hok : (processPlace c st p).2.2 = none
    · rw [updatePlacesAux_cons_ok c p rest st acc hok] at h
      rcases ih _ _ (processPlace_inner c st p inner) m j h with h' | ⟨q, hq, hmq, hiq⟩
      · exact hstep h'
      · exact Or.inr ⟨q, List.mem_cons_of_mem p hq, hmq, hiq⟩
    · rw [updatePlacesAux_cons_err c p rest st acc hok] at h
      exact hstep h

theorem updatePlacesAux_other (c : Colony) :
    ∀ l : List Place, ∀ st : GuiState, ∀ acc : List CanvasCmd,
    ∀ m : String, ∀ j : Nat,
    (∀ p ∈ l, m ≠ p.name ∧ j ∉ p.bees ∧ j ∉ antIdsOpt p.ant) →
    trackedB (updatePlacesAux c l st acc).1 m j = trackedB st m j := by
  intro l
  induction l with
  | nil => intro st acc m j _; rfl
  | cons p rest ih =>
    intro st acc m j hall
    obtain ⟨hm, hjb, hja⟩ := hall p (List.mem_cons_self p rest)
    have hrest := fun q hq => hall q (List.mem_cons_of_mem p hq)
    by_cases hok : (processPlace c st p).2.2 = none
    · rw [updatePlacesAux_cons_ok c p rest st acc hok, ih _ _ m j hrest,
        processPlace_other c st p hm hjb hja]
    · rw [updatePlacesAux_cons_err c p rest st acc hok]
      exact processPlace_other c st p hm hjb hja

theorem updatePlacesAux_topkeys (c : Colony) :
    ∀ l : List Place, ∀ st : GuiState, ∀ acc : List CanvasCmd,
    akeys (updatePlacesAux c l st acc).1.images = akeys st.images := by
  intro l
  induction l with
  | nil => intro st acc; rfl
  | cons p rest ih =>
    intro st acc
    by_cases hok : (processPlace c st p).2.2 = none
    · rw [updatePlacesAux_cons_ok c p rest st acc hok, ih _ _,
        processPlace_topkeys]
    · rw [updatePlacesAux_cons_err c p rest st acc hok]
      exact processPlace_topkeys c st p

theorem updatePlacesAux_points (c : Colony) :
    ∀ l : List Place, ∀ st : GuiState, ∀ acc : List CanvasCmd,
    (updatePlacesAux c l st acc).1.place_points = st.place_points := by
  intro l
  induction l with
  | nil => intro st acc; rfl
  | cons p rest ih =>
    intro st acc
    by_cases hok : (processPlace c st p).2.2 = none
    · rw [updatePlacesAux_cons_ok c p rest st acc hok, ih _ _,
        processPlace_points]
    · rw [updatePlacesAux_cons_err c p rest st acc hok]
      exact processPlace_points c st p

/-- Converged per-place condition: the tracked mapping of the place holds
exactly its valid insects. -/
def Done (st : GuiState) (place : Place) : Prop :=
  ∀ j, trackedB st place.name j = true ↔ j ∈ validIds place

theorem validIds_subset {place : Place} {j : Nat} (h : j ∈ validIds place) :
    j ∈ place.bees ∨ j ∈ antIdsOpt place.ant := by
  rcases List.mem_append.mp (by simpa [validIds] using h) with hb | hx
  · exact Or.inl hb
  · rcases hant : place.ant with _ | a
    · rw [hant] at hx
      simp at hx
    · rw [hant] at hx
      rcases List.mem_cons.mp hx with hx | hx
    
      · subst hx
        simp [antIdsOpt]
      · right
        by_cases hcont : a.container = true
        · rw [if_pos hcont] at hx
          rcases hq : a.passenger with _ | q
          · rw [hq] at hx
            simp at hx
          · rw [hq] at hx
            simp at hx
            simp [antIdsOpt, hq, hx]
        · rw [if_neg hcont] at hx
          simp at hx

theorem place_name_inj {c : Colony} (hwf : ColonyWF c) {p q : Place}
    (hp : p ∈ c.places) (hq : q ∈ c.places) (h : p.name = q.name) : p = q :=
  List.inj_on_of_nodup_map hwf.namesNodup hp hq h

theorem updatePlacesAux_keeps_done (c : Colony) (hwf : ColonyWF c) (place : Place)
    (hplace : place ∈ c.places) :
    ∀ l : List Place, (∀ p ∈ l, p ∈ c.places) → (∀ p ∈ l, p ≠ place) →
    ∀ st : GuiState, ∀ acc : List CanvasCmd,
    (∀ e ∈ st.images, (akeys e.2).Nodup) → Done st place →
    Done (updatePlacesAux c l st acc).1 place := by
  intro l hsub hne st acc inner hdone j
  by_cases hv : j ∈ validIds place
  · have hunch : trackedB (updatePlacesAux c l st acc).1 place.name j
        = trackedB st place.name j := by
      refine updatePlacesAux_other c l st acc place.name j ?_
      intro p hp
      have hpp : p ≠ place := hne p hp
      have hpc : p ∈ c.places := hsub p hp
      refine ⟨fun hn => hpp (place_name_inj hwf hpc hplace hn.symm), ?_, ?_⟩
      · rcases validIds_subset hv with hb | ha
        · exact hwf.beesDisj place hplace p hpc (fun hh => hpp hh.symm) j hb
        · exact hwf.antNotBee place hplace p hpc j ha
      · rcases validIds_subset hv with hb | ha
        · intro hc
          exact hwf.antNotBee p hpc place hplace j hc hb
        · exact hwf.antsDisj place hplace p hpc (fun hh => hpp hh.symm) j ha
    rw [hunch]
    exact hdone j
  · constructor
    · intro htr
      rcases updatePlacesAux_tracked c l st acc inner place.name j htr
        with h' | ⟨p, hp, hmn, _⟩
      · exact absurd ((hdone j).mp h') hv
      · exact absurd (place_name_inj hwf (hsub p hp) hplace hmn.symm) (hne p hp)
    · intro hj
      exact absurd hj hv

theorem updatePlacesAux_converge (c : Colony) (hwf : ColonyWF c) :
    ∀ l : List Place, (∀ p ∈ l, p ∈ c.places) → l.Nodup →
    ∀ st : GuiState, ∀ acc : List CanvasCmd, MidInv c st →
    (updatePlacesAux c l st acc).2.2 = none →
    ∀ p ∈ l, p.name ≠ "Hive" → Done (updatePlacesAux c l st acc).1 p := by
  intro l
  induction l with
  | nil => intro _ _ st acc _ _ p hp; simp at hp
  | cons place rest ih =>
    intro hsub hnodup st acc hinv hok p hp hph
    have hplace : place ∈ c.places := hsub place (List.mem_cons_self place rest)
    by_cases hok1 : (processPlace c st place).2.2 = none
    · rw [updatePlacesAux_cons_ok c place rest st acc hok1] at hok ⊢
      have hinv1 := processPlace_MidInv c st place hwf hplace hinv
      have hsubr : ∀ q ∈ rest, q ∈ c.places :=
        fun q hq => hsub q (List.mem_cons_of_mem place hq)
      rcases List.mem_cons.mp hp with hpp | hpr
      · subst hpp
        have hexitne : ∀ ex, p.exit = some ex → ex ≠ p.name := by
          intro ex hex hc
          exact hwf.exitNeSelf p hplace (by rw [hex, hc])
        have hdone1 : Done (processPlace c st p).1 p := by
          intro j
          constructor
          · exact fun htr => processPlace_complete c st p hph hinv.1 hinv.2.1
              (fun i hi m hm => hinv.2.2 p hplace hph i hi m hm) hexitne hok1 j htr
          · exact fun hj => processPlace_ok_valid c st p hph hok1 j hj
        refine updatePlacesAux_keeps_done c hwf p hplace rest hsubr ?_ _ _ hinv1.1 hdone1
        intro q hq hqe
        exact (List.nodup_cons.mp hnodup).1 (hqe ▸ hq)
      · exact ih hsubr (List.nodup_cons.mp hnodup).2 _ _ hinv1 hok p hpr hph
    · rw [updatePlacesAux_cons_err c place rest st acc hok1] at hok
      exact absurd hok hok1

theorem updatePlacesAux_noop (c : Colony) :
    ∀ l : List Place, ∀ st : GuiState, ∀ acc : List CanvasCmd,
    (∀ p ∈ l, p.name ≠ "Hive" → (alookup st.images p.name ≠ none ∧ Done st p)) →
    updatePlacesAux c l st acc = (st, acc, none) := by
  intro l
  induction l with
  | nil => intro st acc _; rfl
  | cons place rest ih =>
    intro st acc hall
    by_cases hh : place.name = "Hive"
    · rw [updatePlacesAux_cons, processPlace_hive c st place hh]
      dsimp only
      rw [List.append_nil]
      exact ih st acc (fun p hp => hall p (List.mem_cons_of_mem place hp))
    · obtain ⟨hkey, hdone⟩ := hall place (List.mem_cons_self place rest) hh
      rcases hkv : alookup st.images place.name with _ | pi0
      · exact absurd hkv hkey
      · rw [updatePlacesAux_cons, processPlace_noop c st place pi0 hkv hdone]
        dsimp only
        rw [List.append_nil]
        exact ih st acc (fun p hp => hall p (List.mem_cons_of_mem place hp))

theorem updatePlacesAux_keytracked (c : Colony) (l : List Place) (st : GuiState)
    (acc : List CanvasCmd) (n : String) (h : alookup st.images n ≠ none) :
    alookup (updatePlacesAux c l st acc).1.images n ≠ none := by
  rw [← mem_akeys_iff] at h ⊢
  rw [updatePlacesAux_topkeys]
  exact h

/-- The line-230 KeyError cannot be raised by a full pass, given the
invariant bundle. -/
theorem updatePlacesAux_no_passenger (c : Colony) (hwf : ColonyWF c) :
    ∀ l : List Place, (∀ p ∈ l, p ∈ c.places) → l.Nodup →
    ∀ st : GuiState, ∀ acc : List CanvasCmd, MidInv c st →
    (∀ p ∈ l, p.name ≠ "Hive" → ∀ a, p.ant = some a → a.container = true →
      ∀ q, a.passenger = some q →
        trackedB st p.name q.1 = true ∨ trackedB st p.name a.id = true) →
    ∀ pl : String, ∀ aid : Nat,
    (updatePlacesAux c l st acc).2.2 ≠ some (GuiErr.passengerContainerKey pl aid) := by
  intro l
  induction l with
  | nil => intro _ _ st acc _ _ pl aid; simp [updatePlacesAux_nil]
  | cons place rest ih =>
    intro hsub hnodup st acc hinv hsafe pl aid
    have hplace : place ∈ c.places := hsub place (List.mem_cons_self place rest)
    by_cases hok1 : (processPlace c st place).2.2 = none
    · rw [updatePlacesAux_cons_ok c place rest st acc hok1]
      have hinv1 := processPlace_MidInv c st place hwf hplace hinv
      refine ih (fun q hq => hsub q (List.mem_cons_of_mem place hq))
        (List.nodup_cons.mp hnodup).2 _ _ hinv1 ?_ pl aid
      intro p hp hph a ha hcont q hq
      have hpc : p ∈ c.places := hsub p (List.mem_cons_of_mem place hp)
      have hpe : p ≠ place := by
        intro hhp
        exact (List.nodup_cons.mp hnodup).1 (hhp ▸ hp)
      have hq1mem : q.1 ∈ antIdsOpt p.ant := by simp [antIdsOpt, ha, hq]
      have haidmem : a.id ∈ antIdsOpt p.ant := by simp [antIdsOpt, ha]
      have hunch : ∀ i, i ∈ antIdsOpt p.ant →
          trackedB (processPlace c st place).1 p.name i = trackedB st p.name i := by
        intro i hi
        refine processPlace_other c st place ?_ ?_ ?_
        · intro hn
          exact hpe (place_name_inj hwf hpc hplace hn)
        · exact hwf.antNotBee p hpc place hplace i hi
        · exact hwf.antsDisj p hpc place hplace hpe i hi
      rcases hsafe p (List.mem_cons_of_mem place hp) hph a ha hcont q hq with hc | hc
      · left
        rw [hunch q.1 hq1mem]
        exact hc
      · right
        rw [hunch a.id haidmem]
        exact hc
    · rw [updatePlacesAux_cons_err c place rest st acc hok1]
      by_cases hh : place.name = "Hive"
      · rw [processPlace_hive c st place hh] at hok1
        simp at hok1
      · exact processPlace_no_passenger c st place
          (fun a ha hcont q hq =>
            hsafe place (List.mem_cons_self place rest) hh a ha hcont q hq) pl aid

/-! ## The session transition system

The simulation model (`ants.py`) is not part of the source tree.  The model
mutations the GUI observes between reconciler passes are therefore modelled
from the specification as relations, stated as loosely as the invariant
proofs allow (a looser relation only strengthens the theorems). -/

/-- The container set is immutable for the session (spec §3): model steps
preserve the place-name sequence and the hive name. -/
def SameSkeleton (c c' : Colony) : Prop :=
  c'.places.map Place.name = c.places.map Place.name ∧ c'.hiveName = c.hiveName

/-- The invariant bundle that holds at every reachable session state. -/
def GoodState (c : Colony) (st : GuiState) : Prop :=
  ColonyWF c ∧ StateWF c st ∧ noDupTracked st ∧ AntOwn c st ∧ PassengerSafe c st

/-- Modelled from the spec (§4.4, §6, §3): the effect on the snapshot of one
`deploy_ant`/`remove_ant` mutation issued by a click callback.  Primary
entities are player-placed with fresh object identities: every primary id in
the new snapshot is tracked nowhere except possibly at its own place, and a
carrier-with-passenger pair can only arise by nesting into (or wrapping) an
entity that is already rendered there, so one member of the pair is tracked. -/
def AntSlotChange (c : Colony) (st : GuiState) (c' : Colony) : Prop :=
  SameSkeleton c c' ∧ ColonyWF c' ∧
  (∀ p ∈ c'.places, ∀ i ∈ antIdsOpt p.ant, ∀ m, trackedB st m i = true → m = p.name) ∧
  (∀ p ∈ c'.places, p.name ≠ "Hive" → ∀ a, p.ant = some a → a.container = true →
    ∀ q, a.passenger = some q →
      trackedB st p.name q.1 = true ∨ trackedB st p.name a.id = true)

/-- Modelled from the spec (§4.4, §6, glossary): the model's between-turn
advance.  Primary entities are stationary and never created by the advance:
each place's primary slot keeps a (possibly reduced) subset of its former
ids, and a surviving carrier-with-passenger pair is unchanged; bees may move,
die, or leave the hive freely. -/
def AdvanceStep (c c' : Colony) : Prop :=
  SameSkeleton c c' ∧ ColonyWF c' ∧
  (∀ p2 ∈ c'.places, ∃ p ∈ c.places, p.name = p2.name ∧
    (∀ i ∈ antIdsOpt p2.ant, i ∈ antIdsOpt p.ant) ∧
    (∀ a, p2.ant = some a → a.container = true → a.passenger.isSome = true →
      p.ant = p2.ant))

/-- Modelled from `_init_places` (lines 114-159) and the spec (§4.4): the
properties of the session state right after one-time view initialization: the
colony holds no primary entities yet, every place (and the hive) has a
tracked mapping, mappings have unique keys, and no insect is tracked twice
(the initial hive bees are each drawn exactly once, in the hive). -/
def InitState (c : Colony) (st : GuiState) : Prop :=
  ColonyWF c ∧
  (∀ p ∈ c.places, p.ant = none) ∧
  (∀ p ∈ c.places, alookup st.images p.name ≠ none) ∧
  alookup st.images c.hiveName ≠ none ∧
  (∀ e ∈ st.images, (akeys e.2).Nodup) ∧
  noDupTracked st

/-- The reachable session states: initialization, then reconciler passes
(`strategy`, line 176), click-callback mutations followed by their immediate
refresh (lines 136-137, 142-143), and model advances between turns.  The
program only continues past a refresh that did not raise. -/
inductive Reach : Colony × GuiState → Prop where
  | init (c : Colony) (st : GuiState) : InitState c st → Reach (c, st)
  | passStep (c : Colony) (st st' : GuiState) (cmds : List CanvasCmd) :
      Reach (c, st) → updatePlaces c st = (st', cmds, none) → Reach (c, st')
  | clickStep (c : Colony) (st : GuiState) (c' : Colony) (st' : GuiState)
      (cmds : List CanvasCmd) :
      Reach (c, st) → AntSlotChange c st c' →
      updatePlaces c' st = (st', cmds, none) → Reach (c', st')
  | advanceStep (c : Colony) (st : GuiState) (c' : Colony) :
      Reach (c, st) → AdvanceStep c c' → Reach (c', st)

theorem goodState_init {c : Colony} {st : GuiState} (h : InitState c st) :
    GoodState c st := by
  obtain ⟨hwf, hants, hkeys, hhive, hinner, hnd⟩ := h
  refine ⟨hwf, ⟨hinner, hkeys, hhive⟩, hnd, ?_, ?_⟩
  · intro p hp _ i hi m _
    rw [hants p hp] at hi
    simp [antIdsOpt] at hi
  · intro p hp _ a ha
    rw [hants p hp] at ha
    cases ha

theorem goodState_pass {c : Colony} {st st' : GuiState} {cmds : List CanvasCmd}
    (hg : GoodState c st) (hpass : updatePlaces c st = (st', cmds, none)) :
    GoodState c st' := by
  obtain ⟨hwf, hst, hnd, hown, hps⟩ := hg
  have hsub : ∀ p ∈ c.places, p ∈ c.places := fun p hp => hp
  have hnodupl : c.places.Nodup := hwf.namesNodup.of_map
  have hinv : MidInv c st := ⟨hst.innerNodup, hnd, hown⟩
  have hok : (updatePlaces c st).2.2 = none := by rw [hpass]
  have hst' : (updatePlaces c st).1 = st' := by rw [hpass]
  have hinv' : MidInv c st' := by
    rw [← hst']
    exact updatePlacesAux_MidInv c hwf c.places hsub st [] hinv
  have hdone : ∀ p ∈ c.places, p.name ≠ "Hive" → Done st' p := by
    intro p hp hph
    rw [← hst']
    exact updatePlacesAux_converge c hwf c.places hsub hnodupl st [] hinv hok p hp hph
  refine ⟨hwf, ⟨hinv'.1, ?_, ?_⟩, hinv'.2.1, hinv'.2.2, ?_⟩
  · intro p hp
    rw [← hst']
    exact updatePlacesAux_keytracked c c.places st [] p.name (hst.placesTracked p hp)
  · rw [← hst']
    exact updatePlacesAux_keytracked c c.places st [] c.hiveName hst.hiveTracked
  · intro p hp hph a ha hcont q hq
    right
    refine (hdone p hp hph a.id).mpr ?_
    simp [validIds, ha]

theorem goodState_click {c : Colony} {st : GuiState} {c' : Colony}
    (hg : GoodState c st) (hch : AntSlotChange c st c') : GoodState c' st := by
  obtain ⟨hwf, hst, hnd, hown, hps⟩ := hg
  obtain ⟨hskel, hwf', hown', hps'⟩ := hch
  refine ⟨hwf', ⟨hst.innerNodup, ?_, ?_⟩, hnd,
    fun p hp hph i hi m hm => hown' p hp i hi m hm, hps'⟩
  · intro p hp
    have hn : p.name ∈ c.places.map Place.name := by
      rw [← hskel.1]
      exact List.mem_map_of_mem Place.name hp
    obtain ⟨p0, hp0, hp0n⟩ := List.mem_map.mp hn
    rw [← hp0n]
    exact hst.placesTracked p0 hp0
  · rw [hskel.2]
    exact hst.hiveTracked

theorem goodState_advance {c : Colony} {st : GuiState} {c' : Colony}
    (hg : GoodState c st) (hadv : AdvanceStep c c') : GoodState c' st := by
  obtain ⟨hwf, hst, hnd, hown, hps⟩ := hg
  obtain ⟨hskel, hwf', hmap⟩ := hadv
  refine ⟨hwf', ⟨hst.innerNodup, ?_, ?_⟩, hnd, ?_, ?_⟩
  · intro p hp
    have hn : p.name ∈ c.places.map Place.name := by
      rw [← hskel.1]
      exact List.mem_map_of_mem Place.name hp
    obtain ⟨p0, hp0, hp0n⟩ := List.mem_map.mp hn
    rw [← hp0n]
    exact hst.placesTracked p0 hp0
  · rw [hskel.2]
    exact hst.hiveTracked
  · intro p2 hp2 hph i hi m hm
    obtain ⟨p, hp, hpn, hsubids, _⟩ := hmap p2 hp2
    rw [← hpn]
    exact hown p hp (by rw [hpn]; exact hph) i (hsubids i hi) m hm
  · intro p2 hp2 hph a ha hcont q hq
    obtain ⟨p, hp, hpn, _, hpair⟩ := hmap p2 hp2
    have hpa : p.ant = some a := by
      rw [hpair a ha hcont (by rw [hq]; rfl), ha]
    have := hps p hp (by rw [hpn]; exact hph) a hpa hcont q hq
    rw [hpn] at this
    exact this

theorem reach_good {s : Colony × GuiState} (h : Reach s) : GoodState s.1 s.2 := by
  induction h with
  | init c st hinit => exact goodState_init hinit
  | passStep c st st' cmds _ hpass ihg => exact goodState_pass ihg hpass
  | clickStep c st c' st' cmds _ hch hpass ihg =>
    exact goodState_pass (goodState_click ihg hch) hpass
  | advanceStep c st c' _ hadv ihg => exact goodState_advance ihg hadv

/-- A full `_update_places` pass from a good state never raises the line-230
passenger-container KeyError. -/
theorem goodState_no_passenger {c : Colony} {st : GuiState} (hg : GoodState c st) :
    ∀ pl : String, ∀ aid : Nat,
    (updatePlaces c st).2.2 ≠ some (GuiErr.passengerContainerKey pl aid) := by
  obtain ⟨hwf, hst, hnd, hown, hps⟩ := hg
  intro pl aid
  exact updatePlacesAux_no_passenger c hwf c.places (fun p hp => hp)
    hwf.namesNodup.of_map st [] ⟨hst.innerNodup, hnd, hown⟩
    (fun p hp hph a ha hcont q hq => hps p hp hph a ha hcont q hq) pl aid

/-! ## The interaction loop: supporting lemmas -/

theorem strategy_loop_stopped (script : List WaitEv) (elapsed : ℚ)
    (h : ¬ elapsed < STRATEGY_SECONDS) :
    strategy_loop script elapsed = (elapsed, []) := by
  cases script with
  | nil => simp [strategy_loop, h]
  | cons ev rest => simp [strategy_loop, h]

theorem strategy_loop_final (script : List WaitEv) :
    ∀ elapsed : ℚ, elapsed < STRATEGY_SECONDS →
    STRATEGY_SECONDS ≤ (strategy_loop script elapsed).1 := by
  induction script with
  | nil =>
    intro elapsed h
    simp [strategy_loop, h]
  | cons ev rest ih =>
    intro elapsed h
    have : strategy_loop (ev :: rest) elapsed =
        ((strategy_loop rest (elapsed + ev.el)).1,
          match ev.pos with
          | some p => p :: (strategy_loop rest (elapsed + ev.el)).2
          | none => (strategy_loop rest (elapsed + ev.el)).2) := by
      simp [strategy_loop, h]
    rw [this]
    by_cases h2 : elapsed + ev.el < STRATEGY_SECONDS
    · exact ih (elapsed + ev.el) h2
    · rw [strategy_loop_stopped rest (elapsed + ev.el) h2]
      exact le_of_not_lt h2

theorem validScript_el_nonneg : ∀ script : List WaitEv, ∀ elapsed : ℚ,
    ValidScript elapsed script → ∀ ev ∈ script, 0 ≤ ev.el := by
  intro script
  induction script with
  | nil => intro elapsed _ ev hev; simp at hev
  | cons e0 rest ih =>
    intro elapsed hv ev hev
    rcases List.mem_cons.mp hev with h | h
    · subst h
      exact hv.1.1
    · exact ih (elapsed + e0.el) hv.2 ev h

theorem elapsedAt_nonneg (script : List WaitEv) (elapsed : ℚ)
    (hv : ValidScript elapsed script) (k : Nat) : 0 ≤ elapsedAt script k := by
  refine List.sum_nonneg ?_
  intro x hx
  rcases List.mem_map.mp hx with ⟨ev, hev, hx2⟩
  rw [← hx2]
  exact validScript_el_nonneg script elapsed hv ev (List.take_subset k script hev)

theorem elapsedAt_zero (script : List WaitEv) : elapsedAt script 0 = 0 := by
  simp [elapsedAt]

theorem elapsedAt_cons (ev : WaitEv) (rest : List WaitEv) (k : Nat) :
    elapsedAt (ev :: rest) (k + 1) = ev.el + elapsedAt rest k := by
  simp [elapsedAt]

theorem strategy_loop_dispatch : ∀ script : List WaitEv, ∀ elapsed : ℚ,
    ∀ k : Nat, ∀ hk : k < script.length,
    ValidScript elapsed script → elapsed < STRATEGY_SECONDS →
    elapsed + elapsedAt script k < STRATEGY_SECONDS →
    ∀ p : Int × Int, (script.get ⟨k, hk⟩).pos = some p →
    p ∈ (strategy_loop script elapsed).2 := by
  intro script
  induction script with
  | nil => intro elapsed k hk; simp at hk
  | cons ev rest ih =>
    intro elapsed k hk hv he hsum p hp
    have hloop : strategy_loop (ev :: rest) elapsed =
        ((strategy_loop rest (elapsed + ev.el)).1,
          match ev.pos with
          | some p0 => p0 :: (strategy_loop rest (elapsed + ev.el)).2
          | none => (strategy_loop rest (elapsed + ev.el)).2) := by
      simp [strategy_loop, he]
    cases k with
    | zero =>
      rw [hloop]
      simp only [List.get] at hp
      rw [hp]
      exact List.mem_cons_self p _
    | succ k2 =>
      have hk2 : k2 < rest.length := Nat.lt_of_succ_lt_succ hk
      have hrest0 : 0 ≤ elapsedAt rest k2 := elapsedAt_nonneg rest (elapsed + ev.el) hv.2 k2
      have hsum2 : (elapsed + ev.el) + elapsedAt rest k2 < STRATEGY_SECONDS := by
        rw [elapsedAt_cons] at hsum
        linarith
      have he2 : elapsed + ev.el < STRATEGY_SECONDS := by
        linarith
      have hget : (rest.get ⟨k2, hk2⟩).pos = some p := hp
      have hmem := ih (elapsed + ev.el) k2 hk2 hv.2 he2 hsum2 p hget
      rw [hloop]
      rcases ev.pos with _ | p0
      · exact hmem
      · exact List.mem_cons_of_mem p0 hmem

/-- C7: under the claim's hypotheses on the bounded waits (nonnegative
elapsed times, at most the requested remaining budget, exactly the remaining
budget on timeout), the per-turn interaction loop of `AntsGUI.strategy`
terminates with accumulated elapsed time at least `STRATEGY_SECONDS` — the
turn never ends before the budget is exhausted — and every click received
while the accumulated time was below `STRATEGY_SECONDS` is dispatched. -/
theorem C7_turn_budget (script : List WaitEv) (hv : ValidScript 0 script) :
    STRATEGY_SECONDS ≤ (strategy_loop script 0).1 ∧
    (∀ k : Nat, ∀ hk : k < script.length,
      elapsedAt script k < STRATEGY_SECONDS →
      ∀ p : Int × Int, (script.get ⟨k, hk⟩).pos = some p →
      p ∈ (strategy_loop script 0).2) := by
  have h03 : (0 : ℚ) < STRATEGY_SECONDS := by norm_num [STRATEGY_SECONDS]
  constructor
  · exact strategy_loop_final script 0 h03
  · intro k hk hsum p hp
    refine strategy_loop_dispatch script 0 k hk hv h03 ?_ p hp
    rw [zero_add]
    exact hsum

/-- Witness for C7 at a concrete wait script: one click at (50, 60) after one
second, then a timeout consuming the remaining two seconds. -/
theorem C7_turn_budget_witness :
    ValidScript 0 [⟨some (50, 60), 1⟩, ⟨none, 2⟩] ∧
    STRATEGY_SECONDS ≤ (strategy_loop [⟨some (50, 60), 1⟩, ⟨none, 2⟩] 0).1 ∧
    (50, 60) ∈ (strategy_loop [⟨some (50, 60), 1⟩, ⟨none, 2⟩] 0).2 := by
  have hv : ValidScript 0 [⟨some (50, 60), 1⟩, ⟨none, 2⟩] := by
    refine ⟨⟨by norm_num, fun _ => ⟨by norm_num [STRATEGY_SECONDS], fun h => by cases h⟩⟩,
      ⟨by norm_num, fun _ => ⟨by norm_num [STRATEGY_SECONDS], fun _ => by
        norm_num [STRATEGY_SECONDS]⟩⟩, trivial⟩
  refine ⟨hv, (C7_turn_budget _ hv).1, ?_⟩
  refine (C7_turn_budget _ hv).2 0 (by norm_num) ?_ (50, 60) rfl
  rw [elapsedAt_zero]
  norm_num [STRATEGY_SECONDS]

/-! ## Animation cleanup -/

theorem pyInt_add_one_ge (q : ℚ) : q ≤ ((pyInt q + 1 : ℤ) : ℚ) := by
  unfold pyInt
  by_cases h : 0 ≤ q
  · rw [if_pos h]
    push_cast
    have := Int.lt_floor_add_one q
    linarith
  · rw [if_neg h]
    push_cast
    have := Int.le_ceil q
    linarith

/-- C8: each started animation task (`animate_leaf` or `animate_dart`) with
duration `D` has exactly one backend clear command for its shape in the
executed trace, scheduled at `int(1000*D) + 1` milliseconds, which is at or
after `D`, no matter how many of the scheduled frames (`framesFired`)
actually ran. -/
theorem C8_animation_cleanup (shapeId : Nat) (ft : ℚ) (sp ep : ℚ × ℚ) (d : ℚ)
    (color : String) (framesFired : Nat) :
    ((execTrace framesFired (animate_leaf shapeId ft sp ep d color)).countP
        (isClearOf shapeId) = 1 ∧
      (∀ t : ℤ, ExecEvent.cleared shapeId t ∈
          execTrace framesFired (animate_leaf shapeId ft sp ep d color) →
        1000 * d ≤ (t : ℚ))) ∧
    ((execTrace framesFired (animate_dart shapeId ft sp ep d color)).countP
        (isClearOf shapeId) = 1 ∧
      (∀ t : ℤ, ExecEvent.cleared shapeId t ∈
          execTrace framesFired (animate_dart shapeId ft sp ep d color) →
        1000 * d ≤ (t : ℚ))) := by
  have htrace : ∀ cmds : List AnimCmd,
      cmds = [AnimCmd.drawPolygon shapeId "DarkGreen" color,
        AnimCmd.animateShape shapeId d
          ((ep.1 - sp.1) / (d / ft), (ep.2 - sp.2) / (d / ft)),
        AnimCmd.scheduleClear (pyInt (1000 * d) + 1) shapeId] →
      ((execTrace framesFired cmds).countP (isClearOf shapeId) = 1 ∧
        (∀ t : ℤ, ExecEvent.cleared shapeId t ∈ execTrace framesFired cmds →
          1000 * d ≤ (t : ℚ))) := by
    intro cmds hcmds
    subst hcmds
    constructor
    · simp only [execTrace, List.flatMap_cons, List.flatMap_nil, execAnim,
        List.countP_append, List.append_nil]
      rw [List.countP_cons, List.countP_cons, List.countP_nil]
      have hframes : List.countP (isClearOf shapeId)
          ((List.range framesFired).map (fun i => ExecEvent.frameRedraw shapeId i)) = 0 := by
        rw [List.countP_eq_zero]
        intro ev hev
        rcases List.mem_map.mp hev with ⟨i, _, hev2⟩
        rw [← hev2]
        simp [isClearOf]
      rw [hframes]
      simp [isClearOf]
    · intro t ht
      simp only [execTrace, List.flatMap_cons, List.flatMap_nil, execAnim,
        List.append_nil, List.mem_append, List.mem_cons, List.mem_singleton] at ht
      rcases ht with (ht | ht) | ht | ht
      · cases ht
      · simp at ht
      · rcases List.mem_map.mp ht with ⟨i, _, hev2⟩
        cases hev2
      · rcases ht with ht | ht
        · injection ht with h1 h2
          rw [h2]
          exact pyInt_add_one_ge (1000 * d)
        · simp at ht
  exact ⟨htrace _ rfl, htrace _ rfl⟩

/-! ## Click dispatch (C3) -/

/-- C3 counterexample: two overlapping registered regions and a point inside
both.  The spec says exactly the first region's callback fires (zero-or-one);
`_interpret_click` has no break, so BOTH callbacks fire, in registration
order. -/
theorem C3_counterexample :
    interpret_click [⟨(0, 0), 10, 10, 1⟩, ⟨(5, 5), 10, 10, 2⟩] (7, 7) = [1, 2] ∧
    hitTestSpec [⟨(0, 0), 10, 10, 1⟩, ⟨(5, 5), 10, 10, 2⟩] (7, 7) = some 1 ∧
    (interpret_click [⟨(0, 0), 10, 10, 1⟩, ⟨(5, 5), 10, 10, 2⟩] (7, 7)).length ≠ 1 := by
  decide

/-- C3 amended: `_interpret_click` invokes the callbacks of ALL registered
regions containing the point (inclusive bounds), in registration order — not
only the first — and a point inside no region invokes no callback and raises
no error. -/
theorem C3_all_containing_regions_fire :
    ∀ (rects : List ClickRect) (pos : Int × Int),
    interpret_click rects pos =
      (rects.filter (fun r => rectContains r pos)).map ClickRect.frame ∧
    ((∀ r ∈ rects, rectContains r pos = false) → interpret_click rects pos = []) := by
  intro rects pos
  have hmain : interpret_click rects pos =
      (rects.filter (fun r => rectContains r pos)).map ClickRect.frame := by
    induction rects with
    | nil => rfl
    | cons r rest ih =>
      by_cases h : rectContains r pos = true <;>
        simp [interpret_click, List.filter_cons, h, ih]
  refine ⟨hmain, fun hnone => ?_⟩
  rw [hmain]
  have : rects.filter (fun r => rectContains r pos) = [] := by
    rw [List.filter_eq_nil_iff]
    intro r hr
    simp [hnone r hr]
  rw [this, List.map_nil]

/-- Witness for the amended C3 at a concrete miss: a click outside the single
registered region fires nothing. -/
theorem C3_all_containing_regions_fire_witness :
    interpret_click [⟨(0, 0), 10, 10, 1⟩] (99, 99) =
      (List.filter (fun r => rectContains r (99, 99)) [⟨(0, 0), 10, 10, 1⟩]).map
        ClickRect.frame ∧
    interpret_click [⟨(0, 0), 10, 10, 1⟩] (99, 99) = [] := by
  refine ⟨(C3_all_containing_regions_fire _ _).1,
    (C3_all_containing_regions_fire [⟨(0, 0), 10, 10, 1⟩] (99, 99)).2 ?_⟩
  decide

/-! ## Duplicate registration (C9) -/

/-- C9 counterexample: drawing an insect that is ALREADY tracked in the
container is neither a fatal assertion nor a no-op: `_draw_insect` performs no
duplicate check, issues a second `draw_image`, and overwrites the tracked
handle (100 becomes 101) with no clear of the old visual. -/
theorem C9_counterexample :
    trackedB ⟨[("tunnel_0_0", [(5, 100)])], [("tunnel_0_0", (40, 180))], 101⟩
      "tunnel_0_0" 5 = true ∧
    draw_insect ⟨[("tunnel_0_0", [(5, 100)])], [("tunnel_0_0", (40, 180))], 101⟩
      5 "Bee" "tunnel_0_0" none 0 =
      (⟨[("tunnel_0_0", [(5, 101)])], [("tunnel_0_0", (40, 180))], 102⟩,
       [CanvasCmd.drawImage (50, 190) "img/bee.gif" 0 101], none) := by
  exact ⟨rfl, rfl⟩

/-- C9 amended: registering an already-tracked insect is silently accepted:
`_draw_insect` raises nothing, issues a fresh `draw_image` (a second visual),
and replaces the tracked handle with the fresh image id, leaking the old
handle (no command references it). -/
theorem C9_second_registration_overwrites (st : GuiState) (i : Nat)
    (iname p : String) (off : Option (Int × Int)) (behind : Nat)
    (f : String) (base : Int × Int) (pi : List (Nat × Nat)) (h : Nat)
    (hf : alookup INSECT_FILES iname = some f)
    (hb : alookup st.place_points p = some base)
    (hpi : alookup st.images p = some pi)
    (htr : alookup pi i = some h) :
    trackedB st p i = true ∧
    ∃ pos : Int × Int,
      draw_insect st i iname p off behind =
        ({ st with
            images := aset st.images p (aset pi i st.nextId),
            nextId := st.nextId + 1 },
         [CanvasCmd.drawImage pos f behind st.nextId], none) ∧
      alookup (aset pi i st.nextId) i = some st.nextId := by
  refine ⟨by simp [trackedB, hpi, htr], ?_⟩
  refine ⟨(match off with
    | some o => shift_point (shift_point base PLACE_PADDING) o
    | none => shift_point base PLACE_PADDING), ?_, alookup_aset_self pi i st.nextId⟩
  unfold draw_insect
  rw [hf, hb, hpi]

/-- Witness for the amended C9 at the concrete already-tracked state used
throughout: handle 100 for insect 5 is replaced by fresh id 200. -/
theorem C9_second_registration_overwrites_witness :
    trackedB ⟨[("tunnel_0_0", [(5, 100)])], [("tunnel_0_0", (40, 180))], 200⟩
      "tunnel_0_0" 5 = true ∧
    ∃ pos : Int × Int,
      draw_insect ⟨[("tunnel_0_0", [(5, 100)])], [("tunnel_0_0", (40, 180))], 200⟩
        5 "Harvester" "tunnel_0_0" none 0 =
        ({ images := aset [("tunnel_0_0", [(5, 100)])] "tunnel_0_0" (aset [(5, 100)] 5 200),
           place_points := [("tunnel_0_0", (40, 180))],
           nextId := 201 },
         [CanvasCmd.drawImage pos "img/ant_harvester.gif" 0 200], none) ∧
      alookup (aset [(5, 100)] 5 200) 5 = some 200 :=
  C9_second_registration_overwrites
    ⟨[("tunnel_0_0", [(5, 100)])], [("tunnel_0_0", (40, 180))], 200⟩
    5 "Harvester" "tunnel_0_0" none 0 "img/ant_harvester.gif" (40, 180)
    [(5, 100)] 100 rfl rfl rfl rfl

/-! ## Rejected deploy (C6) -/

/-- C6: when the model rejects a deploy (the `deploy_ant` call raises), the
click callback catches the error: the colony and the whole view state are
unchanged, zero canvas commands are issued, exactly the command echo of line
140 and one diagnostic (the `print(e)` of line 145) are printed, and no error
propagates to the interaction loop. -/
theorem C6_rejected_deploy
    (deploy : Colony → String → String → Except String Colony)
    (remove : Colony → String → Colony)
    (name t : String) (colony : Colony) (st : GuiState) (pl : Place) (emsg : String)
    (hpl : colonyPlace colony name = some pl)
    (ht : ¬ t = "Remover")
    (hdep : deploy colony name t = Except.error emsg) :
    place_on_click deploy remove name (some t) colony st =
      (colony, st, [],
       [PrintOut.commandEcho ("colony.deploy_ant(" ++ name ++ ", " ++ t ++ ")"),
        PrintOut.diagnostic emsg], none) := by
  unfold place_on_click
  rw [hpl]
  simp [ht, hdep]

/-- Witness for C6: a concrete colony and an insufficient-food rejection. -/
theorem C6_rejected_deploy_witness :
    place_on_click
      (fun _ _ _ => Except.error "Not enough food remaining to place Harvester")
      (fun c _ => c) "tunnel_0_0" (some "Harvester")
      ⟨[⟨"tunnel_0_0", none, none, []⟩], "Hive", [], 2, 0⟩
      ⟨[("tunnel_0_0", [])], [("tunnel_0_0", (40, 180))], 0⟩ =
      (⟨[⟨"tunnel_0_0", none, none, []⟩], "Hive", [], 2, 0⟩,
       ⟨[("tunnel_0_0", [])], [("tunnel_0_0", (40, 180))], 0⟩, [],
       [PrintOut.commandEcho "colony.deploy_ant(tunnel_0_0, Harvester)",
        PrintOut.diagnostic "Not enough food remaining to place Harvester"], none) := by
  have := C6_rejected_deploy
    (fun _ _ _ => Except.error "Not enough food remaining to place Harvester")
    (fun c _ => c) "tunnel_0_0" "Harvester"
    ⟨[⟨"tunnel_0_0", none, none, []⟩], "Hive", [], 2, 0⟩
    ⟨[("tunnel_0_0", [])], [("tunnel_0_0", (40, 180))], 0⟩
    ⟨"tunnel_0_0", none, none, []⟩ "Not enough food remaining to place Harvester"
    rfl (by decide) rfl
  exact this

/-! ## Source attribution for arriving bees (C5) -/

theorem findSource_fallback (places : List Place) (hiveName dest : String)
    (h : ∀ p ∈ places, p.exit ≠ some dest) :
    findSource places hiveName dest = hiveName := by
  unfold findSource
  have : places.find? (fun op => op.exit = some dest) = none := by
    rw [List.find?_eq_none]
    intro p hp
    simp [h p hp]
  rw [this]

theorem findSource_first : ∀ pre : List Place, ∀ post : List Place, ∀ p0 : Place,
    ∀ hiveName dest : String,
    p0.exit = some dest → (∀ q ∈ pre, q.exit ≠ some dest) →
    findSource (pre ++ p0 :: post) hiveName dest = p0.name := by
  intro pre
  induction pre with
  | nil =>
    intro post p0 hiveName dest h0 _
    unfold findSource
    rw [List.nil_append, List.find?_cons_of_pos]
    simp [h0]
  | cons q pre ih =>
    intro post p0 hiveName dest h0 hpre
    have hq : q.exit ≠ some dest := hpre q (List.mem_cons_self q pre)
    have : findSource ((q :: pre) ++ p0 :: post) hiveName dest =
        findSource (pre ++ p0 :: post) hiveName dest := by
      unfold findSource
      rw [List.cons_append, List.find?_cons_of_neg]
      simp [hq]
    rw [this]
    exact ih post p0 hiveName dest h0 (fun r hr => hpre r (List.mem_cons_of_mem q hr))

/-- C5: for a bee newly present in a place and not yet tracked there, the
reconciler takes the source container to be the FIRST entry of
`colony.places` whose exit is the place (first conjunct), and when no place
exits into it the hive is the source, without error (second conjunct).  The
third conjunct: when the bee's visual handle is tracked at the computed
source, the arrival pops it there, slides that same handle to the place, and
re-records it under the place — a takeover, not a redraw. -/
theorem C5_source_attribution :
    (∀ pre post : List Place, ∀ p0 : Place, ∀ hiveName dest : String,
      p0.exit = some dest → (∀ q ∈ pre, q.exit ≠ some dest) →
      findSource (pre ++ p0 :: post) hiveName dest = p0.name) ∧
    (∀ places : List Place, ∀ hiveName dest : String,
      (∀ p ∈ places, p.exit ≠ some dest) →
      findSource places hiveName dest = hiveName) ∧
    (∀ colony : Colony, ∀ place : Place, ∀ st : GuiState, ∀ b : Nat,
      ∀ spi dpi : List (Nat × Nat), ∀ img : Nat, ∀ base : Int × Int,
      alookup st.images (findSource colony.places colony.hiveName place.name) =
        some spi →
      alookup spi b = some img →
      alookup st.place_points place.name = some base →
      alookup st.images place.name = some dpi →
      (beeArrival colony place st b).2.2 = none ∧
      (beeArrival colony place st b).2.1 =
        [CanvasCmd.slideShape img (shift_point base PLACE_PADDING)
          STRATEGY_SECONDS] ∧
      alookup (imagesOf (beeArrival colony place st b).1 place.name) b =
        some img) := by
  refine ⟨findSource_first, findSource_fallback, ?_⟩
  intro colony place st b spi dpi img base hspi himg hbase hdpi
  simp only [beeArrival]
  rw [hspi]
  dsimp only
  rw [himg]
  dsimp only
  rw [hbase]
  dsimp only
  by_cases hsd : place.name = findSource colony.places colony.hiveName place.name
  · rw [← hsd, alookup_aset_self]
    simp [imagesOf, alookup_aset_self]
  · rw [alookup_aset_ne _ _ hsd, hdpi]
    simp [imagesOf, alookup_aset_self]

/-- Witness for C5 at concrete data: `tunnel_0_1` exits into `tunnel_0_0`, so
it is the source for a bee arriving at `tunnel_0_0` (first conjunct); no place
exits into `tunnel_0_1`, so its source is the hive (second conjunct); and the
takeover at the concrete state pops handle 100 from the source and re-records
it at the destination (third conjunct). -/
theorem C5_source_attribution_witness :
    findSource ([] ++ ⟨"tunnel_0_1", some "tunnel_0_0", none, []⟩ ::
        [⟨"tunnel_0_0", none, none, [7]⟩]) "Hive" "tunnel_0_0" = "tunnel_0_1" ∧
    findSource [⟨"tunnel_0_1", some "tunnel_0_0", none, []⟩,
        ⟨"tunnel_0_0", none, none, [7]⟩] "Hive" "tunnel_0_1" = "Hive" ∧
    (beeArrival
        ⟨[⟨"tunnel_0_1", some "tunnel_0_0", none, []⟩,
          ⟨"tunnel_0_0", none, none, [7]⟩], "Hive", [], 0, 0⟩
        ⟨"tunnel_0_0", none, none, [7]⟩
        ⟨[("tunnel_0_1", [(7, 100)]), ("tunnel_0_0", [])],
         [("tunnel_0_1", (40, 110)), ("tunnel_0_0", (40, 180))], 101⟩ 7).2.2 =
      none ∧
    alookup (imagesOf (beeArrival
        ⟨[⟨"tunnel_0_1", some "tunnel_0_0", none, []⟩,
          ⟨"tunnel_0_0", none, none, [7]⟩], "Hive", [], 0, 0⟩
        ⟨"tunnel_0_0", none, none, [7]⟩
        ⟨[("tunnel_0_1", [(7, 100)]), ("tunnel_0_0", [])],
         [("tunnel_0_1", (40, 110)), ("tunnel_0_0", (40, 180))], 101⟩ 7).1
      "tunnel_0_0") 7 = some 100 := by
  refine ⟨C5_source_attribution.1 [] [⟨"tunnel_0_0", none, none, [7]⟩]
      ⟨"tunnel_0_1", some "tunnel_0_0", none, []⟩ "Hive" "tunnel_0_0" rfl
      (by intro q hq; cases hq), ?_, ?_, ?_⟩
  · refine C5_source_attribution.2.1 _ "Hive" "tunnel_0_1" ?_
    intro p hp
    rcases List.mem_cons.mp hp with h | h
    · rw [h]; decide
    · rcases List.mem_cons.mp h with h2 | h2
      · rw [h2]; decide
      · cases h2
  · exact (C5_source_attribution.2.2
      ⟨[⟨"tunnel_0_1", some "tunnel_0_0", none, []⟩,
        ⟨"tunnel_0_0", none, none, [7]⟩], "Hive", [], 0, 0⟩
      ⟨"tunnel_0_0", none, none, [7]⟩
      ⟨[("tunnel_0_1", [(7, 100)]), ("tunnel_0_0", [])],
       [("tunnel_0_1", (40, 110)), ("tunnel_0_0", (40, 180))], 101⟩ 7
      [(7, 100)] [] 100 (40, 180) (by decide) (by decide) (by decide)
      (by decide)).1
  · exact (C5_source_attribution.2.2
      ⟨[⟨"tunnel_0_1", some "tunnel_0_0", none, []⟩,
        ⟨"tunnel_0_0", none, none, [7]⟩], "Hive", [], 0, 0⟩
      ⟨"tunnel_0_0", none, none, [7]⟩
      ⟨[("tunnel_0_1", [(7, 100)]), ("tunnel_0_0", [])],
       [("tunnel_0_1", (40, 110)), ("tunnel_0_0", (40, 180))], 101⟩ 7
      [(7, 100)] [] 100 (40, 180) (by decide) (by decide) (by decide)
      (by decide)).2.2

/-! ## Decidable sufficient conditions for the invariants, and concrete
session states for instantiating the reachability theorems -/

theorem trackedB_mem_top {st : GuiState} {m : String} {i : Nat}
    (h : trackedB st m i = true) : m ∈ akeys st.images := by
  rcases trackedB_elim h with ⟨pi, hl, _⟩
  rw [mem_akeys_iff, hl]
  simp

theorem noDupTracked_of_pairwise (st : GuiState)
    (h : st.images.Pairwise (fun e1 e2 => ∀ i ∈ akeys e1.2, i ∉ akeys e2.2)) :
    noDupTracked st := by
  intro m1 m2 i h1 h2
  by_contra hne
  rcases trackedB_elim h1 with ⟨p1, hl1, hs1⟩
  rcases trackedB_elim h2 with ⟨p2, hl2, hs2⟩
  have hm1 : (m1, p1) ∈ st.images := alookup_mem_of_some _ _ _ hl1
  have hm2 : (m2, p2) ∈ st.images := alookup_mem_of_some _ _ _ hl2
  have hi1 : i ∈ akeys p1 := by
    rw [mem_akeys_iff]
    intro hc
    rw [hc] at hs1
    simp at hs1
  have hi2 : i ∈ akeys p2 := by
    rw [mem_akeys_iff]
    intro hc
    rw [hc] at hs2
    simp at hs2
  have hsym : Symmetric (fun e1 e2 : String × List (Nat × Nat) =>
      ∀ i ∈ akeys e1.2, i ∉ akeys e2.2) := by
    intro a b hab j hjb hja
    exact hab j hja hjb
  have hne2 : (m1, p1) ≠ (m2, p2) := fun hc => hne (congrArg Prod.fst hc)
  exact List.Pairwise.forall hsym h hm1 hm2 hne2 i hi1 hi2

theorem antOwn_of_mem (c : Colony) (st : GuiState)
    (h : ∀ p ∈ c.places, p.name ≠ "Hive" → ∀ i ∈ antIdsOpt p.ant,
      ∀ m ∈ akeys st.images, trackedB st m i = true → m = p.name) :
    AntOwn c st :=
  fun p hp hph i hi m hm => h p hp hph i hi m (trackedB_mem_top hm) hm

theorem antSlot_tracked_of_mem (c2 : Colony) (st : GuiState)
    (h : ∀ p ∈ c2.places, ∀ i ∈ antIdsOpt p.ant,
      ∀ m ∈ akeys st.images, trackedB st m i = true → m = p.name) :
    ∀ p ∈ c2.places, ∀ i ∈ antIdsOpt p.ant, ∀ m, trackedB st m i = true →
      m = p.name :=
  fun p hp i hi m hm => h p hp i hi m (trackedB_mem_top hm) hm

/-- A freshly initialized session: one tunnel, one hive bee drawn in the
hive. -/
def exColony0 : Colony := ⟨[⟨"tunnel_0_0", none, none, []⟩], "Hive", [9], 0, 0⟩

def exState0 : GuiState :=
  ⟨[("tunnel_0_0", []), ("Hive", [(9, 1)])],
   [("tunnel_0_0", (40, 180)), ("Hive", (600, 200))], 3⟩

theorem exInit0 : InitState exColony0 exState0 :=
  ⟨⟨by decide, by decide, rfl, by decide, by decide, by decide, by decide,
    by decide, by decide, by decide, by decide⟩,
   by decide, by decide, by decide, by decide,
   noDupTracked_of_pairwise _ (by decide)⟩

/-- C2: every entity key is tracked in at most one container mapping, at
every reachable session point (first conjunct: after initialization and after
every reconciler pass, click callback and model advance), and the invariant
is also preserved across each individual mid-pass move (`beeArrival`, second
conjunct) and retirement (`retireOne`, third conjunct). -/
theorem C2_one_representation :
    (∀ s : Colony × GuiState, Reach s → noDupTracked s.2) ∧
    (∀ colony : Colony, ∀ place : Place, ∀ st : GuiState, ∀ b : Nat,
      (∀ e ∈ st.images, (akeys e.2).Nodup) → noDupTracked st →
      noDupTracked (beeArrival colony place st b).1) ∧
    (∀ st : GuiState, ∀ place : Place, ∀ insect : Nat,
      noDupTracked st → noDupTracked (retireOne st place insect).1) :=
  ⟨fun s h => (reach_good h).2.2.1,
   fun colony place st b inner hnd => beeArrival_noDup colony place st b inner hnd,
   fun st place insect hnd => retireOne_noDup st place insect hnd⟩

/-- Witness for C2 at the concrete initial session state, a concrete bee
move, and a concrete retirement. -/
theorem C2_one_representation_witness :
    noDupTracked exState0 ∧
    noDupTracked (beeArrival exColony0 ⟨"tunnel_0_0", none, none, [9]⟩
      exState0 9).1 ∧
    noDupTracked (retireOne exState0 ⟨"Hive", none, none, []⟩ 9).1 :=
  ⟨C2_one_representation.1 (exColony0, exState0) (Reach.init _ _ exInit0),
   C2_one_representation.2.1 exColony0 ⟨"tunnel_0_0", none, none, [9]⟩
     exState0 9 (by decide) (noDupTracked_of_pairwise _ (by decide)),
   C2_one_representation.2.2 exState0 ⟨"Hive", none, none, []⟩ 9
     (noDupTracked_of_pairwise _ (by decide))⟩

/-- C4: the reconciler is idempotent.  If a full `_update_places` pass from a
well-formed state succeeds, producing tracker state `st1`, then a second pass
on the same unchanged snapshot issues ZERO canvas commands (no draw, slide,
or retire) and leaves the tracker state exactly `st1`. -/
theorem C4_reconciler_idempotent (c : Colony) (st st1 : GuiState)
    (cmds : List CanvasCmd)
    (hwf : ColonyWF c) (hst : StateWF c st) (hnd : noDupTracked st)
    (hown : AntOwn c st)
    (hpass : updatePlaces c st = (st1, cmds, none)) :
    updatePlaces c st1 = (st1, [], none) := by
  have hok : (updatePlacesAux c c.places st []).2.2 = none := by
    show (updatePlaces c st).2.2 = none
    rw [hpass]
  have hst1 : (updatePlacesAux c c.places st []).1 = st1 := by
    show (updatePlaces c st).1 = st1
    rw [hpass]
  show updatePlacesAux c c.places st1 [] = (st1, [], none)
  refine updatePlacesAux_noop c c.places st1 [] ?_
  intro p hp hph
  refine ⟨?_, ?_⟩
  · rw [← hst1]
    exact updatePlacesAux_keytracked c c.places st [] p.name
      (hst.placesTracked p hp)
  · rw [← hst1]
    exact updatePlacesAux_converge c hwf c.places (fun q hq => hq)
      hwf.namesNodup.of_map st [] ⟨hst.innerNodup, hnd, hown⟩ hok p hp hph

/-- Witness for C4: a first pass that moves bee 7 out of the hive (one slide
command), then a second pass that does exactly nothing. -/
theorem C4_reconciler_idempotent_witness :
    updatePlaces ⟨[⟨"tunnel_0_0", none, none, [7]⟩], "Hive", [], 0, 0⟩
        ⟨[("tunnel_0_0", []), ("Hive", [(7, 2)])],
         [("tunnel_0_0", (40, 180)), ("Hive", (600, 200))], 3⟩ =
      (⟨[("tunnel_0_0", [(7, 2)]), ("Hive", [])],
        [("tunnel_0_0", (40, 180)), ("Hive", (600, 200))], 3⟩,
       [CanvasCmd.slideShape 2 (50, 190) STRATEGY_SECONDS], none) ∧
    updatePlaces ⟨[⟨"tunnel_0_0", none, none, [7]⟩], "Hive", [], 0, 0⟩
        ⟨[("tunnel_0_0", [(7, 2)]), ("Hive", [])],
         [("tunnel_0_0", (40, 180)), ("Hive", (600, 200))], 3⟩ =
      (⟨[("tunnel_0_0", [(7, 2)]), ("Hive", [])],
        [("tunnel_0_0", (40, 180)), ("Hive", (600, 200))], 3⟩, [], none) := by
  have hpass : updatePlaces ⟨[⟨"tunnel_0_0", none, none, [7]⟩], "Hive", [], 0, 0⟩
      ⟨[("tunnel_0_0", []), ("Hive", [(7, 2)])],
       [("tunnel_0_0", (40, 180)), ("Hive", (600, 200))], 3⟩ =
      (⟨[("tunnel_0_0", [(7, 2)]), ("Hive", [])],
        [("tunnel_0_0", (40, 180)), ("Hive", (600, 200))], 3⟩,
       [CanvasCmd.slideShape 2 (50, 190) STRATEGY_SECONDS], none) := by decide
  refine ⟨hpass, C4_reconciler_idempotent _ _ _ _
    ⟨by decide, by decide, rfl, by decide, by decide, by decide, by decide,
      by decide, by decide, by decide, by decide⟩
    ⟨by decide, by decide, by decide⟩
    (noDupTracked_of_pairwise _ (by decide))
    (antOwn_of_mem _ _ (by decide)) hpass⟩

/-- C10: on every reachable tracker state, a reconciler pass never raises the
line-230 KeyError of the passenger-rendering branch: the behind-target lookup
of the carrier's image cannot fail (first conjunct: passes from reachable
states; second conjunct: the refresh a click callback runs right after its
own deploy/remove mutation). -/
theorem C10_passenger_lookup_safe :
    (∀ c : Colony, ∀ st : GuiState, Reach (c, st) →
      ∀ pl : String, ∀ aid : Nat,
      (updatePlaces c st).2.2 ≠ some (GuiErr.passengerContainerKey pl aid)) ∧
    (∀ c : Colony, ∀ st : GuiState, ∀ c2 : Colony, Reach (c, st) →
      AntSlotChange c st c2 → ∀ pl : String, ∀ aid : Nat,
      (updatePlaces c2 st).2.2 ≠ some (GuiErr.passengerContainerKey pl aid)) :=
  ⟨fun c st h pl aid => goodState_no_passenger (reach_good h) pl aid,
   fun c st c2 h hch pl aid =>
     goodState_no_passenger (goodState_click (reach_good h) hch) pl aid⟩

/-- The colony after a first click installs Thrower 11 in the tunnel. -/
def exColony1 : Colony :=
  ⟨[⟨"tunnel_0_0", none, some ⟨11, "Thrower", false, none⟩, []⟩], "Hive", [9], 0, 0⟩

/-- The tracker state after the click's own refresh drew Thrower 11. -/
def exState1 : GuiState :=
  ⟨[("tunnel_0_0", [(11, 3)]), ("Hive", [(9, 1)])],
   [("tunnel_0_0", (40, 180)), ("Hive", (600, 200))], 4⟩

/-- The colony after a second click wraps the thrower in Bodyguard 10. -/
def exColony2 : Colony :=
  ⟨[⟨"tunnel_0_0", none, some ⟨10, "Bodyguard", true, some (11, "Thrower")⟩, []⟩],
   "Hive", [9], 0, 0⟩

/-- Witness for C10: the initial state's pass (first conjunct), and the pass a
second click triggers right after nesting tracked Thrower 11 into freshly
placed carrier Bodyguard 10 (second conjunct) — the passenger branch runs and
does not raise. -/
theorem C10_passenger_lookup_safe_witness :
    (updatePlaces exColony0 exState0).2.2 ≠
      some (GuiErr.passengerContainerKey "tunnel_0_0" 10) ∧
    (updatePlaces exColony2 exState1).2.2 ≠
      some (GuiErr.passengerContainerKey "tunnel_0_0" 10) := by
  have hreach1 : Reach (exColony1, exState1) := by
    refine Reach.clickStep exColony0 exState0 exColony1 exState1
      [CanvasCmd.drawImage (50, 190) "img/ant_thrower.gif" 0 3]
      (Reach.init _ _ exInit0)
      ⟨⟨rfl, rfl⟩,
       ⟨by decide, by decide, rfl, by decide, by decide, by decide, by decide,
        by decide, by decide, by decide, by decide⟩,
       antSlot_tracked_of_mem _ _ (by decide), by decide⟩
      (by decide)
  have hch2 : AntSlotChange exColony1 exState1 exColony2 :=
    ⟨⟨rfl, rfl⟩,
     ⟨by decide, by decide, rfl, by decide, by decide, by decide, by decide,
      by decide, by decide, by decide, by decide⟩,
     antSlot_tracked_of_mem _ _ (by decide), by decide⟩
  exact ⟨C10_passenger_lookup_safe.1 exColony0 exState0
      (Reach.init _ _ exInit0) "tunnel_0_0" 10,
    C10_passenger_lookup_safe.2 exColony1 exState1 exColony2 hreach1 hch2
      "tunnel_0_0" 10⟩

/-! ## Arrival before retirement (C1): supporting lemmas -/

/-- `b` has exactly one visual representation, tracked at container `n`. -/
def ExactlyAt (st : GuiState) (n : String) (b : Nat) : Prop :=
  trackedB st n b = true ∧ ∀ m, m ≠ n → trackedB st m b = false

theorem beeArrival_err_nowhere (colony : Colony) (place : Place) (st : GuiState)
    (b : Nat) (hnw : ∀ m, trackedB st m b = false) :
    (beeArrival colony place st b).2.2 ≠ none := by
  intro hok
  have h1 := beeArrival_src_tracked colony place st b hok
  have h2 := hnw (findSource colony.places colony.hiveName place.name)
  rw [h1] at h2
  cases h2

theorem processBees_err_nowhere (colony : Colony) (place : Place) (b : Nat) :
    ∀ bees : List Nat, ∀ st : GuiState, b ∈ bees →
    (∀ m, trackedB st m b = false) →
    (processBees colony place bees st).2.2 ≠ none := by
  intro bees
  induction bees with
  | nil => intro st hb; simp at hb
  | cons b0 rest ih =>
    intro st hb hnw
    rw [processBees_cons]
    by_cases htr : trackedB st place.name b0 = true
    · rw [if_pos htr]
      have hb0 : b0 ≠ b := by
        intro hh
        rw [hh, hnw place.name] at htr
        cases htr
      refine ih st ?_ hnw
      rcases List.mem_cons.mp hb with h | h
      · exact absurd h.symm hb0
      · exact h
    · rw [if_neg htr]
      by_cases herr : (beeArrival colony place st b0).2.2 = none
      · rw [(andThen_ok herr).2.2]
        by_cases hbb : b0 = b
        · subst hbb
          exact absurd herr (beeArrival_err_nowhere colony place st b0 hnw)
        · refine ih _ ?_ ?_
          · rcases List.mem_cons.mp hb with h | h
            · exact absurd h.symm hbb
            · exact h
          · intro m
            rw [beeArrival_other colony place st b0 (fun hh => hbb hh.symm) m]
            exact hnw m
      · rw [andThen_err herr]
        exact herr

theorem processPlace_err_nowhere (colony : Colony) (st : GuiState) (place : Place)
    (b : Nat) (hb : b ∈ place.bees) (hanb : b ∉ antIdsOpt place.ant)
    (hph : place.name ≠ "Hive")
    (hnw : ∀ m, trackedB st m b = false) :
    (processPlace colony st place).2.2 ≠ none := by
  intro hok
  obtain ⟨pi0, hkey, hparts⟩ := processPlace_ok_parts colony st place hph hok
  rcases hant : place.ant with _ | a
  · obtain ⟨_, hok2, _, _⟩ := hparts (st, [], none) (by rw [hant])
    exact processBees_err_nowhere colony place b place.bees st hb hnw hok2
  · obtain ⟨_, hok2, _, _⟩ := hparts (processAnt st place.name a) (by rw [hant])
    refine processBees_err_nowhere colony place b place.bees _ hb ?_ hok2
    intro m
    rw [processAnt_untouched st place.name a (Or.inr (hant ▸ hanb))]
    exact hnw m

theorem updatePlacesAux_err_nowhere (c : Colony) (hwf : ColonyWF c) (B : Place)
    (b : Nat) (hB : B ∈ c.places) (hbB : b ∈ B.bees) (hBh : B.name ≠ "Hive") :
    ∀ l : List Place, (∀ p ∈ l, p ∈ c.places) → B ∈ l →
    ∀ st : GuiState, ∀ acc : List CanvasCmd,
    (∀ e ∈ st.images, (akeys e.2).Nodup) →
    (∀ m, trackedB st m b = false) →
    (updatePlacesAux c l st acc).2.2 ≠ none := by
  intro l
  induction l with
  | nil => intro _ hBl; simp at hBl
  | cons p rest ih =>
    intro hsub hBl st acc inner hnw
    have hpc : p ∈ c.places := hsub p (List.mem_cons_self p rest)
    by_cases hok1 : (processPlace c st p).2.2 = none
    · rw [updatePlacesAux_cons_ok c p rest st acc hok1]
      by_cases hpB : p = B
      · subst hpB
        have hanb : b ∉ antIdsOpt p.ant :=
          fun hin => hwf.antNotBee p hpc p hpc b hin hbB
        exact absurd hok1 (processPlace_err_nowhere c st p b hbB hanb hBh hnw)
      · have hBr : B ∈ rest := by
          rcases List.mem_cons.mp hBl with h | h
          · exact absurd h.symm hpB
          · exact h
        refine ih (fun q hq => hsub q (List.mem_cons_of_mem p hq)) hBr _ _
          (processPlace_inner c st p inner) ?_
        intro m
        cases hv : trackedB (processPlace c st p).1 m b
        · rfl
        · exfalso
          rcases processPlace_tracked c st p inner hv with h2 | ⟨_, hins⟩
          · rw [hnw m] at h2
            cases h2
          · rcases List.mem_append.mp (by simpa [insertIds] using hins) with h3 | h3
            · exact hwf.beesDisj B hB p hpc (fun hh => hpB hh.symm) b hbB h3
            · exact hwf.antNotBee p hpc B hB b h3 hbB
    · rw [updatePlacesAux_cons_err c p rest st acc hok1]
      exact hok1

theorem processBees_keeps_exactly (colony : Colony) (place : Place)
    (bees : List Nat) (st : GuiState) (b : Nat)
    (inner : ∀ e ∈ st.images, (akeys e.2).Nodup)
    (hex : ExactlyAt st place.name b) :
    ExactlyAt (processBees colony place bees st).1 place.name b := by
  refine ⟨processBees_keeps colony place bees st b hex.1, ?_⟩
  intro m hm
  cases hv : trackedB (processBees colony place bees st).1 m b
  · rfl
  · exfalso
    rcases processBees_tracked colony place bees st inner m b hv with h2 | ⟨hm2, _⟩
    · rw [hex.2 m hm] at h2
      cases h2
    · exact hm hm2

theorem processBees_exactly (colony : Colony) (place : Place) (b : Nat) :
    ∀ bees : List Nat, ∀ st : GuiState, b ∈ bees →
    (∀ e ∈ st.images, (akeys e.2).Nodup) → noDupTracked st →
    (processBees colony place bees st).2.2 = none →
    ExactlyAt (processBees colony place bees st).1 place.name b := by
  intro bees
  induction bees with
  | nil => intro st hb; simp at hb
  | cons b0 rest ih =>
    intro st hb inner hnd hok
    by_cases htr : trackedB st place.name b0 = true
    · rw [processBees_cons, if_pos htr] at hok ⊢
      by_cases hbb : b0 = b
      · subst hbb
        refine processBees_keeps_exactly colony place rest st b0 inner ⟨htr, ?_⟩
        intro m hm
        cases hv : trackedB st m b0
        · rfl
        · exact absurd (hnd m place.name b0 hv htr) hm
      · refine ih st ?_ inner hnd hok
        rcases List.mem_cons.mp hb with h | h
        · exact absurd h.symm hbb
        · exact h
    · obtain ⟨hok1, hok2⟩ := processBees_ok_head colony place b0 rest st htr hok
      rw [processBees_cons, if_neg htr, (andThen_ok hok1).1]
      have inner1 := beeArrival_inner colony place st b0 inner
      have hnd1 := beeArrival_noDup colony place st b0 inner hnd
      by_cases hbb : b0 = b
      · subst hbb
        refine processBees_keeps_exactly colony place rest _ b0 inner1
          ⟨beeArrival_ok_tracked colony place st b0 hok1, ?_⟩
        intro m hm
        exact beeArrival_ok_gone colony place st b0 inner hnd hok1 hm
      · refine ih _ ?_ inner1 hnd1 hok2
        rcases List.mem_cons.mp hb with h | h
        · exact absurd h.symm hbb
        · exact h

theorem processPlace_exactly (colony : Colony) (st : GuiState) (place : Place)
    (b : Nat) (hb : b ∈ place.bees) (hanb : b ∉ antIdsOpt place.ant)
    (hph : place.name ≠ "Hive")
    (inner : ∀ e ∈ st.images, (akeys e.2).Nodup) (hnd : noDupTracked st)
    (huniq : ∀ i ∈ antIdsOpt place.ant, ∀ m, trackedB st m i = true → m = place.name)
    (hok : (processPlace colony st place).2.2 = none) :
    ExactlyAt (processPlace colony st place).1 place.name b := by
  obtain ⟨pi0, hkey, hparts⟩ := processPlace_ok_parts colony st place hph hok
  have hbval : b ∈ validIds place := by
    simp [validIds]
    exact Or.inl hb
  rcases hant : place.ant with _ | a
  · obtain ⟨_, hok2, _, hst⟩ := hparts (st, [], none) (by rw [hant])
    have hex2 : ExactlyAt (processBees colony place place.bees st).1 place.name b :=
      processBees_exactly colony place b place.bees st hb inner hnd hok2
    have hbE : b ∉ (akeys (imagesOf (processBees colony place place.bees st).1
        place.name)).filter (fun i => decide (i ∉ validIds place)) := by
      intro hmem
      have h2 := (List.mem_filter.mp hmem).2
      simp at h2
      exact h2 hbval
    refine ⟨?_, ?_⟩
    · rw [hst, retireList_notmem place _ _ b hbE place.name]
      exact hex2.1
    · intro m hm
      rw [hst]
      cases hv : trackedB (retireList place _
          (processBees colony place place.bees st).1).1 m b
      · rfl
      · exfalso
        have h3 := retireList_decreasing place _ _ m b hv
        rw [hex2.2 m hm] at h3
        cases h3
  · obtain ⟨hok1, hok2, _, hst⟩ := hparts (processAnt st place.name a) (by rw [hant])
    have inner1 := processAnt_inner place.name a inner
    have hnd1 := processAnt_noDup place.name a hnd (hant ▸ huniq)
    have hex2 : ExactlyAt (processBees colony place place.bees
        (processAnt st place.name a).1).1 place.name b :=
      processBees_exactly colony place b place.bees _ hb inner1 hnd1 hok2
    have hbE : b ∉ (akeys (imagesOf (processBees colony place place.bees
        (processAnt st place.name a).1).1 place.name)).filter
        (fun i => decide (i ∉ validIds place)) := by
      intro hmem
      have h2 := (List.mem_filter.mp hmem).2
      simp at h2
      exact h2 hbval
    refine ⟨?_, ?_⟩
    · rw [hst, retireList_notmem place _ _ b hbE place.name]
      exact hex2.1
    · intro m hm
      rw [hst]
      cases hv : trackedB (retireList place _
          (processBees colony place place.bees (processAnt st place.name a).1).1).1 m b
      · rfl
      · exfalso
        have h3 := retireList_decreasing place _ _ m b hv
        rw [hex2.2 m hm] at h3
        cases h3

theorem updatePlacesAux_bee_move (c : Colony) (hwf : ColonyWF c) (B : Place)
    (b : Nat) (hB : B ∈ c.places) (hbB : b ∈ B.bees) (hBh : B.name ≠ "Hive") :
    ∀ l : List Place, (∀ p ∈ l, p ∈ c.places) → l.Nodup →
    ∀ st : GuiState, ∀ acc : List CanvasCmd, MidInv c st →
    (updatePlacesAux c l st acc).2.2 = none →
    ((B ∈ l ∧ ∃ n, ExactlyAt st n b) ∨ (B ∉ l ∧ ExactlyAt st B.name b)) →
    ExactlyAt (updatePlacesAux c l st acc).1 B.name b := by
  intro l
  induction l with
  | nil =>
    intro _ _ st acc _ _ hdisj
    rcases hdisj with ⟨hBl, _⟩ | ⟨_, hex⟩
    · simp at hBl
    · exact hex
  | cons p rest ih =>
    intro hsub hnodup st acc hinv hok hdisj
    have hpc : p ∈ c.places := hsub p (List.mem_cons_self p rest)
    have hsubr : ∀ q ∈ rest, q ∈ c.places :=
      fun q hq => hsub q (List.mem_cons_of_mem p hq)
    by_cases hph : p.name = "Hive"
    · have hpB : p ≠ B := fun hh => hBh (by rw [← hh]; exact hph)
      rw [updatePlacesAux_cons, processPlace_hive c st p hph] at hok ⊢
      dsimp only at hok ⊢
      rw [List.append_nil] at hok ⊢
      refine ih hsubr hnodup.of_cons st acc hinv hok ?_
      rcases hdisj with ⟨hBl, hex⟩ | ⟨hBl, hex⟩
      · refine Or.inl ⟨?_, hex⟩
        rcases List.mem_cons.mp hBl with h | h
        · exact absurd h.symm hpB
        · exact h
      · exact Or.inr ⟨fun hh => hBl (List.mem_cons_of_mem p hh), hex⟩
    · by_cases hok1 : (processPlace c st p).2.2 = none
      · rw [updatePlacesAux_cons_ok c p rest st acc hok1] at hok ⊢
        have hinv1 := processPlace_MidInv c st p hwf hpc hinv
        rcases hdisj with ⟨hBl, n, hex⟩ | ⟨hBl, hex⟩
        · rcases List.mem_cons.mp hBl with hBp | hBr
          · subst hBp
            have hanb : b ∉ antIdsOpt B.ant :=
              fun hin => hwf.antNotBee B hpc B hpc b hin hbB
            have huniq : ∀ i ∈ antIdsOpt B.ant, ∀ m, trackedB st m i = true →
                m = B.name := fun i hi m hm => hinv.2.2 B hpc hph i hi m hm
            have hexP := processPlace_exactly c st B b hbB hanb hph hinv.1
              hinv.2.1 huniq hok1
            exact ih hsubr hnodup.of_cons _ _ hinv1 hok
              (Or.inr ⟨(List.nodup_cons.mp hnodup).1, hexP⟩)
          · have hpB : p ≠ B := fun hh => (List.nodup_cons.mp hnodup).1 (hh ▸ hBr)
            have hbnotp : b ∉ p.bees :=
              hwf.beesDisj B hB p hpc (fun hh => hpB hh.symm) b hbB
            have hbnota : b ∉ antIdsOpt p.ant :=
              fun hin => hwf.antNotBee p hpc B hB b hin hbB
            by_cases hnp : n = p.name
            · exfalso
              subst hnp
              have huniq : ∀ i ∈ antIdsOpt p.ant, ∀ m, trackedB st m i = true →
                  m = p.name := fun i hi m hm => hinv.2.2 p hpc hph i hi m hm
              have hexitne : ∀ ex, p.exit = some ex → ex ≠ p.name :=
                fun ex hx hc => hwf.exitNeSelf p hpc (by rw [hx, hc])
              have hnw1 : ∀ m, trackedB (processPlace c st p).1 m b = false := by
                intro m
                by_cases hmp : m = p.name
                · rw [hmp]
                  cases hv : trackedB (processPlace c st p).1 p.name b
                  · rfl
                  · exfalso
                    have hval := processPlace_complete c st p hph hinv.1 hinv.2.1
                      huniq hexitne hok1 b hv
                    rcases validIds_subset hval with h3 | h3
                    · exact hbnotp h3
                    · exact hbnota h3
                · cases hv : trackedB (processPlace c st p).1 m b
                  · rfl
                  · exfalso
                    rcases processPlace_tracked c st p hinv.1 hv with h2 | ⟨hm2, _⟩
                    · rw [hex.2 m hmp] at h2
                      cases h2
                    · exact hmp hm2
              exact updatePlacesAux_err_nowhere c hwf B b hB hbB hBh rest hsubr
                hBr _ _ (processPlace_inner c st p hinv.1) hnw1 hok
            · have hex1 : ExactlyAt (processPlace c st p).1 n b := by
                refine ⟨?_, ?_⟩
                · rw [processPlace_other c st p hnp hbnotp hbnota]
                  exact hex.1
                · intro m hm
                  by_cases hmp : m = p.name
                  · cases hv : trackedB (processPlace c st p).1 m b
                    · rfl
                    · exfalso
                      rcases processPlace_tracked c st p hinv.1 hv with h2 | ⟨_, hins⟩
                      · rw [hex.2 m hm] at h2
                        cases h2
                      · rcases List.mem_append.mp
                          (by simpa [insertIds] using hins) with h3 | h3
                        · exact hbnotp h3
                        · exact hbnota h3
                  · rw [processPlace_other c st p hmp hbnotp hbnota]
                    exact hex.2 m hm
              exact ih hsubr hnodup.of_cons _ _ hinv1 hok (Or.inl ⟨hBr, n, hex1⟩)
        · have hpB : p ≠ B := fun hh => hBl (hh ▸ List.mem_cons_self p rest)
          have hBnp : B.name ≠ p.name :=
            fun hh => hpB (place_name_inj hwf hB hpc hh).symm
          have hbnotp : b ∉ p.bees :=
            hwf.beesDisj B hB p hpc (fun hh => hpB hh.symm) b hbB
          have hbnota : b ∉ antIdsOpt p.ant :=
            fun hin => hwf.antNotBee p hpc B hB b hin hbB
          have hex1 : ExactlyAt (processPlace c st p).1 B.name b := by
            refine ⟨?_, ?_⟩
            · rw [processPlace_other c st p hBnp hbnotp hbnota]
              exact hex.1
            · intro m hm
              by_cases hmp : m = p.name
              · cases hv : trackedB (processPlace c st p).1 m b
                · rfl
                · exfalso
                  rcases processPlace_tracked c st p hinv.1 hv with h2 | ⟨_, hins⟩
                  · rw [hex.2 m hm] at h2
                    cases h2
                  · rcases List.mem_append.mp
                      (by simpa [insertIds] using hins) with h3 | h3
                    · exact hbnotp h3
                    · exact hbnota h3
              · rw [processPlace_other c st p hmp hbnotp hbnota]
                exact hex.2 m hm
          exact ih hsubr hnodup.of_cons _ _ hinv1 hok
            (Or.inr ⟨fun hh => hBl (List.mem_cons_of_mem p hh), hex1⟩)
      · rw [updatePlacesAux_cons_err c p rest st acc hok1] at hok
        exact absurd hok hok1

/-- C1: given a bee `b` that moved from container `A` to the adjacent
container `B` (`A`'s exit) in the model step before this refresh — so `b` is
in `B`'s snapshot but its visual is still tracked at `A` — a successful
`_update_places` pass leaves `b` tracked exactly in `B`'s mapping: tracked in
`B`, in neither `A` nor anywhere else (not both, not neither).  The arrival
into `B` takes over the visual before retirement in `A` is finalized, so the
visual slides rather than being retired. -/
theorem C1_arrival_before_retirement (c : Colony) (st st1 : GuiState)
    (cmds : List CanvasCmd) (A B : Place) (b : Nat)
    (hwf : ColonyWF c) (hst : StateWF c st) (hnd : noDupTracked st)
    (hown : AntOwn c st)
    (hA : A ∈ c.places) (hB : B ∈ c.places)
    (hAB : A.exit = some B.name) (hbB : b ∈ B.bees) (hBh : B.name ≠ "Hive")
    (htrA : trackedB st A.name b = true)
    (hpass : updatePlaces c st = (st1, cmds, none)) :
    trackedB st1 B.name b = true ∧ ∀ m, m ≠ B.name → trackedB st1 m b = false := by
  have hexA : ExactlyAt st A.name b := by
    refine ⟨htrA, ?_⟩
    intro m hm
    cases hv : trackedB st m b
    · rfl
    · exact absurd (hnd m A.name b hv htrA) hm
  have hok : (updatePlacesAux c c.places st []).2.2 = none := by
    show (updatePlaces c st).2.2 = none
    rw [hpass]
  have hst1 : (updatePlacesAux c c.places st []).1 = st1 := by
    show (updatePlaces c st).1 = st1
    rw [hpass]
  have hmove := updatePlacesAux_bee_move c hwf B b hB hbB hBh c.places
    (fun q hq => hq) hwf.namesNodup.of_map st [] ⟨hst.innerNodup, hnd, hown⟩
    hok (Or.inl ⟨hB, A.name, hexA⟩)
  rw [hst1] at hmove
  exact ⟨hmove.1, hmove.2⟩

/-- Witness for C1: bee 7 moved from `tunnel_0_1` into its exit
`tunnel_0_0`; the pass slides its visual (handle 2) and afterwards the bee is
tracked exactly at `tunnel_0_0`. -/
theorem C1_arrival_before_retirement_witness :
    updatePlaces
        ⟨[⟨"tunnel_0_0", none, none, [7]⟩,
          ⟨"tunnel_0_1", some "tunnel_0_0", none, []⟩], "Hive", [], 0, 0⟩
        ⟨[("tunnel_0_0", []), ("tunnel_0_1", [(7, 2)]), ("Hive", [])],
         [("tunnel_0_0", (40, 180)), ("tunnel_0_1", (40, 110)),
          ("Hive", (600, 200))], 3⟩ =
      (⟨[("tunnel_0_0", [(7, 2)]), ("tunnel_0_1", []), ("Hive", [])],
        [("tunnel_0_0", (40, 180)), ("tunnel_0_1", (40, 110)),
         ("Hive", (600, 200))], 3⟩,
       [CanvasCmd.slideShape 2 (50, 190) STRATEGY_SECONDS], none) ∧
    (trackedB ⟨[("tunnel_0_0", [(7, 2)]), ("tunnel_0_1", []), ("Hive", [])],
        [("tunnel_0_0", (40, 180)), ("tunnel_0_1", (40, 110)),
         ("Hive", (600, 200))], 3⟩ "tunnel_0_0" 7 = true ∧
      ∀ m, m ≠ "tunnel_0_0" →
        trackedB ⟨[("tunnel_0_0", [(7, 2)]), ("tunnel_0_1", []), ("Hive", [])],
          [("tunnel_0_0", (40, 180)), ("tunnel_0_1", (40, 110)),
           ("Hive", (600, 200))], 3⟩ m 7 = false) := by
  have hpass : updatePlaces
      ⟨[⟨"tunnel_0_0", none, none, [7]⟩,
        ⟨"tunnel_0_1", some "tunnel_0_0", none, []⟩], "Hive", [], 0, 0⟩
      ⟨[("tunnel_0_0", []), ("tunnel_0_1", [(7, 2)]), ("Hive", [])],
       [("tunnel_0_0", (40, 180)), ("tunnel_0_1", (40, 110)),
        ("Hive", (600, 200))], 3⟩ =
      (⟨[("tunnel_0_0", [(7, 2)]), ("tunnel_0_1", []), ("Hive", [])],
        [("tunnel_0_0", (40, 180)), ("tunnel_0_1", (40, 110)),
         ("Hive", (600, 200))], 3⟩,
       [CanvasCmd.slideShape 2 (50, 190) STRATEGY_SECONDS], none) := by decide
  refine ⟨hpass, C1_arrival_before_retirement
    ⟨[⟨"tunnel_0_0", none, none, [7]⟩,
      ⟨"tunnel_0_1", some "tunnel_0_0", none, []⟩], "Hive", [], 0, 0⟩
    ⟨[("tunnel_0_0", []), ("tunnel_0_1", [(7, 2)]), ("Hive", [])],
     [("tunnel_0_0", (40, 180)), ("tunnel_0_1", (40, 110)),
      ("Hive", (600, 200))], 3⟩
    ⟨[("tunnel_0_0", [(7, 2)]), ("tunnel_0_1", []), ("Hive", [])],
     [("tunnel_0_0", (40, 180)), ("tunnel_0_1", (40, 110)),
      ("Hive", (600, 200))], 3⟩
    [CanvasCmd.slideShape 2 (50, 190) STRATEGY_SECONDS]
    ⟨"tunnel_0_1", some "tunnel_0_0", none, []⟩
    ⟨"tunnel_0_0", none, none, [7]⟩ 7
    ⟨by decide, by decide, rfl, by decide, by decide, by decide, by decide,
      by decide, by decide, by decide, by decide⟩
    ⟨by decide, by decide, by decide⟩
    (noDupTracked_of_pairwise _ (by decide))
    (antOwn_of_mem _ _ (by decide))
    (by decide) (by decide) rfl (by decide) (by decide) rfl hpass⟩

end AntsGui
